import Mathlib

/-!
Beam-search ensemble decoder: `amunmt::CPU::BestHyps::CalcBeam`.

A shallow embedding of `src/amun/cpu/decoder/best_hyps.cpp`.

* `float` scores are read in two ways.  The whole of `CalcBeam` is embedded over
  exact arithmetic, a score being a rational (`ℚ`) and a key a natural number below
  `2^32`: what is stated about the expansion loop, the cost breakdown, the errors
  and the heap does not turn on rounding.  Lines 6-14 and 48-85, where rounding,
  NaN and the width of `unsigned` decide which matrix is built and which keys are
  selected, are embedded a second time with the arithmetic of `float`
  (`Float32`, namespace `Binary32`).
* `HypothesisPtr` (a shared pointer) is an address into an explicit heap of
  `Hypothesis` records, so that the in-place backfill of a parent's cost
  breakdown is visible through every alias of that parent.
* Exceptions and unchecked out-of-range accesses are values of `Error`;
  the call returns the world it leaves behind together with the error, if any.
* `std::nth_element` belongs to the C++ standard library.  `CalcBeam` takes it
  as a parameter; theorems assume only the postcondition the standard gives
  (`NthElementContract`), and `sortedNthElement` is one implementation of it.
-/

namespace amunmt
namespace CPU

/-! ## Data model -/

abbrev Word := Nat
abbrev Words := List Word

/-- Address of a `Hypothesis` in the heap (`std::shared_ptr<Hypothesis>`). -/
abbrev HypothesisPtr := Nat

/-- Modelled from the spec: class `Hypothesis` (declared in `hypothesis.h`, not
part of the sources at hand).  Spec §3: emitted token id, source beam-slot
index, cumulative ensemble cost, per-scorer cost breakdown, per-scorer
alignment, and a back-reference to the parent hypothesis.  A freshly
constructed hypothesis has an empty cost breakdown. -/
structure Hypothesis where
  prevHyp : Option HypothesisPtr
  word : Nat
  prevIndex : Nat
  cost : ℚ
  alignments : List (List ℚ)
  costBreakdown : List ℚ
deriving DecidableEq, Repr

/-- The type `mblas::ArrayMatrix`: a dense row-major matrix, `data` being what
`data()` / `begin()` address (cell `(r, c)` at `r * columns + c`). -/
structure ArrayMatrix where
  rows : Nat
  columns : Nat
  data : List ℚ
deriving DecidableEq, Repr

/-- Class invariant of a matrix: it stores exactly `rows * columns` cells. -/
def ArrayMatrix.WF (m : ArrayMatrix) : Prop :=
  m.data.length = m.rows * m.columns

instance (m : ArrayMatrix) : Decidable m.WF := by
  unfold ArrayMatrix.WF; infer_instance

/-- Read the cell at a flat index (`data()[k]`). -/
def ArrayMatrix.cell (m : ArrayMatrix) (k : Nat) : ℚ :=
  m.data.getD k 0

/-- Read the cell at row `r`, column `c`. -/
def ArrayMatrix.at (m : ArrayMatrix) (r c : Nat) : ℚ :=
  m.cell (r * m.columns + c)

/-- Build a matrix from its rows (used to write down examples). -/
def ArrayMatrix.ofRows (columns : Nat) (rs : List (List ℚ)) : ArrayMatrix :=
  ⟨rs.length, columns, rs.flatten⟩

/-- Row `r` of a matrix (`begin(r)` to `end(r)`). -/
def ArrayMatrix.row (m : ArrayMatrix) (r : Nat) : List ℚ :=
  (m.data.drop (r * m.columns)).take m.columns

/-- The rows of a matrix, for display. -/
def ArrayMatrix.toRows (m : ArrayMatrix) : List (List ℚ) :=
  (List.range m.rows).map m.row

/-- A scorer as `CalcBeam` sees it: `GetName()`, `GetProbs()`, and, when the
`dynamic_cast` to `CPUEncoderDecoderBase` succeeds, `GetAttention()`. -/
structure Scorer where
  name : String
  probs : ArrayMatrix
  attention : Option ArrayMatrix
deriving DecidableEq, Repr

/-- The members of `BestHypsBase` set by the constructor of `BestHyps`
(lines 18-25), together with the global constant `UNK_ID` (declared outside the
sources at hand, hence a parameter).  `weights_` is the `std::map` from scorer
name to weight, as its lookup function. -/
structure BestHyps where
  forbidUNK_ : Bool
  returnNBestList_ : Bool
  isInputFiltered_ : Bool
  returnAttentionWeights_ : Bool
  weights_ : String → Option ℚ
  UNK_ID : Nat

/-- The ways a call can fail. -/
inductive Error where
  /-- Exception `std::out_of_range` thrown by `weights_.at(name)`. -/
  | missingWeight (name : String)
  /-- Exception `std::out_of_range` thrown by `prevHyps.at(hypIndex)`. -/
  | outOfRange
  /-- Exception thrown by a matrix operation on mismatching shapes or an
  invalid column index. -/
  | invalidArgument
  /-- Exception thrown by `amunmt_UTIL_THROW2`. -/
  | fatal (msg : String)
  /-- An unchecked access outside its bounds: C++ gives no guarantee. -/
  | undefinedBehaviour
deriving DecidableEq, Repr

/-- Modelled from the spec: class `Beams` (not part of the sources at hand).
Spec §3: "mapping from sentence index to the ordered sequence of newly created
Hypotheses for that step (insertion order = selection order)". -/
abbrev Beams := Nat → List HypothesisPtr

/-- The call `Beams::Add(ind, hypo)`: append to the beam of sentence `ind`. -/
def Beams.Add (beams : Beams) (ind : Nat) (hypo : HypothesisPtr) : Beams :=
  fun s => if s = ind then beams s ++ [hypo] else beams s

/-- Everything a call can read and change: the heap the hypothesis pointers
point into, and the `beams` argument. -/
structure World where
  heap : List Hypothesis
  beams : Beams

/-- What a call leaves behind, and the error it ended with, if any. -/
structure Outcome where
  world : World
  error : Option Error

/-! ## Matrix operations used by `CalcBeam` -/

/-- The statement `Probs *= w`. -/
def ArrayMatrix.scale (m : ArrayMatrix) (w : ℚ) : ArrayMatrix :=
  { m with data := m.data.map (fun x => x * w) }

/-- Modelled from the spec: `AddBiasVector<byColumn>(Probs, Costs)` (defined in
the CPU `mblas`, not part of the sources at hand).  Spec §4.1: "add the previous
cumulative cost as a per-row bias (broadcast across all columns of that row)". -/
def AddBiasVector_byColumn (m : ArrayMatrix) (b : ArrayMatrix) : ArrayMatrix :=
  { m with data := m.data.mapIdx (fun k x => x + b.cell (k / m.columns)) }

/-- The statement `Probs += w * currProb`; the matrix library throws when the
shapes differ. -/
def ArrayMatrix.addScaled (m : ArrayMatrix) (w : ℚ) (curr : ArrayMatrix) :
    Except Error ArrayMatrix :=
  if m.rows = curr.rows ∧ m.columns = curr.columns then
    .ok { m with data := List.zipWith (fun x y => x + w * y) m.data curr.data }
  else
    .error .invalidArgument

/-- The value `std::numeric_limits<float>::lowest()`, that is `-(2 - 2^-23) * 2^127`
or `-(2^128 - 2^104)`. -/
def lowest : ℚ := -340282346638528859811704183484516925440

/-- The statement `blaze::column(Probs, c) = v`; the matrix library throws when
`c` is not a column of the matrix. -/
def ArrayMatrix.setColumn (m : ArrayMatrix) (c : Nat) (v : ℚ) :
    Except Error ArrayMatrix :=
  if c < m.columns then
    .ok { m with data := m.data.mapIdx (fun k x => if k % m.columns = c then v else x) }
  else
    .error .invalidArgument

/-- The call `std::vector<float>::resize(n, x)`. -/
def resize (v : List ℚ) (n : Nat) (x : ℚ) : List ℚ :=
  v.take n ++ List.replicate (n - v.length) x

/-! ## `ProbCompare` and `std::nth_element` -/

/-- The comparator `ProbCompare(data_)(a, b)`, lines 6-14, over exact arithmetic and
for keys below `2^32`, which the conversion to `unsigned` leaves as they are:
`data_[a] > data_[b]`. -/
def ProbCompare (data_ : List ℚ) (a b : Nat) : Bool :=
  decide (data_.getD a 0 > data_.getD b 0)

/-- The type of `std::nth_element(first, first + nth, last, comp)` on a vector of
keys: it returns the rearranged vector. -/
abbrev NthElement := (Nat → Nat → Bool) → List Nat → Nat → List Nat

/-- The precondition the C++ standard puts on a comparator. -/
def StrictWeakOrdering (comp : Nat → Nat → Bool) : Prop :=
  (∀ a, comp a a = false) ∧
  (∀ a b c, comp a b = true → comp b c = true → comp a c = true) ∧
  (∀ a b c, comp a b = false → comp b c = false → comp a c = false)

/-- The postcondition the C++ standard gives for `std::nth_element`: the range is
permuted, and no element from `nth` on is ordered before an element in front of
`nth`. -/
def NthElementContract (nth_element : NthElement) : Prop :=
  ∀ (comp : Nat → Nat → Bool) (keys : List Nat) (nth : Nat),
    StrictWeakOrdering comp → nth ≤ keys.length →
    (nth_element comp keys nth).Perm keys ∧
    ∀ x ∈ (nth_element comp keys nth).take nth,
      ∀ y ∈ (nth_element comp keys nth).drop nth, comp y x = false

/-- One implementation of `std::nth_element`: a stable sort of the whole range. -/
def sortedNthElement : NthElement :=
  fun comp keys _ => keys.insertionSort (fun a b => comp b a = false)

/-! ## `BestHyps::CalcBeam`, the multi-scorer overload (lines 39-152) -/

/-- Lines 51-53, the reads: `prevHyps.at(i)->GetCost()` for every `i`. -/
def readCosts (heap : List Hypothesis) : List HypothesisPtr → Except Error (List ℚ)
  | [] => .ok []
  | p :: ps =>
    match heap[p]? with
    | none => .error .undefinedBehaviour
    | some h =>
      match readCosts heap ps with
      | .error e => .error e
      | .ok cs => .ok (h.cost :: cs)

/-- Lines 50-53: the column vector `Costs(Probs.rows(), 1)` holding the cost of
every previous hypothesis.  Writing `Costs.data()[i]` for `i` beyond the last
row is an unchecked access.  Entries the loop does not write keep the fill
value of the constructor, taken to be `0`. -/
def fillCosts (heap : List Hypothesis) (prevHyps : List HypothesisPtr) (rows : Nat) :
    Except Error ArrayMatrix :=
  match readCosts heap (prevHyps.take rows) with
  | .error e => .error e
  | .ok cs =>
    if prevHyps.length ≤ rows then
      .ok ⟨rows, 1, cs ++ List.replicate (rows - prevHyps.length) 0⟩
    else
      .error .undefinedBehaviour

/-- Lines 58-62: add every further scorer's matrix, scaled by its weight. -/
def addScorers (self : BestHyps) : ArrayMatrix → List Scorer → Except Error ArrayMatrix
  | Probs, [] => .ok Probs
  | Probs, s :: rest =>
    match self.weights_ s.name with
    | none => .error (.missingWeight s.name)
    | some w =>
      match Probs.addScaled w s.probs with
      | .error e => .error e
      | .ok Probs1 => addScorers self Probs1 rest

/-- Lines 48-62 over exact arithmetic: the joint score matrix, which overwrites the
matrix of `scorers[0]`. -/
def jointProbs (self : BestHyps) (heap : List Hypothesis) (prevHyps : List HypothesisPtr)
    (scorers : List Scorer) : Except Error ArrayMatrix :=
  match scorers with
  | [] => .error .undefinedBehaviour
  | s0 :: rest =>
    match fillCosts heap prevHyps s0.probs.rows with
    | .error e => .error e
    | .ok Costs =>
      match self.weights_ s0.name with
      | none => .error (.missingWeight s0.name)
      | some w0 =>
        addScorers self (AddBiasVector_byColumn (s0.probs.scale w0) Costs) rest

/-- What lines 64-98 hand over to the expansion loop. -/
structure Selection where
  /-- The joint matrix at the time of selection. -/
  Probs : ArrayMatrix
  /-- The key array after `std::nth_element`. -/
  keys : List Nat
  bestKeys : List Nat
  bestCosts : List ℚ
  breakDowns : List (List ℚ)
deriving DecidableEq, Repr

/-- Lines 75-77: with `forbidUNK_`, column `UNK_ID` is overwritten with the lowest
finite `float`. -/
def maskUNK (self : BestHyps) (Probs : ArrayMatrix) : Except Error ArrayMatrix :=
  if self.forbidUNK_ then Probs.setColumn self.UNK_ID lowest else .ok Probs

/-- Lines 64-85: overwrite the UNK column when asked to, rearrange the keys
`0 .. size-1` with `std::nth_element`, and copy the first `beamSize` keys and
their scores.  With `beamSize > size` both `keys.begin() + beamSize` and
`keys[i]` are out of range. -/
def topK (self : BestHyps) (nth_element : NthElement) (Probs : ArrayMatrix)
    (beamSize : Nat) : Except Error Selection :=
  let size := Probs.rows * Probs.columns
  let keys := List.range size
  match maskUNK self Probs with
  | .error e => .error e
  | .ok Probs1 =>
    if beamSize ≤ size then
      let keys1 := nth_element (ProbCompare Probs1.data) keys beamSize
      let bestKeys := keys1.take beamSize
      .ok ⟨Probs1, keys1, bestKeys, bestKeys.map Probs1.cell, []⟩
    else
      .error .undefinedBehaviour

/-- Lines 87-98: in n-best mode, the table `breakDowns`: first `bestCosts`, then
for every scorer its matrix read at the first `beamSize` keys.  `scorers` is the
scorer list as it is at that point, the matrix of `scorers[0]` being the joint
matrix. -/
def fillBreakDowns (self : BestHyps) (scorers : List Scorer) (beamSize : Nat)
    (sel : Selection) : Selection :=
  if self.returnNBestList_ then
    { sel with breakDowns :=
        sel.bestCosts :: scorers.map (fun s => (sel.keys.take beamSize).map s.probs.cell) }
  else sel

/-- Lines 114-123: one alignment per scorer, row `hypIndex` of its attention;
a scorer that is not a `CPUEncoderDecoderBase` makes the call throw. -/
def collectAlignments (hypIndex : Nat) : List Scorer → Except Error (List (List ℚ))
  | [] => .ok []
  | s :: rest =>
    match s.attention with
    | none => .error (.fatal "Return Alignment is allowed only with Nematus scorer.")
    | some attention =>
      if hypIndex < attention.rows then
        match collectAlignments hypIndex rest with
        | .error e => .error e
        | .ok alignments => .ok (attention.row hypIndex :: alignments)
      else
        .error .undefinedBehaviour

/-- Lines 139-140: a previous hypothesis whose cost breakdown is shorter than
`n = scorers.size()` has it extended with zeros to that length. -/
def backfill (n : Nat) (parent : Hypothesis) : Hypothesis :=
  if parent.costBreakdown.length < n then
    { parent with costBreakdown := resize parent.costBreakdown n 0 }
  else parent

/-- The variables the loop of lines 133-146 updates. -/
structure BreakdownState where
  heap : List Hypothesis
  /-- The cost breakdown of the new hypothesis. -/
  costBreakdown : List ℚ
  sum : ℚ

/-- Lines 133-146: the loop over `j`, from `j` on, `rest` being `scorers[j ..]`
and `n` being `scorers.size()`. -/
def breakdownLoop (self : BestHyps) (breakDowns : List (List ℚ)) (i : Nat)
    (prevHyp : HypothesisPtr) (n : Nat) :
    Nat → List Scorer → BreakdownState → BreakdownState × Option Error
  | _, [], st => (st, none)
  | j, s :: rest, st =>
    if j = 0 then
      breakdownLoop self breakDowns i prevHyp n (j + 1) rest
        { st with costBreakdown := st.costBreakdown.set 0 ((breakDowns.getD 0 []).getD i 0) }
    else
      match st.heap[prevHyp]? with
      | none => (st, some .undefinedBehaviour)
      | some parent =>
        let parent1 := backfill n parent
        let cost := (breakDowns.getD j []).getD i 0 + parent1.costBreakdown.getD j 0
        let st1 := { st with heap := st.heap.set prevHyp parent1 }
        match self.weights_ s.name with
        | none => (st1, some (.missingWeight s.name))
        | some w =>
          breakdownLoop self breakDowns i prevHyp n (j + 1) rest
            { st1 with sum := st1.sum + w * cost,
                       costBreakdown := st1.costBreakdown.set j cost }

/-- Lines 131-148: the cost breakdown of the new hypothesis; the heap changes
where a parent's breakdown is extended. -/
def costBreakdown (self : BestHyps) (scorers : List Scorer) (breakDowns : List (List ℚ))
    (i : Nat) (prevHyp : HypothesisPtr) (heap : List Hypothesis) :
    List Hypothesis × Except Error (List ℚ) :=
  match breakdownLoop self breakDowns i prevHyp scorers.length 0 scorers
      ⟨heap, resize [] scorers.length 0, 0⟩ with
  | (st, some e) => (st.heap, .error e)
  | (st, none) =>
    match scorers.head? with
    | none => (st.heap, .error .undefinedBehaviour)
    | some s0 =>
      match self.weights_ s0.name with
      | none => (st.heap, .error (.missingWeight s0.name))
      | some w0 =>
        (st.heap, .ok (st.costBreakdown.set 0 ((st.costBreakdown.getD 0 0 - st.sum) / w0)))

/-- Line 150, `beams.Add(0, hyp)`, for a hypothesis that lives at a fresh address. -/
def World.addHyp (w : World) (hyp : Hypothesis) : World :=
  ⟨w.heap ++ [hyp], w.beams.Add 0 w.heap.length⟩

/-- Lines 101-150: the body of the expansion loop for the `i`-th selected key. -/
def expandOne (self : BestHyps) (prevHyps : List HypothesisPtr) (scorers : List Scorer)
    (filterIndices : Words) (sel : Selection) (i : Nat) (w : World) : Outcome :=
  let key := sel.bestKeys.getD i 0
  let wordIndex := key % sel.Probs.columns
  match (if self.isInputFiltered_ then filterIndices[wordIndex]? else some wordIndex) with
  | none => ⟨w, some .undefinedBehaviour⟩
  | some wordIndex =>
    let hypIndex := key / sel.Probs.columns
    match prevHyps[hypIndex]? with
    | none => ⟨w, some .outOfRange⟩
    | some prevHyp =>
      let cost := sel.bestCosts.getD i 0
      match (if self.returnAttentionWeights_ then collectAlignments hypIndex scorers
             else .ok []) with
      | .error e => ⟨w, some e⟩
      | .ok alignments =>
        let hyp : Hypothesis := ⟨some prevHyp, wordIndex, hypIndex, cost, alignments, []⟩
        if self.returnNBestList_ then
          match costBreakdown self scorers sel.breakDowns i prevHyp w.heap with
          | (heap1, .error e) => ⟨{ w with heap := heap1 }, some e⟩
          | (heap1, .ok bd) =>
            ⟨World.addHyp { w with heap := heap1 } { hyp with costBreakdown := bd }, none⟩
        else
          ⟨w.addHyp hyp, none⟩

/-- Lines 100-151: the expansion loop over the indices still to do; it stops at
the first error. -/
def expandLoop (self : BestHyps) (prevHyps : List HypothesisPtr) (scorers : List Scorer)
    (filterIndices : Words) (sel : Selection) : List Nat → World → Outcome
  | [], w => ⟨w, none⟩
  | i :: is, w =>
    match expandOne self prevHyps scorers filterIndices sel i w with
    | ⟨w1, none⟩ => expandLoop self prevHyps scorers filterIndices sel is w1
    | ⟨w1, some e⟩ => ⟨w1, some e⟩

/-- The scorer list after line 62: `scorers[0]->GetProbs()` is the joint matrix. -/
def overwriteFirst (scorers : List Scorer) (Probs : ArrayMatrix) : List Scorer :=
  match scorers with
  | [] => []
  | s0 :: rest => { s0 with probs := Probs } :: rest

/-- Lines 48-98: everything before the expansion loop. -/
def selectBest (self : BestHyps) (nth_element : NthElement) (heap : List Hypothesis)
    (prevHyps : List HypothesisPtr) (scorers : List Scorer) (beamSize : Nat) :
    Except Error Selection :=
  match jointProbs self heap prevHyps scorers with
  | .error e => .error e
  | .ok Probs =>
    match topK self nth_element Probs beamSize with
    | .error e => .error e
    | .ok sel => .ok (fillBreakDowns self (overwriteFirst scorers sel.Probs) beamSize sel)

/-- The function `BestHyps::CalcBeam(prevHyps, scorers, filterIndices, beams, beamSizes)`,
lines 39-152; `beamSize` is `beamSizes.GetOnly().size`. -/
def CalcBeam (self : BestHyps) (nth_element : NthElement) (prevHyps : List HypothesisPtr)
    (scorers : List Scorer) (filterIndices : Words) (beamSize : Nat) (w : World) : Outcome :=
  match selectBest self nth_element w.heap prevHyps scorers beamSize with
  | .error e => ⟨w, some e⟩
  | .ok sel => expandLoop self prevHyps scorers filterIndices sel (List.range beamSize) w

/-- The weight of a scorer name that has one. -/
def BestHyps.weight (self : BestHyps) (name : String) : ℚ :=
  (self.weights_ name).getD 0

/-! ## Closed forms used to state what the expansion loop computes -/

/-- The entries the loop of lines 133-146 writes for the indices `j, j+1, ..`
(`j ≥ 1`), one per scorer of `rest`: `breakDowns[j][i]` plus the parent's entry. -/
def tailEntries (breakDowns : List (List ℚ)) (i : Nat) (parentBD : List ℚ) :
    Nat → List Scorer → List ℚ
  | _, [] => []
  | j, _ :: rest =>
    ((breakDowns.getD j []).getD i 0 + parentBD.getD j 0) ::
      tailEntries breakDowns i parentBD (j + 1) rest

/-- The weighted sum `Σ w_s * b` over scorers and breakdown entries, pairwise. -/
def weightedSum (self : BestHyps) (scorers : List Scorer) (bd : List ℚ) : ℚ :=
  (List.zipWith (fun s b => self.weight s.name * b) scorers bd).sum

/-- The cost breakdown lines 131-148 give the `i`-th new hypothesis, for a parent
whose breakdown is `parentBD`. -/
def breakdownOf (self : BestHyps) (scorers : List Scorer) (breakDowns : List (List ℚ))
    (i : Nat) (parentBD : List ℚ) : List ℚ :=
  match scorers with
  | [] => []
  | s0 :: rest =>
    (((breakDowns.getD 0 []).getD i 0 -
        weightedSum self rest (tailEntries breakDowns i parentBD 1 rest)) /
      self.weight s0.name) :: tailEntries breakDowns i parentBD 1 rest

/-- One alignment per scorer, in scorer order: row `hypIndex` of its attention. -/
def alignmentsOf (hypIndex : Nat) (scorers : List Scorer) : List (List ℚ) :=
  scorers.map (fun s => ((s.attention.map (fun a => a.row hypIndex)).getD []))

/-- The previous hypothesis the `i`-th selected key extends: `prevHyps.at(hypIndex)`. -/
def parentOf (prevHyps : List HypothesisPtr) (sel : Selection) (i : Nat) : HypothesisPtr :=
  prevHyps.getD (sel.bestKeys.getD i 0 / sel.Probs.columns) 0

/-- The cost breakdown stored at an address of the heap. -/
def breakdownAt (heap : List Hypothesis) (p : HypothesisPtr) : List ℚ :=
  ((heap[p]?).map Hypothesis.costBreakdown).getD []

/-- The hypothesis lines 101-149 build for the `i`-th selected key, for a parent
whose breakdown is `parentBD`. -/
def newHypothesis (self : BestHyps) (prevHyps : List HypothesisPtr) (scorers : List Scorer)
    (filterIndices : Words) (sel : Selection) (i : Nat) (parentBD : List ℚ) : Hypothesis :=
  { prevHyp := some (parentOf prevHyps sel i)
    word :=
      if self.isInputFiltered_ then
        filterIndices.getD (sel.bestKeys.getD i 0 % sel.Probs.columns) 0
      else sel.bestKeys.getD i 0 % sel.Probs.columns
    prevIndex := sel.bestKeys.getD i 0 / sel.Probs.columns
    cost := sel.bestCosts.getD i 0
    alignments :=
      if self.returnAttentionWeights_ then
        alignmentsOf (sel.bestKeys.getD i 0 / sel.Probs.columns) scorers
      else []
    costBreakdown :=
      if self.returnNBestList_ then breakdownOf self scorers sel.breakDowns i parentBD
      else [] }

/-- Apply `f` to the heap cell at address `p`, if there is one. -/
def updateAt (f : Hypothesis → Hypothesis) (p : HypothesisPtr) (heap : List Hypothesis) :
    List Hypothesis :=
  match heap[p]? with
  | some h => heap.set p (f h)
  | none => heap

/-- What one round of the expansion loop does to the hypotheses already in the
heap: in n-best mode with two scorers or more, the parent is backfilled. -/
def backfillStep (self : BestHyps) (prevHyps : List HypothesisPtr) (scorers : List Scorer)
    (sel : Selection) (heap : List Hypothesis) (i : Nat) : List Hypothesis :=
  if self.returnNBestList_ = true ∧ 2 ≤ scorers.length then
    updateAt (backfill scorers.length) (parentOf prevHyps sel i) heap
  else heap

/-- What the rounds `is` of the expansion loop do to the hypotheses already in
the heap. -/
def backfillParents (self : BestHyps) (prevHyps : List HypothesisPtr) (scorers : List Scorer)
    (sel : Selection) (is : List Nat) (heap : List Hypothesis) : List Hypothesis :=
  is.foldl (backfillStep self prevHyps scorers sel) heap

/-- Append the pointers `ptrs` to the beam of sentence `ind`. -/
def Beams.AddAll (beams : Beams) (ind : Nat) (ptrs : List HypothesisPtr) : Beams :=
  fun s => if s = ind then beams s ++ ptrs else beams s

/-! ## Well-formed input -/

/-- The costs of the previous hypotheses, `prevHyps.at(i)->GetCost()`. -/
def costsOf (heap : List Hypothesis) (prevHyps : List HypothesisPtr) : List ℚ :=
  prevHyps.map (fun p => ((heap[p]?).map Hypothesis.cost).getD 0)

/-- Well-formed input of `CalcBeam`, for matrices of `rows` rows and `V` columns:
at least one scorer, equally shaped matrices, one live previous hypothesis per
row, a beam size within the number of cells, a weight for every scorer, `UNK_ID`
a column when UNK is forbidden, a filter table covering every column when the
input is filtered, and an attention with a row per previous hypothesis for every
scorer when alignments are asked for. -/
structure WellFormed (cfg : BestHyps) (prevHyps : List HypothesisPtr) (scorers : List Scorer)
    (filterIndices : Words) (beamSize : Nat) (heap : List Hypothesis) (rows V : Nat) :
    Prop where
  scorers_ne : scorers ≠ []
  shape : ∀ s ∈ scorers, s.probs.rows = rows ∧ s.probs.columns = V ∧ s.probs.WF
  columns_pos : 0 < V
  prevHyps_length : prevHyps.length = rows
  prevHyps_valid : ∀ p ∈ prevHyps, p < heap.length
  beamSize_le : beamSize ≤ rows * V
  weights : ∀ s ∈ scorers, (cfg.weights_ s.name).isSome = true
  unk : cfg.forbidUNK_ = true → cfg.UNK_ID < V
  filter : cfg.isInputFiltered_ = true → V ≤ filterIndices.length
  attention : cfg.returnAttentionWeights_ = true →
    ∀ s ∈ scorers, ∃ att, s.attention = some att ∧ rows ≤ att.rows

/-- What lines 48-98 establish about the selection they hand over. -/
structure SelectionSpec (cfg : BestHyps) (prevHyps : List HypothesisPtr)
    (scorers : List Scorer) (beamSize : Nat) (heap : List Hypothesis) (rows V : Nat)
    (sel : Selection) : Prop where
  joint : ∃ J, jointProbs cfg heap prevHyps scorers = .ok J ∧ J.rows = rows ∧
    J.columns = V ∧ J.WF ∧ maskUNK cfg J = .ok sel.Probs
  rows_eq : sel.Probs.rows = rows
  columns_eq : sel.Probs.columns = V
  wf : sel.Probs.WF
  length : sel.bestKeys.length = beamSize
  nodup : sel.bestKeys.Nodup
  lt : ∀ key ∈ sel.bestKeys, key < rows * V
  largest : ∀ key ∈ sel.bestKeys, ∀ other, other < rows * V → other ∉ sel.bestKeys →
    sel.Probs.cell other ≤ sel.Probs.cell key
  costs : sel.bestCosts = sel.bestKeys.map sel.Probs.cell
  breakDowns : sel.breakDowns =
    if cfg.returnNBestList_ = true then
      sel.bestCosts :: (overwriteFirst scorers sel.Probs).map
        (fun s => sel.bestKeys.map s.probs.cell)
    else []

/-! ## The scenario of the specification (§8) -/

/-- The matrix of the single scorer: rows `[0.1, 0.9, 0.2]` and `[0.05, 0.05, 0.05]`. -/
def scenarioProbs : ArrayMatrix :=
  ArrayMatrix.ofRows 3 [[1/10, 9/10, 2/10], [1/20, 1/20, 1/20]]

/-- The joint matrix of the scenario: rows `[0.1, 0.9, 0.2]` and `[-0.95, -0.95, -0.95]`. -/
def scenarioJoint : ArrayMatrix :=
  ArrayMatrix.ofRows 3 [[1/10, 9/10, 2/10], [-19/20, -19/20, -19/20]]

/-- Two previous hypotheses, roots, with costs `0.0` and `-1.0`. -/
def scenarioHeap : List Hypothesis :=
  [⟨none, 0, 0, 0, [], []⟩, ⟨none, 0, 0, -1, [], []⟩]

/-- A single scorer `F0`. -/
def scenarioScorers : List Scorer := [⟨"F0", scenarioProbs, none⟩]

/-- All options off, weight `1.0` for `F0`, and `UNK_ID = 1`. -/
def scenarioSelf : BestHyps :=
  ⟨false, false, false, false, fun name => if name = "F0" then some 1 else none, 1⟩

/-- The world before the call: the two previous hypotheses, and empty beams. -/
def scenarioWorld : World := ⟨scenarioHeap, fun _ => []⟩

/-! ## An ensemble of two scorers in n-best mode -/

/-- Two scorers `F0` and `F1` over the same two previous hypotheses. -/
def ensembleScorers : List Scorer :=
  [⟨"F0", scenarioProbs, none⟩, ⟨"F1", ArrayMatrix.ofRows 3 [[1, 2, 3], [4, 5, 6]], none⟩]

/-- The joint matrix of the two scorers: rows `[0.6, 1.9, 1.7]` and
`[1.05, 1.55, 2.05]`. -/
def ensembleJoint : ArrayMatrix :=
  ArrayMatrix.ofRows 3 [[6/10, 19/10, 17/10], [21/20, 31/20, 41/20]]

/-- The n-best mode on, weight `1.0` for `F0` and `0.5` for `F1`. -/
def ensembleSelf : BestHyps :=
  ⟨false, true, false, false,
    fun name => if name = "F0" then some 1 else if name = "F1" then some (1/2) else none, 1⟩

/-! ## Inputs at the edge of the score range -/

/-- The scenario of the specification with vocabulary filtering on. -/
def scenarioFilterSelf : BestHyps := { scenarioSelf with isInputFiltered_ := true }

/-- A filter table for the three columns: full vocabulary ids `10`, `42`, `77`. -/
def scenarioFilter : Words := [10, 42, 77]

/-! ## Configurations that make the call fail -/

/-- The scenario of the specification with an empty weight table. -/
def noWeightSelf : BestHyps := { scenarioSelf with weights_ := fun _ => none }

/-- The scenario of the specification with alignment capture on. -/
def scenarioAlignSelf : BestHyps := { scenarioSelf with returnAttentionWeights_ := true }

/-- The scorer of the scenario with an attention over two source positions, one
row per previous hypothesis. -/
def attentionScorers : List Scorer :=
  [⟨"F0", scenarioProbs, some (ArrayMatrix.ofRows 2 [[1/4, 3/4], [1/2, 1/2]])⟩]

/-- A filter table with a single entry, too short for the three columns. -/
def shortFilter : Words := [5]

/-! ## Frame of a call -/

/-- The heap `H1` has the cells of `H0`, each one as it was or, if its breakdown was
shorter than `n` and `may` holds of its address, backfilled with zeros to length
`n`. -/
def Backfilled (n : Nat) (may : HypothesisPtr → Prop) (H0 H1 : List Hypothesis) : Prop :=
  H1.length = H0.length ∧
  ∀ q h, H0[q]? = some h →
    H1[q]? = some h ∨
    (H1[q]? = some (backfill n h) ∧ h.costBreakdown.length < n ∧ may q)

/-! ## Lineage of hypotheses -/

/-- The hypothesis at address `p` has exactly `n` ancestors up to a root: following
`n` parent links from `p` stays in the heap and ends at a hypothesis without
parent. -/
def hasDepth (heap : List Hypothesis) : Nat → HypothesisPtr → Bool
  | 0, p =>
    match heap[p]? with
    | some h => h.prevHyp.isNone
    | none => false
  | n + 1, p =>
    match heap[p]? with
    | some h =>
      match h.prevHyp with
      | some q => hasDepth heap n q
      | none => false
    | none => false

/-- The hypothesis reached from address `p` by following `k` parent links, if the
chain is that long. -/
def ancestorAt (heap : List Hypothesis) : Nat → HypothesisPtr → Option HypothesisPtr
  | 0, p => if p < heap.length then some p else none
  | k + 1, p =>
    match heap[p]? with
    | some h =>
      match h.prevHyp with
      | some q => ancestorAt heap k q
      | none => none
    | none => none

/-- What one decoding step is given besides the previous hypotheses. -/
structure Step where
  scorers : List Scorer
  filterIndices : Words
  beamSize : Nat

/-- Modelled from the spec: the surrounding search loop (not part of the sources at
hand).  Spec §2 and §5: one call per decoding step, each with a fresh `Beams`,
"step n+1 for a sentence strictly depends on step n's surviving Beam Store
entries"; here the hypotheses a step appends to the beam of sentence 0 are the
previous hypotheses of the next step.  The result is the last list of previous
hypotheses and the outcome of the last call made. -/
def decodeSteps (self : BestHyps) (nth_element : NthElement) :
    List Step → List HypothesisPtr → List Hypothesis → List HypothesisPtr × Outcome
  | [], prevHyps, heap => (prevHyps, ⟨⟨heap, fun _ => []⟩, none⟩)
  | s :: rest, prevHyps, heap =>
    match CalcBeam self nth_element prevHyps s.scorers s.filterIndices s.beamSize
        ⟨heap, fun _ => []⟩ with
    | ⟨w1, none⟩ => decodeSteps self nth_element rest (w1.beams 0) w1.heap
    | ⟨w1, some e⟩ => (prevHyps, ⟨w1, some e⟩)

/-- One decoding step of the scenario: its single scorer, no filter, beam size 2. -/
def scenarioStep : Step := ⟨scenarioScorers, [], 2⟩

/-! ## A call with every option on -/

/-- Two scorers `F0` and `F1`, each with an attention over two source positions,
one row per previous hypothesis. -/
def fullScorers : List Scorer :=
  [⟨"F0", scenarioProbs, some (ArrayMatrix.ofRows 2 [[1/4, 3/4], [1/2, 1/2]])⟩,
   ⟨"F1", ArrayMatrix.ofRows 3 [[1, 2, 3], [4, 5, 6]],
      some (ArrayMatrix.ofRows 2 [[1/3, 2/3], [1, 0]])⟩]

/-- UNK suppression (`UNK_ID = 1`), n-best mode, vocabulary filtering and alignment
capture all on; weight `1.0` for `F0` and `0.5` for `F1`. -/
def fullSelf : BestHyps :=
  ⟨true, true, true, true,
    fun name => if name = "F0" then some 1 else if name = "F1" then some (1/2) else none, 1⟩

/-! ## The arithmetic of `float` -/

/-- The values of the C++ type `float` (IEEE-754 binary32): a NaN, the two
infinities, and the real numbers `m * 2^e` with `|m| < 2^24` and
`-149 ≤ e ≤ 104`, written `finite q`.  The sign of a zero is not kept: no product,
sum or comparison tells `+0` from `-0`. -/
inductive Float32 where
  | nan
  | ninf
  | finite (q : ℚ)
  | pinf
deriving DecidableEq, Repr

/-- The number of binary digits of `n`, for `n < 2 ^ fuel`. -/
def bitLength : Nat → Nat → Nat
  | 0, _ => 0
  | fuel + 1, n => if n = 0 then 0 else bitLength fuel (n / 2) + 1

/-- The integer nearest to `a / b`, the even one of two equally near. -/
def roundHalfEven (a b : Nat) : Nat :=
  if 2 * (a % b) < b then a / b
  else if b < 2 * (a % b) then a / b + 1
  else if (a / b) % 2 = 0 then a / b else a / b + 1

/-- Rounding of a real number to `float`, to nearest and ties to even (the rounding
of every `float` operation in the default mode).  From `2^128 - 2^103` on, halfway
between the largest `float` and `2^128`, the result is an infinity.  Below that,
`|x|` is `a / den` in units of `2^-149`, the smallest positive `float`; a number
of `b > 24` binary digits lies between neighbours `2^(b - 24)` units apart, a
smaller one between neighbours one unit apart.  That the result is a `float`
nearest to `x` is `round32_nearest`. -/
def round32 (x : ℚ) : Float32 :=
  if 340282356779733661637539395458142568448 * x.den ≤ x.num.natAbs then
    (if x.num < 0 then .ninf else .pinf)
  else
    let a := x.num.natAbs * 713623846352979940529142984724747568191373312
    let q := 2 ^ (bitLength 277 (a / x.den) - 24)
    let m := roundHalfEven a (x.den * q) * q
    .finite (mkRat (if x.num < 0 then -(m : ℤ) else m)
      713623846352979940529142984724747568191373312)

/-- The real numbers a `float` can hold: `m * 2^e` in units of `2^-149`, with
`|m| < 2^24` and `e ≤ 253`. -/
def IsFloat32 (y : ℚ) : Prop :=
  ∃ (m : ℤ) (e : ℕ), |m| < 16777216 ∧ e ≤ 253 ∧
    y = m * 2 ^ e / 713623846352979940529142984724747568191373312

/-- The product `a * b` of two `float`s. -/
def Float32.mul : Float32 → Float32 → Float32
  | .nan, _ => .nan
  | _, .nan => .nan
  | .finite a, .finite b => round32 (a * b)
  | .finite a, .pinf => if a = 0 then .nan else if a < 0 then .ninf else .pinf
  | .finite a, .ninf => if a = 0 then .nan else if a < 0 then .pinf else .ninf
  | .pinf, .finite b => if b = 0 then .nan else if b < 0 then .ninf else .pinf
  | .ninf, .finite b => if b = 0 then .nan else if b < 0 then .pinf else .ninf
  | .pinf, .pinf => .pinf
  | .pinf, .ninf => .ninf
  | .ninf, .pinf => .ninf
  | .ninf, .ninf => .pinf

/-- The sum `a + b` of two `float`s. -/
def Float32.add : Float32 → Float32 → Float32
  | .nan, _ => .nan
  | _, .nan => .nan
  | .finite a, .finite b => round32 (a + b)
  | .finite _, .pinf => .pinf
  | .finite _, .ninf => .ninf
  | .pinf, .finite _ => .pinf
  | .ninf, .finite _ => .ninf
  | .pinf, .pinf => .pinf
  | .ninf, .ninf => .ninf
  | .pinf, .ninf => .nan
  | .ninf, .pinf => .nan

/-- The comparison `a > b` of two `float`s: false when either is a NaN. -/
def Float32.gt : Float32 → Float32 → Bool
  | .nan, _ => false
  | _, .nan => false
  | .pinf, .pinf => false
  | .pinf, _ => true
  | .finite _, .pinf => false
  | .finite a, .finite b => decide (a > b)
  | .finite _, .ninf => true
  | .ninf, _ => false

/-- The comparison `a >= b` of two `float`s: false when either is a NaN. -/
def Float32.ge : Float32 → Float32 → Bool
  | .nan, _ => false
  | _, .nan => false
  | .pinf, _ => true
  | .finite _, .pinf => false
  | .finite a, .finite b => decide (a ≥ b)
  | .finite _, .ninf => true
  | .ninf, .ninf => true
  | .ninf, _ => false

/-- The value `std::numeric_limits<float>::lowest()` as a `float`. -/
def Float32.lowest : Float32 := .finite (-340282346638528859811704183484516925440)

/-- The conversion of a `size_t` to `unsigned` (32 bits wide): the value modulo
`2^32`. -/
def toUnsigned (n : Nat) : Nat := n % 4294967296

/-! ## Lines 6-14 and 48-85 with the arithmetic of `float`

The definitions of this section read the same source lines as `ProbCompare`,
`jointProbs` and `topK`, with every score a `Float32`, every product and sum
rounded, and the keys converted to `unsigned` where the comparator takes them. -/

namespace Binary32

/-- Modelled from the spec: class `Hypothesis`, as `CPU.Hypothesis`, with `float`
members. -/
structure Hypothesis where
  prevHyp : Option HypothesisPtr
  word : Nat
  prevIndex : Nat
  cost : Float32
  alignments : List (List Float32)
  costBreakdown : List Float32
deriving DecidableEq, Repr

/-- The type `mblas::ArrayMatrix`: a dense row-major matrix of `float`s. -/
structure ArrayMatrix where
  rows : Nat
  columns : Nat
  data : List Float32
deriving DecidableEq, Repr

/-- Class invariant of a matrix: it stores exactly `rows * columns` cells. -/
def ArrayMatrix.WF (m : ArrayMatrix) : Prop :=
  m.data.length = m.rows * m.columns

instance (m : ArrayMatrix) : Decidable m.WF := by
  unfold ArrayMatrix.WF; infer_instance

/-- Read the cell at a flat index (`data()[k]`). -/
def ArrayMatrix.cell (m : ArrayMatrix) (k : Nat) : Float32 :=
  m.data.getD k (.finite 0)

/-- Read the cell at row `r`, column `c`. -/
def ArrayMatrix.at (m : ArrayMatrix) (r c : Nat) : Float32 :=
  m.cell (r * m.columns + c)

/-- Build a matrix from its rows (used to write down examples). -/
def ArrayMatrix.ofRows (columns : Nat) (rs : List (List Float32)) : ArrayMatrix :=
  ⟨rs.length, columns, rs.flatten⟩

/-- A scorer as lines 48-85 see it: `GetName()` and `GetProbs()`. -/
structure Scorer where
  name : String
  probs : ArrayMatrix
deriving DecidableEq, Repr

/-- The members of `BestHypsBase` lines 48-85 read, and the constant `UNK_ID`. -/
structure BestHyps where
  forbidUNK_ : Bool
  weights_ : String → Option Float32
  UNK_ID : Nat

/-- The statement `Probs *= w`. -/
def ArrayMatrix.scale (m : ArrayMatrix) (w : Float32) : ArrayMatrix :=
  { m with data := m.data.map (fun x => x.mul w) }

/-- Modelled from the spec: `AddBiasVector<byColumn>(Probs, Costs)`, as
`CPU.AddBiasVector_byColumn`. -/
def AddBiasVector_byColumn (m : ArrayMatrix) (b : ArrayMatrix) : ArrayMatrix :=
  { m with data := m.data.mapIdx (fun k x => x.add (b.cell (k / m.columns))) }

/-- The statement `Probs += w * currProb`: every cell of `currProb` is multiplied
by `w`, the product is rounded, and the sum with the cell of `Probs` is rounded;
the matrix library throws when the shapes differ. -/
def ArrayMatrix.addScaled (m : ArrayMatrix) (w : Float32) (curr : ArrayMatrix) :
    Except Error ArrayMatrix :=
  if m.rows = curr.rows ∧ m.columns = curr.columns then
    .ok { m with data := List.zipWith (fun x y => x.add (w.mul y)) m.data curr.data }
  else
    .error .invalidArgument

/-- The statement `blaze::column(Probs, c) = v`. -/
def ArrayMatrix.setColumn (m : ArrayMatrix) (c : Nat) (v : Float32) :
    Except Error ArrayMatrix :=
  if c < m.columns then
    .ok { m with data := m.data.mapIdx (fun k x => if k % m.columns = c then v else x) }
  else
    .error .invalidArgument

/-- The comparator `ProbCompare(data_)(a, b)`, lines 6-14: the parameters are
`unsigned`, so the `size_t` keys are converted, and the result is
`data_[a] > data_[b]` on `float`s. -/
def ProbCompare (data_ : List Float32) (a b : Nat) : Bool :=
  (data_.getD (toUnsigned a) (.finite 0)).gt (data_.getD (toUnsigned b) (.finite 0))

/-- Lines 51-53, the reads: `prevHyps.at(i)->GetCost()` for every `i`. -/
def readCosts (heap : List Hypothesis) : List HypothesisPtr → Except Error (List Float32)
  | [] => .ok []
  | p :: ps =>
    match heap[p]? with
    | none => .error .undefinedBehaviour
    | some h =>
      match readCosts heap ps with
      | .error e => .error e
      | .ok cs => .ok (h.cost :: cs)

/-- Lines 50-53: the column vector `Costs(Probs.rows(), 1)`, as `CPU.fillCosts`. -/
def fillCosts (heap : List Hypothesis) (prevHyps : List HypothesisPtr) (rows : Nat) :
    Except Error ArrayMatrix :=
  match readCosts heap (prevHyps.take rows) with
  | .error e => .error e
  | .ok cs =>
    if prevHyps.length ≤ rows then
      .ok ⟨rows, 1, cs ++ List.replicate (rows - prevHyps.length) (.finite 0)⟩
    else
      .error .undefinedBehaviour

/-- Lines 58-62: add every further scorer's matrix, scaled by its weight. -/
def addScorers (self : BestHyps) : ArrayMatrix → List Scorer → Except Error ArrayMatrix
  | Probs, [] => .ok Probs
  | Probs, s :: rest =>
    match self.weights_ s.name with
    | none => .error (.missingWeight s.name)
    | some w =>
      match Probs.addScaled w s.probs with
      | .error e => .error e
      | .ok Probs1 => addScorers self Probs1 rest

/-- Lines 48-62: the joint score matrix, which overwrites the matrix of
`scorers[0]`. -/
def jointProbs (self : BestHyps) (heap : List Hypothesis) (prevHyps : List HypothesisPtr)
    (scorers : List Scorer) : Except Error ArrayMatrix :=
  match scorers with
  | [] => .error .undefinedBehaviour
  | s0 :: rest =>
    match fillCosts heap prevHyps s0.probs.rows with
    | .error e => .error e
    | .ok Costs =>
      match self.weights_ s0.name with
      | none => .error (.missingWeight s0.name)
      | some w0 =>
        addScorers self (AddBiasVector_byColumn (s0.probs.scale w0) Costs) rest

/-- What lines 64-85 leave behind. -/
structure Selection where
  /-- The joint matrix at the time of selection. -/
  Probs : ArrayMatrix
  /-- The key array after `std::nth_element`. -/
  keys : List Nat
  bestKeys : List Nat
  bestCosts : List Float32
deriving DecidableEq, Repr

/-- Lines 75-77: with `forbidUNK_`, column `UNK_ID` is overwritten with the lowest
finite `float`. -/
def maskUNK (self : BestHyps) (Probs : ArrayMatrix) : Except Error ArrayMatrix :=
  if self.forbidUNK_ then Probs.setColumn self.UNK_ID Float32.lowest else .ok Probs

/-- Lines 64-85: overwrite the UNK column when asked to, rearrange the keys
`0 .. size-1` with `std::nth_element`, and copy the first `beamSize` keys and
their scores.  With `beamSize > size` both `keys.begin() + beamSize` and
`keys[i]` are out of range. -/
def topK (self : BestHyps) (nth_element : NthElement) (Probs : ArrayMatrix)
    (beamSize : Nat) : Except Error Selection :=
  let size := Probs.rows * Probs.columns
  let keys := List.range size
  match maskUNK self Probs with
  | .error e => .error e
  | .ok Probs1 =>
    if beamSize ≤ size then
      let keys1 := nth_element (ProbCompare Probs1.data) keys beamSize
      let bestKeys := keys1.take beamSize
      .ok ⟨Probs1, keys1, bestKeys, bestKeys.map Probs1.cell⟩
    else
      .error .undefinedBehaviour

/-- The weight of a scorer name that has one. -/
def BestHyps.weight (self : BestHyps) (name : String) : Float32 :=
  (self.weights_ name).getD (.finite 0)

/-! ### The scenario of the specification (§8) in `float`s -/

/-- The matrix of the single scorer: rows `[0.1, 0.9, 0.2]` and `[0.05, 0.05, 0.05]`,
each decimal standing for the nearest `float`. -/
def scenarioProbs : ArrayMatrix :=
  .ofRows 3 [[round32 (1/10), round32 (9/10), round32 (2/10)],
    [round32 (1/20), round32 (1/20), round32 (1/20)]]

/-- The joint matrix of the scenario: rows `[0.1, 0.9, 0.2]` and
`[-0.95, -0.95, -0.95]`, each decimal standing for the nearest `float`. -/
def scenarioJoint : ArrayMatrix :=
  .ofRows 3 [[round32 (1/10), round32 (9/10), round32 (2/10)],
    [round32 (-19/20), round32 (-19/20), round32 (-19/20)]]

/-- Two previous hypotheses, roots, with costs `0.0` and `-1.0`. -/
def scenarioHeap : List Hypothesis :=
  [⟨none, 0, 0, .finite 0, [], []⟩, ⟨none, 0, 0, .finite (-1), [], []⟩]

/-- A single scorer `F0`. -/
def scenarioScorers : List Scorer := [⟨"F0", scenarioProbs⟩]

/-- UNK allowed, weight `1.0` for `F0`, and `UNK_ID = 1`. -/
def scenarioSelf : BestHyps :=
  ⟨false, fun name => if name = "F0" then some (.finite 1) else none, 1⟩

/-! ### A cost beyond the precision of the scores -/

/-- One previous hypothesis, a root of cost `2^25`. -/
def largeCostHeap : List Hypothesis := [⟨none, 0, 0, .finite 33554432, [], []⟩]

/-- One scorer whose matrix has the single row `[0.5, 1.0]`. -/
def largeCostScorers : List Scorer := [⟨"F0", .ofRows 2 [[.finite (1/2), .finite 1]]⟩]

/-- One previous hypothesis, a root of cost `0`. -/
def rootHeap : List Hypothesis := [⟨none, 0, 0, .finite 0, [], []⟩]

/-- Weight `1.0` for `F0` and `0.5` for `F1`. -/
def halfSelf : BestHyps :=
  ⟨false, fun name => if name = "F0" then some (.finite 1)
    else if name = "F1" then some (.finite (1/2)) else none, 1⟩

/-- Two scorers over one row of one column: `F0` with the score `2^25`, and `F1`
with the score `1.0`. -/
def largeScoreScorers : List Scorer :=
  [⟨"F0", .ofRows 1 [[.finite 33554432]]⟩, ⟨"F1", .ofRows 1 [[.finite 1]]⟩]

/-- Weight `1 + 2^-23` for `F0`. -/
def fineSelf : BestHyps :=
  ⟨false, fun name => if name = "F0" then some (.finite (8388609/8388608)) else none, 1⟩

/-- One scorer with the single score `1 + 2^-23`. -/
def fineScorers : List Scorer := [⟨"F0", .ofRows 1 [[.finite (8388609/8388608)]]⟩]

/-! ### A score that is not a number -/

/-- Weight `1.0` for `F0` and `0.0` for `F1`. -/
def nanSelf : BestHyps :=
  ⟨false, fun name => if name = "F0" then some (.finite 1)
    else if name = "F1" then some (.finite 0) else none, 1⟩

/-- Two scorers over one row of two columns: `F0` with log-scores `[-1, -2]`, and
`F1` with log-scores `[-inf, -3]`, the first token having probability zero. -/
def nanScorers : List Scorer :=
  [⟨"F0", .ofRows 2 [[.finite (-1), .finite (-2)]]⟩, ⟨"F1", .ofRows 2 [[.ninf, .finite (-3)]]⟩]

/-- The joint matrix of `nanScorers`: the single row `[NaN, -2]`, the weight `0.0`
times the score `-inf` being a NaN. -/
def nanJoint : ArrayMatrix := .ofRows 2 [[.nan, .finite (-2)]]

/-! ### A matrix of more than `2^32` cells -/

/-- The scores `-5`, then `m` times `0`, then `1`. -/
def wideData (m : Nat) : List Float32 :=
  .finite (-5) :: (List.replicate m (.finite 0) ++ [.finite 1])

/-- One row of `2^32 + 1` columns: `-5` at key `0`, `1` at key `2^32`, and `0` at
the keys between. -/
def wideJoint : ArrayMatrix := ⟨1, 4294967297, wideData 4294967295⟩

end Binary32

/-! ## Facts about the comparator and the selection -/

theorem probCompare_strictWeakOrdering (data : List ℚ) :
    StrictWeakOrdering (ProbCompare data) := by
  refine ⟨?_, ?_, ?_⟩
  · intro a; simp [ProbCompare]
  · intro a b c hab hbc
    simp only [ProbCompare, gt_iff_lt, decide_eq_true_eq] at *
    exact lt_trans hbc hab
  · intro a b c hab hbc
    simp only [ProbCompare, gt_iff_lt, decide_eq_false_iff_not, not_lt] at *
    exact le_trans hab hbc

theorem sortedNthElement_contract : NthElementContract sortedNthElement := by
  intro comp keys nth hswo _
  obtain ⟨hirr, htr, hneg⟩ := hswo
  have htot : IsTotal Nat (fun a b => comp b a = false) := by
    refine ⟨fun a b => ?_⟩
    by_cases h : comp b a = false
    · exact Or.inl h
    · right
      have hba : comp b a = true := by simpa using h
      by_contra hab
      have hab1 : comp a b = true := by simpa using hab
      have := htr a b a hab1 hba
      rw [hirr a] at this
      exact Bool.noConfusion this
  have htrans : IsTrans Nat (fun a b => comp b a = false) :=
    ⟨fun a b c hab hbc => hneg c b a hbc hab⟩
  refine ⟨List.perm_insertionSort _ keys, ?_⟩
  intro x hx y hy
  have hs : List.Sorted (fun a b => comp b a = false)
      (keys.insertionSort (fun a b => comp b a = false)) :=
    List.sorted_insertionSort _ keys
  exact List.Sorted.rel_of_mem_take_of_mem_drop hs hx hy

theorem cell_mapIdx (data : List ℚ) (f : Nat → ℚ → ℚ) (k : Nat) (hk : k < data.length) :
    (data.mapIdx f).getD k 0 = f k (data.getD k 0) := by
  simp [List.getD_eq_getElem?_getD, List.getElem?_eq_getElem hk]

/-- The UNK mask succeeds when `UNK_ID` is a column; it keeps the shape, and only
changes cells of column `UNK_ID`, to `lowest`. -/
theorem maskUNK_ok (self : BestHyps) (Probs : ArrayMatrix)
    (hunk : self.forbidUNK_ = true → self.UNK_ID < Probs.columns) :
    ∃ P1, maskUNK self Probs = .ok P1 ∧ P1.rows = Probs.rows ∧
      P1.columns = Probs.columns ∧ P1.data.length = Probs.data.length ∧
      ∀ k, k < Probs.data.length → P1.cell k =
        if self.forbidUNK_ = true ∧ k % Probs.columns = self.UNK_ID then lowest
        else Probs.cell k := by
  unfold maskUNK
  by_cases hf : self.forbidUNK_ = true
  · have hc := hunk hf
    simp only [hf, if_true, ArrayMatrix.setColumn, hc, true_and]
    refine ⟨_, rfl, rfl, rfl, by simp, ?_⟩
    intro k hk
    simp only [ArrayMatrix.cell]
    rw [cell_mapIdx _ _ _ hk]
  · simp only [hf, if_false, false_and]
    exact ⟨_, rfl, rfl, rfl, rfl, fun _ _ => rfl⟩

/-- Shape of the result of `topK` in terms of `std::nth_element`. -/
theorem topK_ok (self : BestHyps) (nth_element : NthElement) (Probs P1 : ArrayMatrix)
    (beamSize : Nat) (hm : maskUNK self Probs = .ok P1)
    (hk : beamSize ≤ Probs.rows * Probs.columns) :
    topK self nth_element Probs beamSize = .ok
      ⟨P1, nth_element (ProbCompare P1.data) (List.range (Probs.rows * Probs.columns)) beamSize,
        (nth_element (ProbCompare P1.data)
          (List.range (Probs.rows * Probs.columns)) beamSize).take beamSize,
        ((nth_element (ProbCompare P1.data)
          (List.range (Probs.rows * Probs.columns)) beamSize).take beamSize).map P1.cell,
        []⟩ := by
  simp [topK, hm, hk]

/-- What the contract of `std::nth_element` gives for the keys of a matrix. -/
theorem selected_keys_spec (nth_element : NthElement) (hne : NthElementContract nth_element)
    (P1 : ArrayMatrix) (N beamSize : Nat) (hk : beamSize ≤ N) :
    ((nth_element (ProbCompare P1.data) (List.range N) beamSize).Perm (List.range N)) ∧
    ((nth_element (ProbCompare P1.data) (List.range N) beamSize).take beamSize).length
      = beamSize ∧
    ((nth_element (ProbCompare P1.data) (List.range N) beamSize).take beamSize).Nodup ∧
    (∀ key ∈ (nth_element (ProbCompare P1.data) (List.range N) beamSize).take beamSize,
      key < N) ∧
    (∀ key ∈ (nth_element (ProbCompare P1.data) (List.range N) beamSize).take beamSize,
      ∀ other ∈ (nth_element (ProbCompare P1.data) (List.range N) beamSize).drop beamSize,
        P1.cell other ≤ P1.cell key) ∧
    (∀ other, other < N →
      other ∉ (nth_element (ProbCompare P1.data) (List.range N) beamSize).take beamSize →
      other ∈ (nth_element (ProbCompare P1.data) (List.range N) beamSize).drop beamSize) := by
  obtain ⟨hperm, hpart⟩ := hne (ProbCompare P1.data) (List.range N) beamSize
    (probCompare_strictWeakOrdering _) (by simpa using hk)
  set keys1 := nth_element (ProbCompare P1.data) (List.range N) beamSize with hkeys
  have hlen : keys1.length = N := by simpa using hperm.length_eq
  refine ⟨hperm, ?_, ?_, ?_, ?_, ?_⟩
  · rw [List.length_take]; omega
  · exact ((hperm.nodup_iff).2 (List.nodup_range N)).sublist (List.take_sublist _ _)
  · intro key hkey
    have := hperm.subset (List.mem_of_mem_take hkey)
    simpa using this
  · intro key hkey other hother
    have := hpart key hkey other hother
    simp only [ProbCompare, gt_iff_lt, decide_eq_false_iff_not, not_lt] at this
    exact this
  · intro other ho hnot
    have hmem : other ∈ keys1 := hperm.symm.subset (by simpa using ho)
    rw [← List.take_append_drop beamSize keys1, List.mem_append] at hmem
    rcases hmem with h | h
    · exact absurd h hnot
    · exact h

/-! ## Reading one entry of a transformed list -/

theorem getD_mapIdx_of_lt {α : Type} (data : List α) (f : Nat → α → α) (k : Nat) (d : α)
    (hk : k < data.length) : (data.mapIdx f).getD k d = f k (data.getD k d) := by
  simp [List.getD_eq_getElem?_getD, List.getElem?_eq_getElem hk]

theorem getD_zipWith_of_lt {α : Type} (a b : List α) (f : α → α → α) (k : Nat) (d : α)
    (ha : k < a.length) (hb : k < b.length) :
    (List.zipWith f a b).getD k d = f (a.getD k d) (b.getD k d) := by
  simp [List.getD_eq_getElem?_getD, List.getElem?_eq_getElem ha,
    List.getElem?_eq_getElem hb, List.getElem?_zipWith]

/-! ## What `round32` computes -/

theorem bitLength_zero (fuel : Nat) : bitLength fuel 0 = 0 := by
  cases fuel <;> simp [bitLength]

theorem bitLength_spec : ∀ (fuel n : Nat), n ≠ 0 → n < 2 ^ fuel →
    2 ^ (bitLength fuel n - 1) ≤ n ∧ n < 2 ^ bitLength fuel n ∧ 1 ≤ bitLength fuel n ∧
      bitLength fuel n ≤ fuel
  | 0, n, hn, h => by simp at h; omega
  | fuel + 1, n, hn, h => by
    rw [bitLength, if_neg hn]
    by_cases h2 : n / 2 = 0
    · rw [h2, bitLength_zero]
      have : n = 1 := by omega
      subst this
      simp
    · have hlt : n / 2 < 2 ^ fuel := by
        rw [pow_succ] at h; omega
      obtain ⟨h1, h3, h4, h5⟩ := bitLength_spec fuel (n / 2) h2 hlt
      refine ⟨?_, ?_, by omega, by omega⟩
      · have : bitLength fuel (n / 2) + 1 - 1 = (bitLength fuel (n / 2) - 1) + 1 := by omega
        rw [this, pow_succ]; omega
      · rw [pow_succ]; omega

theorem roundHalfEven_spec (a B : Nat) (hB : 0 < B) :
    2 * a ≤ 2 * (roundHalfEven a B * B) + B ∧ 2 * (roundHalfEven a B * B) ≤ 2 * a + B := by
  have hdm := Nat.div_add_mod a B
  have hmod := Nat.mod_lt a hB
  have hk : (a / B + 1) * B = B * (a / B) + B := by ring
  have hk0 : a / B * B = B * (a / B) := by ring
  unfold roundHalfEven
  split_ifs <;> (try rw [hk]) <;> (try rw [hk0]) <;> omega


/-- Among the multiples of `B`, `roundHalfEven a B * B` is one nearest to `a`. -/
theorem roundHalfEven_nearest (a B j : Nat) (hB : 0 < B) :
    |(a : ℤ) - ((roundHalfEven a B * B : ℕ) : ℤ)| ≤ |(a : ℤ) - ((j * B : ℕ) : ℤ)| := by
  obtain ⟨h1, h2⟩ := roundHalfEven_spec a B hB
  set r := roundHalfEven a B with hr
  have h3 := le_abs_self ((a : ℤ) - ((j * B : ℕ) : ℤ))
  have h4 := neg_le_abs ((a : ℤ) - ((j * B : ℕ) : ℤ))
  rcases Nat.lt_trichotomy j r with hj | hj | hj
  · have h5 : (j + 1) * B ≤ r * B := Nat.mul_le_mul_right B hj
    have e1 : (j + 1) * B = j * B + B := by ring
    rw [abs_le]
    push_cast at *
    constructor <;> omega
  · subst hj; exact le_refl _
  · have h5 : (r + 1) * B ≤ j * B := Nat.mul_le_mul_right B hj
    have e1 : (r + 1) * B = r * B + B := by ring
    rw [abs_le]
    push_cast at *
    constructor <;> omega


/-- The grid `round32` rounds on.  For `a / d` units of `2^-149` below the overflow
threshold, `q` being the spacing of the `float`s around it and `M` the multiple
chosen: `M * q` units is a `float`, and no `float` is nearer to `a / d` units. -/
theorem grid_spec (a d : Nat) (hd : 0 < d)
    (hguard : a < 340282356779733661637539395458142568448 *
      713623846352979940529142984724747568191373312 * d) :
    (∃ m e, m < 16777216 ∧ e ≤ 253 ∧
      roundHalfEven a (d * 2 ^ (bitLength 277 (a / d) - 24)) *
        2 ^ (bitLength 277 (a / d) - 24) = m * 2 ^ e) ∧
    ∀ m e, m < 16777216 →
      |(a : ℤ) - ((roundHalfEven a (d * 2 ^ (bitLength 277 (a / d) - 24)) *
          (d * 2 ^ (bitLength 277 (a / d) - 24)) : ℕ) : ℤ)| ≤
        |(a : ℤ) - ((m * 2 ^ e * d : ℕ) : ℤ)| := by
  have hK : (340282356779733661637539395458142568448 : Nat) = 33554431 * 2 ^ 103 := by
    norm_num
  have hU : (713623846352979940529142984724747568191373312 : Nat) = 2 ^ 149 := by norm_num
  rw [hK, hU] at hguard
  -- the number of digits of the integer part
  have ht277 : a / d < 2 ^ 277 := by
    rw [Nat.div_lt_iff_lt_mul hd]
    calc a < 33554431 * 2 ^ 103 * 2 ^ 149 * d := hguard
      _ ≤ 2 ^ 277 * d := by
        apply Nat.mul_le_mul_right
        have : (2 : Nat) ^ 277 = 33554432 * 2 ^ 103 * 2 ^ 149 := by
          rw [show (33554432 : Nat) = 2 ^ 25 by norm_num, ← pow_add, ← pow_add]
        rw [this]
        exact Nat.mul_le_mul_right _ (Nat.mul_le_mul_right _ (by norm_num))
  set b := bitLength 277 (a / d) with hb
  set q := 2 ^ (b - 24) with hq
  have hqpos : 0 < q := by positivity
  have hBpos : 0 < d * q := Nat.mul_pos hd hqpos
  -- `a / d < 2 ^ b`, and `2 ^ (b - 1) ≤ a / d` unless `a / d = 0`
  have hbspec : a / d < 2 ^ b ∧ b ≤ 277 ∧ (a / d ≠ 0 → 2 ^ (b - 1) ≤ a / d) := by
    by_cases h0 : a / d = 0
    · rw [hb, h0, bitLength_zero]; simp
    · obtain ⟨h1, h2, _, h4⟩ := bitLength_spec 277 (a / d) h0 ht277
      exact ⟨h2, h4, fun _ => h1⟩
  obtain ⟨htb, hb277, htlow⟩ := hbspec
  have ha_lt : a < 2 ^ b * d := by
    have := (Nat.div_lt_iff_lt_mul hd).1 htb
    exact this
  obtain ⟨hs1, hs2⟩ := roundHalfEven_spec a (d * q) hBpos
  set M := roundHalfEven a (d * q) with hM
  -- `M ≤ 2 ^ 24`
  have hMle : M ≤ 16777216 := by
    by_contra hcon
    have hM1 : 16777217 ≤ M := by omega
    have h1 : 16777217 * (d * q) ≤ M * (d * q) := Nat.mul_le_mul_right _ hM1
    have h2 : a < 16777216 * (d * q) := by
      by_cases hb24 : b ≤ 24
      · have hq1 : q = 1 := by rw [hq]; simp [Nat.sub_eq_zero_of_le hb24]
        rw [hq1, Nat.mul_one]
        calc a < 2 ^ b * d := ha_lt
          _ ≤ 2 ^ 24 * d := Nat.mul_le_mul_right _ (Nat.pow_le_pow_right (by norm_num) hb24)
          _ = 16777216 * d := by norm_num
      · have : 2 ^ b = 16777216 * q := by
          rw [hq, show (16777216 : Nat) = 2 ^ 24 by norm_num, ← pow_add]
          congr 1; omega
        rw [this] at ha_lt
        calc a < 16777216 * q * d := ha_lt
          _ = 16777216 * (d * q) := by ring
    omega
  refine ⟨?_, ?_⟩
  · -- the result is a `float`
    by_cases hM24 : M < 16777216
    · exact ⟨M, b - 24, hM24, by omega, rfl⟩
    · have hMeq : M = 16777216 := by omega
      refine ⟨8388608, b - 24 + 1, by norm_num, ?_, ?_⟩
      · by_contra hcon
        have hb' : b = 277 := by omega
        have hq' : q = 2 ^ 253 := by rw [hq, hb']
        have h3 : 2 * a < 33554431 * (d * q) := by
          have e : 33554431 * (d * q) = 2 * (33554431 * 2 ^ 103 * 2 ^ 149 * d) := by
            rw [hq', show (2 : Nat) ^ 253 = 2 ^ 103 * 2 ^ 149 * 2 by
              rw [← pow_add, ← pow_succ]]
            ring
          rw [e]
          omega
        rw [hMeq] at hs2
        omega
      · rw [hMeq, pow_succ]; ring
  · -- no `float` is nearer
    intro m e hm
    by_cases hmult : b ≤ 24 ∨ b - 24 ≤ e
    · -- the `float` is a multiple of the spacing
      have : ∃ j, m * 2 ^ e * d = j * (d * q) := by
        rcases hmult with h | h
        · have hq1 : q = 1 := by rw [hq]; simp [Nat.sub_eq_zero_of_le h]
          exact ⟨m * 2 ^ e, by rw [hq1]; ring⟩
        · refine ⟨m * 2 ^ (e - (b - 24)), ?_⟩
          have : 2 ^ e = 2 ^ (e - (b - 24)) * q := by
            rw [hq, ← pow_add]; congr 1; omega
          rw [this]; ring
      obtain ⟨j, hj⟩ := this
      rw [hj]
      exact roundHalfEven_nearest a (d * q) j hBpos
    · -- the `float` lies below the numbers of `b` digits
      have hb25 : 25 ≤ b := by omega
      have he : e + 25 ≤ b := by omega
      have ht0 : a / d ≠ 0 := by
        intro h0
        rw [hb, h0, bitLength_zero] at hb25
        omega
      have hlow := htlow ht0
      have hP : 2 ^ (b - 1) = 8388608 * q := by
        rw [hq, show (8388608 : Nat) = 2 ^ 23 by norm_num, ← pow_add]
        congr 1; omega
      have hZ : m * 2 ^ e < 2 ^ (b - 1) := by
        calc m * 2 ^ e < 16777216 * 2 ^ e := Nat.mul_lt_mul_of_pos_right hm (by positivity)
          _ = 2 ^ (24 + e) := by rw [pow_add]; norm_num
          _ ≤ 2 ^ (b - 1) := Nat.pow_le_pow_right (by norm_num) (by omega)
      have hPa : 2 ^ (b - 1) * d ≤ a := by
        calc 2 ^ (b - 1) * d ≤ a / d * d := Nat.mul_le_mul_right _ hlow
          _ ≤ a := Nat.div_mul_le_self a d
      have hZd : m * 2 ^ e * d < 2 ^ (b - 1) * d := Nat.mul_lt_mul_of_pos_right hZ hd
      have hnear := roundHalfEven_nearest a (d * q) 8388608 hBpos
      have e1 : 8388608 * (d * q) = 2 ^ (b - 1) * d := by rw [hP]; ring
      rw [e1] at hnear
      refine le_trans hnear ?_
      have c1 : ((2 ^ (b - 1) * d : ℕ) : ℤ) ≤ (a : ℤ) := by exact_mod_cast hPa
      have c2 : ((m * 2 ^ e * d : ℕ) : ℤ) < ((2 ^ (b - 1) * d : ℕ) : ℤ) := by
        exact_mod_cast hZd
      rw [abs_of_nonneg (by linarith), abs_of_nonneg (by linarith)]
      linarith


/-- From `2^128 - 2^103` on, `round32` gives the infinity of the sign of `x`. -/
theorem round32_overflow (x : ℚ) (hx : 340282356779733661637539395458142568448 ≤ |x|) :
    round32 x = if x < 0 then .ninf else .pinf := by
  have hd : (0 : ℚ) < x.den := by exact_mod_cast x.den_pos
  have habs : |x| = (x.num.natAbs : ℚ) / x.den := by
    conv_lhs => rw [← Rat.num_div_den x]
    rw [abs_div, abs_of_pos hd, Nat.cast_natAbs, Int.cast_abs]
  have hg : 340282356779733661637539395458142568448 * x.den ≤ x.num.natAbs := by
    rw [habs, le_div_iff₀ hd] at hx
    exact_mod_cast hx
  unfold round32
  rw [if_pos hg]
  simp only [Rat.num_neg]

/-- Below `2^128 - 2^103`, `round32` gives a `float` nearest to `x`. -/
theorem round32_nearest (x : ℚ) (hx : |x| < 340282356779733661637539395458142568448) :
    ∃ y, round32 x = .finite y ∧ IsFloat32 y ∧ ∀ z, IsFloat32 z → |x - y| ≤ |x - z| := by
  have hdN : 0 < x.den := x.den_pos
  have hd : (0 : ℚ) < x.den := by exact_mod_cast hdN
  have hxeq : x = (x.num : ℚ) / x.den := (Rat.num_div_den x).symm
  have habs : |x| = (x.num.natAbs : ℚ) / x.den := by
    conv_lhs => rw [hxeq]
    rw [abs_div, abs_of_pos hd, Nat.cast_natAbs, Int.cast_abs]
  have hg : ¬ 340282356779733661637539395458142568448 * x.den ≤ x.num.natAbs := by
    rw [habs, div_lt_iff₀ hd] at hx
    have : (x.num.natAbs : ℚ) < ((340282356779733661637539395458142568448 * x.den : ℕ) : ℚ) := by
      push_cast; exact hx
    have := Nat.cast_lt.1 this
    omega
  have hguard : x.num.natAbs * 713623846352979940529142984724747568191373312 <
      340282356779733661637539395458142568448 *
        713623846352979940529142984724747568191373312 * x.den := by
    have h1 : x.num.natAbs < 340282356779733661637539395458142568448 * x.den := by omega
    have := Nat.mul_lt_mul_of_pos_right h1
      (show 0 < 713623846352979940529142984724747568191373312 by norm_num)
    calc x.num.natAbs * 713623846352979940529142984724747568191373312
        < 340282356779733661637539395458142568448 * x.den *
            713623846352979940529142984724747568191373312 := this
      _ = _ := by ring
  obtain ⟨⟨m, e, hm, he, hme⟩, hnear⟩ :=
    grid_spec (x.num.natAbs * 713623846352979940529142984724747568191373312) x.den hdN hguard
  set a := x.num.natAbs * 713623846352979940529142984724747568191373312 with ha
  set q := 2 ^ (bitLength 277 (a / x.den) - 24) with hq
  set M := roundHalfEven a (x.den * q) with hM
  have hU : (0 : ℚ) < 713623846352979940529142984724747568191373312 := by norm_num
  -- the sign
  obtain ⟨σ, hσ, hnum, hres⟩ : ∃ σ : ℤ, (σ = 1 ∨ σ = -1) ∧ x.num = σ * x.num.natAbs ∧
      (if x.num < 0 then -((M * q : ℕ) : ℤ) else ((M * q : ℕ) : ℤ)) = σ * ((M * q : ℕ) : ℤ) := by
    by_cases hneg : x.num < 0
    · refine ⟨-1, Or.inr rfl, ?_, by simp [hneg]⟩
      rw [Int.natCast_natAbs, abs_of_neg hneg]; ring
    · refine ⟨1, Or.inl rfl, ?_, by simp [hneg]⟩
      rw [Int.natCast_natAbs, abs_of_nonneg (by omega)]; ring
  have hσabs : |(σ : ℚ)| = 1 := by
    rcases hσ with h | h <;> simp [h]
  refine ⟨((σ * ((M * q : ℕ) : ℤ) : ℤ) : ℚ) /
      713623846352979940529142984724747568191373312, ?_, ?_, ?_⟩
  · unfold round32
    rw [if_neg hg]
    simp only
    rw [← ha, ← hq, ← hM, hres, Rat.mkRat_eq_div]
    push_cast
    rfl
  · refine ⟨σ * m, e, ?_, he, ?_⟩
    · rw [abs_mul]
      rcases hσ with h | h <;> simp [h] <;> exact_mod_cast hm
    · rw [hme]; push_cast; ring
  · rintro z ⟨mz, ez, hmz, _, rfl⟩
    have hmz' : mz.natAbs < 16777216 := by
      have : (mz.natAbs : ℤ) < 16777216 := by rw [Int.natCast_natAbs]; exact hmz
      exact_mod_cast this
    have hn := hnear mz.natAbs ez hmz'
    -- both distances, scaled by `den * 2^149`
    have hscale : (0 : ℚ) < x.den * 713623846352979940529142984724747568191373312 :=
      mul_pos hd hU
    have hxd : x * x.den = x.num := Rat.mul_den_eq_num x
    have hnumQ : (x.num : ℚ) = σ * |(x.num : ℚ)| := by
      have := congrArg (Int.cast : ℤ → ℚ) hnum
      push_cast at this
      exact this
    have haQ : (a : ℚ) = |(x.num : ℚ)| * 713623846352979940529142984724747568191373312 := by
      rw [ha]; push_cast; rw [Nat.cast_natAbs, Int.cast_abs]
    have hL : |x - ((σ * ((M * q : ℕ) : ℤ) : ℤ) : ℚ) /
          713623846352979940529142984724747568191373312| *
        (x.den * 713623846352979940529142984724747568191373312) =
        |(a : ℚ) - (M : ℚ) * (x.den * q)| := by
      rw [← abs_of_pos hscale, ← abs_mul]
      have : (x - ((σ * ((M * q : ℕ) : ℤ) : ℤ) : ℚ) /
          713623846352979940529142984724747568191373312) *
          (x.den * 713623846352979940529142984724747568191373312) =
          (σ : ℚ) * ((a : ℚ) - (M : ℚ) * (x.den * q)) := by
        have e0 : ((σ * ((M * q : ℕ) : ℤ) : ℤ) : ℚ) /
            713623846352979940529142984724747568191373312 *
            (x.den * 713623846352979940529142984724747568191373312) =
            ((σ * ((M * q : ℕ) : ℤ) : ℤ) : ℚ) * x.den := by
          field_simp
          ring
        have e1 : x * (x.den * 713623846352979940529142984724747568191373312) =
            (x * x.den) * 713623846352979940529142984724747568191373312 := by ring
        rw [sub_mul, e0, e1, hxd, hnumQ, haQ]
        push_cast
        ring
      rw [this, abs_mul, hσabs, one_mul]
    have hR : |(a : ℚ) - |(mz : ℚ)| * 2 ^ ez * x.den| ≤
        |x - (mz : ℚ) * 2 ^ ez / 713623846352979940529142984724747568191373312| *
          (x.den * 713623846352979940529142984724747568191373312) := by
      rw [← abs_of_pos hscale, ← abs_mul]
      have : (x - (mz : ℚ) * 2 ^ ez / 713623846352979940529142984724747568191373312) *
          (x.den * 713623846352979940529142984724747568191373312) =
          (σ : ℚ) * (a : ℚ) - (mz : ℚ) * 2 ^ ez * x.den := by
        have e0 : (mz : ℚ) * 2 ^ ez / 713623846352979940529142984724747568191373312 *
            (x.den * 713623846352979940529142984724747568191373312) =
            (mz : ℚ) * 2 ^ ez * x.den := by
          field_simp
          ring
        have e1 : x * (x.den * 713623846352979940529142984724747568191373312) =
            (x * x.den) * 713623846352979940529142984724747568191373312 := by ring
        rw [sub_mul, e0, e1, hxd, hnumQ, haQ]
        ring
      rw [this]
      have h1 := abs_abs_sub_abs_le_abs_sub ((σ : ℚ) * (a : ℚ)) ((mz : ℚ) * 2 ^ ez * x.den)
      have h2 : |(σ : ℚ) * (a : ℚ)| = (a : ℚ) := by
        rw [abs_mul, hσabs, one_mul, abs_of_nonneg (by positivity)]
      have h3 : |(mz : ℚ) * 2 ^ ez * x.den| = |(mz : ℚ)| * 2 ^ ez * x.den := by
        rw [abs_mul, abs_mul, abs_of_pos hd, abs_of_pos (by positivity : (0:ℚ) < 2 ^ ez)]
      rw [h2, h3] at h1
      exact h1
    have hn' : |(a : ℚ) - (M : ℚ) * (x.den * q)| ≤
        |(a : ℚ) - |(mz : ℚ)| * 2 ^ ez * x.den| := by
      have : ((|((a : ℤ) - ((M * (x.den * q) : ℕ) : ℤ) : ℤ)| : ℤ) : ℚ) ≤
          ((|((a : ℤ) - ((mz.natAbs * 2 ^ ez * x.den : ℕ) : ℤ) : ℤ)| : ℤ) : ℚ) := by
        exact_mod_cast hn
      rw [Int.cast_abs, Int.cast_abs] at this
      push_cast at this
      exact this
    have := le_trans (le_of_eq hL) (le_trans hn' hR)
    exact le_of_mul_le_mul_right this hscale


/-- Halfway between two multiples, `roundHalfEven` takes the even one. -/
theorem roundHalfEven_tie (a B : Nat) (h : 2 * (a % B) = B) : roundHalfEven a B % 2 = 0 := by
  unfold roundHalfEven
  rw [if_neg (by omega), if_neg (by omega)]
  split_ifs with h2 <;> omega

/-- Every `float` lies below the overflow threshold. -/
theorem IsFloat32.abs_lt (y : ℚ) (hy : IsFloat32 y) :
    |y| < 340282356779733661637539395458142568448 := by
  obtain ⟨m, e, hm, he, rfl⟩ := hy
  have hU : (0 : ℚ) < 713623846352979940529142984724747568191373312 := by norm_num
  rw [abs_div, abs_of_pos hU, div_lt_iff₀ hU, abs_mul, abs_of_pos (by positivity : (0:ℚ) < 2 ^ e)]
  have h1 : |(m : ℚ)| ≤ 16777215 := by
    have : |m| ≤ 16777215 := by omega
    exact_mod_cast this
  have h2 : (2 : ℚ) ^ e ≤ 2 ^ 253 := pow_le_pow_right₀ (by norm_num) he
  calc |(m : ℚ)| * 2 ^ e ≤ 16777215 * 2 ^ 253 :=
        mul_le_mul h1 h2 (by positivity) (by norm_num)
    _ < 340282356779733661637539395458142568448 *
          713623846352979940529142984724747568191373312 := by norm_num

/-- A `float` is rounded to itself. -/
theorem round32_of_isFloat32 (y : ℚ) (hy : IsFloat32 y) : round32 y = .finite y := by
  obtain ⟨z, hz, _, hnear⟩ := round32_nearest y (IsFloat32.abs_lt y hy)
  have := hnear y hy
  rw [sub_self, abs_zero] at this
  have hzy : y - z = 0 := abs_eq_zero.1 (le_antisymm this (abs_nonneg _))
  rw [hz, ← sub_eq_zero.1 hzy]

/-- The product of two `float`s does not depend on their order. -/
theorem float32_mul_comm (a b : Float32) : a.mul b = b.mul a := by
  cases a <;> cases b <;> simp [Float32.mul, mul_comm]

/-- The sum of two `float`s does not depend on their order. -/
theorem float32_add_comm (a b : Float32) : a.add b = b.add a := by
  cases a <;> cases b <;> simp [Float32.add, add_comm]

/-! ## The order of `float`s -/

theorem Float32.gt_irrefl (a : Float32) : a.gt a = false := by
  cases a <;> simp [Float32.gt]

theorem Float32.gt_trans (a b c : Float32) (hab : a.gt b = true) (hbc : b.gt c = true) :
    a.gt c = true := by
  cases a <;> cases b <;> cases c <;> simp_all [Float32.gt]
  exact lt_trans hbc hab

theorem Float32.gt_false_trans (a b c : Float32) (ha : a ≠ .nan) (hb : b ≠ .nan)
    (hc : c ≠ .nan) (hab : a.gt b = false) (hbc : b.gt c = false) : a.gt c = false := by
  cases a <;> cases b <;> cases c <;> simp_all [Float32.gt]
  exact le_trans hab hbc

theorem Float32.ge_of_gt_false (a b : Float32) (ha : a ≠ .nan) (hb : b ≠ .nan)
    (h : b.gt a = false) : a.ge b = true := by
  cases a <;> cases b <;> simp_all [Float32.gt, Float32.ge]

theorem Float32.ge_trans (a b c : Float32) (hab : a.ge b = true) (hbc : b.ge c = true) :
    a.ge c = true := by
  cases a <;> cases b <;> cases c <;> simp_all [Float32.ge]
  exact le_trans hbc hab

theorem Float32.ge_antisymm (a b : Float32) (hab : a.ge b = true) (hba : b.ge a = true) :
    a = b := by
  cases a <;> cases b <;> simp_all [Float32.ge]
  exact le_antisymm hba hab

theorem Float32.ge_total (a b : Float32) (ha : a ≠ .nan) (hb : b ≠ .nan) :
    a.ge b = true ∨ b.ge a = true := by
  cases a <;> cases b <;> simp_all [Float32.ge]
  exact le_total _ _

theorem getD_ne_nan (data : List Float32) (hnan : ∀ x ∈ data, x ≠ Float32.nan) (k : Nat) :
    data.getD k (.finite 0) ≠ Float32.nan := by
  rw [List.getD_eq_getElem?_getD]
  cases h : data[k]? with
  | none => simp
  | some x => simpa using hnan x (List.getElem?_mem h)

/-- On scores without a NaN the comparator of lines 6-14 meets the precondition of
`std::nth_element`. -/
theorem probCompare32_strictWeakOrdering (data : List Float32)
    (hnan : ∀ x ∈ data, x ≠ Float32.nan) :
    StrictWeakOrdering (Binary32.ProbCompare data) := by
  refine ⟨?_, ?_, ?_⟩
  · intro a; exact Float32.gt_irrefl _
  · intro a b c hab hbc
    exact Float32.gt_trans _ _ _ hab hbc
  · intro a b c hab hbc
    exact Float32.gt_false_trans _ _ _ (getD_ne_nan data hnan _) (getD_ne_nan data hnan _)
      (getD_ne_nan data hnan _) hab hbc

/-! ## Sorting by a relation that is total on the list at hand -/

theorem sorted_orderedInsert_on {α : Type} (r : α → α → Prop) [DecidableRel r]
    (htr : ∀ a b c, r a b → r b c → r a c) (a : α) :
    ∀ (l : List α), (∀ x ∈ l, r a x ∨ r x a) → l.Sorted r → (l.orderedInsert r a).Sorted r
  | [], _, _ => by simp
  | b :: l, htot, hs => by
    by_cases h : r a b
    · rw [List.orderedInsert, if_pos h]
      refine List.sorted_cons.2 ⟨?_, hs⟩
      intro x hx
      rcases List.mem_cons.1 hx with rfl | hx
      · exact h
      · exact htr _ _ _ h (List.rel_of_sorted_cons hs x hx)
    · rw [List.orderedInsert, if_neg h]
      have hba : r b a := by
        rcases htot b (List.mem_cons_self _ _) with h1 | h1
        · exact absurd h1 h
        · exact h1
      have ih := sorted_orderedInsert_on r htr a l
        (fun x hx => htot x (List.mem_cons_of_mem _ hx)) hs.of_cons
      refine List.sorted_cons.2 ⟨?_, ih⟩
      intro x hx
      rcases (List.mem_orderedInsert r).1 hx with rfl | hx
      · exact hba
      · exact List.rel_of_sorted_cons hs x hx

theorem sorted_insertionSort_on {α : Type} (r : α → α → Prop) [DecidableRel r]
    (htr : ∀ a b c, r a b → r b c → r a c) :
    ∀ (l : List α), (∀ x ∈ l, ∀ y ∈ l, r x y ∨ r y x) → (l.insertionSort r).Sorted r
  | [], _ => by simp
  | a :: l, htot => by
    rw [List.insertionSort]
    refine sorted_orderedInsert_on r htr a _ ?_ ?_
    · intro x hx
      have hx1 : x ∈ l := (List.perm_insertionSort r l).subset hx
      exact htot a (List.mem_cons_self _ _) x (List.mem_cons_of_mem _ hx1)
    · exact sorted_insertionSort_on r htr l
        (fun x hx y hy => htot x (List.mem_cons_of_mem _ hx) y (List.mem_cons_of_mem _ hy))

/-- A list whose first `k` entries dominate the others has, up to order, the first
`k` entries of its sort as its first `k` entries. -/
theorem take_perm_insertionSort_take {α : Type} (r : α → α → Prop) [DecidableRel r]
    (htr : ∀ a b c, r a b → r b c → r a c) (hanti : ∀ a b, r a b → r b a → a = b)
    (L : List α) (htot : ∀ x ∈ L, ∀ y ∈ L, r x y ∨ r y x) (k : Nat) (hk : k ≤ L.length)
    (h : ∀ x ∈ L.take k, ∀ y ∈ L.drop k, r x y) :
    (L.take k).Perm ((L.insertionSort r).take k) := by
  have hanti1 : IsAntisymm α r := ⟨hanti⟩
  have hA := sorted_insertionSort_on r htr (L.take k)
    (fun x hx y hy => htot x (List.mem_of_mem_take hx) y (List.mem_of_mem_take hy))
  have hB := sorted_insertionSort_on r htr (L.drop k)
    (fun x hx y hy => htot x (List.mem_of_mem_drop hx) y (List.mem_of_mem_drop hy))
  have hpA := List.perm_insertionSort r (L.take k)
  have hpB := List.perm_insertionSort r (L.drop k)
  have hAB : List.Sorted r ((L.take k).insertionSort r ++ (L.drop k).insertionSort r) := by
    refine List.pairwise_append.2 ⟨hA, hB, ?_⟩
    intro a ha b hb
    exact h a (hpA.subset ha) b (hpB.subset hb)
  have hperm : ((L.take k).insertionSort r ++ (L.drop k).insertionSort r).Perm
      (L.insertionSort r) := by
    refine ((hpA.append hpB).trans ?_).trans (List.perm_insertionSort _ L).symm
    rw [List.take_append_drop]
  have heq := List.eq_of_perm_of_sorted hperm hAB (sorted_insertionSort_on r htr L htot)
  rw [← heq]
  have hlen : ((L.take k).insertionSort r).length = k := by
    rw [List.length_insertionSort, List.length_take]; omega
  rw [List.take_left' hlen]
  exact hpA.symm

/-! ## C1: top-K selection -/

theorem toUnsigned_of_lt (k N : Nat) (hN : N ≤ 4294967296) (hk : k < N) : toUnsigned k = k := by
  unfold toUnsigned; omega

theorem map_getD_range_of_length {α : Type} (data : List α) (d : α) :
    (List.range data.length).map (fun k => data.getD k d) = data := by
  apply List.ext_getElem
  · simp
  · intro n h1 h2
    simp [List.getD_eq_getElem?_getD, List.getElem?_eq_getElem h2]

/-- The UNK mask on `float`s succeeds when `UNK_ID` is a column; it keeps the
shape, only changes cells of column `UNK_ID`, to `lowest`, and brings in no NaN. -/
theorem maskUNK32_ok (self : Binary32.BestHyps) (Probs : Binary32.ArrayMatrix)
    (hunk : self.forbidUNK_ = true → self.UNK_ID < Probs.columns) :
    ∃ P1, Binary32.maskUNK self Probs = .ok P1 ∧ P1.rows = Probs.rows ∧
      P1.columns = Probs.columns ∧ P1.data.length = Probs.data.length ∧
      (∀ k, k < Probs.data.length → P1.cell k =
        if self.forbidUNK_ = true ∧ k % Probs.columns = self.UNK_ID then Float32.lowest
        else Probs.cell k) ∧
      ((∀ x ∈ Probs.data, x ≠ Float32.nan) → ∀ x ∈ P1.data, x ≠ Float32.nan) := by
  unfold Binary32.maskUNK
  by_cases hf : self.forbidUNK_ = true
  · have hc := hunk hf
    simp only [hf, if_true, Binary32.ArrayMatrix.setColumn, hc, true_and]
    refine ⟨_, rfl, rfl, rfl, by simp, ?_, ?_⟩
    · intro k hk
      simp only [Binary32.ArrayMatrix.cell]
      rw [getD_mapIdx_of_lt _ _ _ _ hk]
    · intro hnan x hx
      simp only [List.mem_mapIdx] at hx
      obtain ⟨i, hi, rfl⟩ := hx
      split
      · simp [Float32.lowest]
      · exact hnan _ (List.getElem_mem _)
  · simp only [hf, if_false, false_and]
    exact ⟨_, rfl, rfl, rfl, rfl, fun _ _ => rfl, fun h => h⟩

/-- Shape of the result of `topK` on `float`s in terms of `std::nth_element`. -/
theorem topK32_ok (self : Binary32.BestHyps) (nth_element : NthElement)
    (Probs P1 : Binary32.ArrayMatrix) (beamSize : Nat)
    (hm : Binary32.maskUNK self Probs = .ok P1)
    (hk : beamSize ≤ Probs.rows * Probs.columns) :
    Binary32.topK self nth_element Probs beamSize = .ok
      ⟨P1, nth_element (Binary32.ProbCompare P1.data)
          (List.range (Probs.rows * Probs.columns)) beamSize,
        (nth_element (Binary32.ProbCompare P1.data)
          (List.range (Probs.rows * Probs.columns)) beamSize).take beamSize,
        ((nth_element (Binary32.ProbCompare P1.data)
          (List.range (Probs.rows * Probs.columns)) beamSize).take beamSize).map P1.cell⟩ := by
  simp [Binary32.topK, hm, hk]

/-- What the contract of `std::nth_element` gives for the keys of a matrix of at
most `2^32` cells, none a NaN. -/
theorem selected_keys32_spec (nth_element : NthElement)
    (hne : NthElementContract nth_element)
    (P1 : Binary32.ArrayMatrix) (N beamSize : Nat) (hk : beamSize ≤ N)
    (hN : N ≤ 4294967296) (hnan : ∀ x ∈ P1.data, x ≠ Float32.nan) :
    ((nth_element (Binary32.ProbCompare P1.data) (List.range N) beamSize).Perm
      (List.range N)) ∧
    ((nth_element (Binary32.ProbCompare P1.data) (List.range N) beamSize).take
      beamSize).length = beamSize ∧
    ((nth_element (Binary32.ProbCompare P1.data) (List.range N) beamSize).take
      beamSize).Nodup ∧
    (∀ key ∈ (nth_element (Binary32.ProbCompare P1.data) (List.range N) beamSize).take
        beamSize, key < N) ∧
    (∀ key ∈ (nth_element (Binary32.ProbCompare P1.data) (List.range N) beamSize).take
        beamSize,
      ∀ other ∈ (nth_element (Binary32.ProbCompare P1.data) (List.range N) beamSize).drop
        beamSize,
        (P1.cell key).ge (P1.cell other) = true) ∧
    (∀ other, other < N →
      other ∉ (nth_element (Binary32.ProbCompare P1.data) (List.range N) beamSize).take
        beamSize →
      other ∈ (nth_element (Binary32.ProbCompare P1.data) (List.range N) beamSize).drop
        beamSize) := by
  obtain ⟨hperm, hpart⟩ := hne (Binary32.ProbCompare P1.data) (List.range N) beamSize
    (probCompare32_strictWeakOrdering _ hnan) (by simpa using hk)
  set keys1 := nth_element (Binary32.ProbCompare P1.data) (List.range N) beamSize with hkeys
  have hlen : keys1.length = N := by simpa using hperm.length_eq
  have hmemlt : ∀ key ∈ keys1, key < N := by
    intro key hkey
    simpa using hperm.subset hkey
  refine ⟨hperm, ?_, ?_, ?_, ?_, ?_⟩
  · rw [List.length_take]; omega
  · exact ((hperm.nodup_iff).2 (List.nodup_range N)).sublist (List.take_sublist _ _)
  · intro key hkey
    exact hmemlt key (List.mem_of_mem_take hkey)
  · intro key hkey other hother
    have := hpart key hkey other hother
    simp only [Binary32.ProbCompare] at this
    rw [toUnsigned_of_lt _ N hN (hmemlt key (List.mem_of_mem_take hkey)),
      toUnsigned_of_lt _ N hN (hmemlt other (List.mem_of_mem_drop hother))] at this
    exact Float32.ge_of_gt_false _ _ (getD_ne_nan _ hnan _) (getD_ne_nan _ hnan _) this
  · intro other ho hnot
    have hmem : other ∈ keys1 := hperm.symm.subset (by simpa using ho)
    rw [← List.take_append_drop beamSize keys1, List.mem_append] at hmem
    rcases hmem with h | h
    · exact absurd h hnot
    · exact h

/-- The UNK mask throws only when UNK is forbidden and `UNK_ID` is no column. -/
theorem maskUNK32_inv (self : Binary32.BestHyps) (Probs P1 : Binary32.ArrayMatrix)
    (hm : Binary32.maskUNK self Probs = .ok P1) :
    self.forbidUNK_ = true → self.UNK_ID < Probs.columns := by
  intro hf
  by_contra hc
  simp [Binary32.maskUNK, hf, Binary32.ArrayMatrix.setColumn, hc] at hm

/-- C1. Top-K selection, lines 64-85 with the comparator of lines 6-14, on `float`
scores: for every joint matrix `Probs` of `N = rows * columns ≤ 2^32` cells, none a
NaN, and every beam size `k ≤ N`, the selection is made, unless UNK is forbidden
and `UNK_ID` is no column; it runs on `Probs` itself, but for column `UNK_ID` set
to `lowest` when UNK is forbidden; the key array is a rearrangement of `0 .. N-1`,
the `k` keys taken from its front are pairwise distinct, each is `< N`, every
selected key's score is `>=` the score of every non-selected key, and the multiset
of the `k` selected scores is that of the first `k` entries of the descending sort
of all `N` scores. -/
theorem topK_selects_largest (self : Binary32.BestHyps) (nth_element : NthElement)
    (Probs : Binary32.ArrayMatrix) (beamSize : Nat)
    (hne : NthElementContract nth_element) (hwf : Probs.WF)
    (hk : beamSize ≤ Probs.rows * Probs.columns)
    (hN : Probs.rows * Probs.columns ≤ 4294967296)
    (hnan : ∀ x ∈ Probs.data, x ≠ Float32.nan) :
    ((self.forbidUNK_ = true → self.UNK_ID < Probs.columns) →
      ∃ sel, Binary32.topK self nth_element Probs beamSize = .ok sel) ∧
    ∀ sel, Binary32.topK self nth_element Probs beamSize = .ok sel →
      Binary32.maskUNK self Probs = .ok sel.Probs ∧
      sel.Probs.rows = Probs.rows ∧ sel.Probs.columns = Probs.columns ∧
      sel.Probs.data.length = Probs.rows * Probs.columns ∧
      (∀ key, key < Probs.rows * Probs.columns → sel.Probs.cell key =
        if self.forbidUNK_ = true ∧ key % Probs.columns = self.UNK_ID then Float32.lowest
        else Probs.cell key) ∧
      sel.keys.Perm (List.range (Probs.rows * Probs.columns)) ∧
      sel.bestKeys = sel.keys.take beamSize ∧
      sel.bestKeys.length = beamSize ∧
      sel.bestKeys.Nodup ∧
      (∀ key ∈ sel.bestKeys, key < Probs.rows * Probs.columns) ∧
      (∀ key ∈ sel.bestKeys, ∀ other, other < Probs.rows * Probs.columns →
        other ∉ sel.bestKeys → (sel.Probs.cell key).ge (sel.Probs.cell other) = true) ∧
      sel.bestCosts = sel.bestKeys.map sel.Probs.cell ∧
      (↑sel.bestCosts : Multiset Float32) =
        ↑((sel.Probs.data.insertionSort (fun a b => a.ge b = true)).take beamSize) := by
  refine ⟨?_, ?_⟩
  · intro hunk
    obtain ⟨P1, hm, _⟩ := maskUNK32_ok self Probs hunk
    exact ⟨_, topK32_ok self nth_element Probs P1 beamSize hm hk⟩
  intro sel hsel
  have hunk : self.forbidUNK_ = true → self.UNK_ID < Probs.columns := by
    cases hm : Binary32.maskUNK self Probs with
    | error e => simp [Binary32.topK, hm] at hsel
    | ok P1 => exact maskUNK32_inv self Probs P1 hm
  obtain ⟨P1, hm, hr1, hc1, hlen1, hcell1, hnan1⟩ := maskUNK32_ok self Probs hunk
  have hnanP1 := hnan1 hnan
  obtain ⟨hperm, hlen, hnd, hlt, hpart, hdrop⟩ :=
    selected_keys32_spec nth_element hne P1 (Probs.rows * Probs.columns) beamSize hk hN hnanP1
  have hNlen : P1.data.length = Probs.rows * Probs.columns := by rw [hlen1]; exact hwf
  rw [topK32_ok self nth_element Probs P1 beamSize hm hk] at hsel
  cases hsel
  refine ⟨hm, hr1, hc1, hNlen, ?_, hperm, rfl, hlen, hnd, hlt, ?_, rfl, ?_⟩
  · intro key hkey
    exact hcell1 key (by rw [hwf]; exact hkey)
  · intro key hkey other ho hnot
    exact hpart key hkey other (hdrop other ho hnot)
  · simp only
    set keys1 := nth_element (Binary32.ProbCompare P1.data)
      (List.range (Probs.rows * Probs.columns)) beamSize with hkeys
    have hL : (keys1.map P1.cell).Perm P1.data := by
      have h1 := hperm.map P1.cell
      have h2 : (List.range (Probs.rows * Probs.columns)).map P1.cell = P1.data := by
        rw [← hNlen]; exact map_getD_range_of_length P1.data _
      rw [h2] at h1; exact h1
    have hklen : beamSize ≤ (keys1.map P1.cell).length := by
      rw [hL.length_eq, hNlen]; exact hk
    have htot : ∀ x ∈ keys1.map P1.cell, ∀ y ∈ keys1.map P1.cell,
        x.ge y = true ∨ y.ge x = true := by
      intro x hx y hy
      exact Float32.ge_total x y (hnanP1 x (hL.subset hx)) (hnanP1 y (hL.subset hy))
    have htotP : ∀ x ∈ P1.data, ∀ y ∈ P1.data, x.ge y = true ∨ y.ge x = true := by
      intro x hx y hy
      exact Float32.ge_total x y (hnanP1 x hx) (hnanP1 y hy)
    have hp := take_perm_insertionSort_take (fun a b : Float32 => a.ge b = true)
      Float32.ge_trans Float32.ge_antisymm (keys1.map P1.cell) htot beamSize hklen (by
        intro x hx y hy
        rw [← List.map_take] at hx
        rw [← List.map_drop] at hy
        obtain ⟨a, ha, rfl⟩ := List.mem_map.1 hx
        obtain ⟨b, hb, rfl⟩ := List.mem_map.1 hy
        exact hpart a ha b hb)
    have hanti1 : IsAntisymm Float32 (fun a b : Float32 => a.ge b = true) :=
      ⟨Float32.ge_antisymm⟩
    have hs : (keys1.map P1.cell).insertionSort (fun a b : Float32 => a.ge b = true) =
        P1.data.insertionSort (fun a b : Float32 => a.ge b = true) :=
      List.eq_of_perm_of_sorted
        (((List.perm_insertionSort _ _).trans hL).trans (List.perm_insertionSort _ _).symm)
        (sorted_insertionSort_on _ Float32.ge_trans _ htot)
        (sorted_insertionSort_on _ Float32.ge_trans _ htotP)
    rw [hs, ← List.map_take] at hp
    exact Multiset.coe_eq_coe.2 hp

theorem round32_ne_nan (x : ℚ) : round32 x ≠ Float32.nan := by
  unfold round32
  split
  · split <;> simp
  · simp

set_option maxRecDepth 4000 in
/-- The rounding at some inputs: `0.1` and `-0.95` (the nearest `float`s); `2^25 + 0.5`
(down); `2^25 + 2` and `2^25 + 6`, halfway between two `float`s (to the even one,
down and up); the largest `float` (kept), the last number below `2^128 - 2^103`
(down to it) and `2^128 - 2^103` (an infinity); `2^-150` and `3 * 2^-150`, halfway
between two subnormal `float`s (to `0` and to `2^-148`); and `0`. -/
theorem round32_values :
    round32 (1/10) = .finite (13421773/134217728) ∧
    round32 (-19/20) = .finite (-15938355/16777216) ∧
    round32 (33554432 + 1/2) = .finite 33554432 ∧
    round32 (33554432 + 2) = .finite 33554432 ∧
    round32 (33554432 + 6) = .finite 33554440 ∧
    round32 340282346638528859811704183484516925440 =
      .finite 340282346638528859811704183484516925440 ∧
    round32 (340282356779733661637539395458142568448 - 1/2) =
      .finite 340282346638528859811704183484516925440 ∧
    round32 340282356779733661637539395458142568448 = .pinf ∧
    round32 (-340282356779733661637539395458142568448) = .ninf ∧
    round32 (1 / 1427247692705959881058285969449495136382746624) = .finite 0 ∧
    round32 (3 / 1427247692705959881058285969449495136382746624) =
      .finite (1 / 356811923176489970264571492362373784095686656) ∧
    round32 0 = .finite 0 := by
  refine ⟨?_, ?_, ?_, ?_, ?_, ?_, ?_, ?_, ?_, ?_, ?_, ?_⟩ <;> with_unfolding_all rfl

set_option maxRecDepth 4000 in
theorem topK_selects_largest_witness :
    Binary32.topK Binary32.scenarioSelf sortedNthElement Binary32.scenarioJoint 2 =
      .ok ⟨Binary32.scenarioJoint, [1, 2, 0, 3, 4, 5], [1, 2],
        [round32 (9/10), round32 (2/10)]⟩ ∧
    ((Binary32.scenarioSelf.forbidUNK_ = true →
        Binary32.scenarioSelf.UNK_ID < Binary32.scenarioJoint.columns) →
      ∃ sel, Binary32.topK Binary32.scenarioSelf sortedNthElement Binary32.scenarioJoint 2 =
        .ok sel) ∧
    ∀ sel, Binary32.topK Binary32.scenarioSelf sortedNthElement Binary32.scenarioJoint 2 =
        .ok sel →
      Binary32.maskUNK Binary32.scenarioSelf Binary32.scenarioJoint = .ok sel.Probs ∧
      sel.Probs.rows = Binary32.scenarioJoint.rows ∧
      sel.Probs.columns = Binary32.scenarioJoint.columns ∧
      sel.Probs.data.length = Binary32.scenarioJoint.rows * Binary32.scenarioJoint.columns ∧
      (∀ key, key < Binary32.scenarioJoint.rows * Binary32.scenarioJoint.columns →
        sel.Probs.cell key =
          if Binary32.scenarioSelf.forbidUNK_ = true ∧
              key % Binary32.scenarioJoint.columns = Binary32.scenarioSelf.UNK_ID
          then Float32.lowest else Binary32.scenarioJoint.cell key) ∧
      sel.keys.Perm (List.range (Binary32.scenarioJoint.rows * Binary32.scenarioJoint.columns)) ∧
      sel.bestKeys = sel.keys.take 2 ∧
      sel.bestKeys.length = 2 ∧
      sel.bestKeys.Nodup ∧
      (∀ key ∈ sel.bestKeys,
        key < Binary32.scenarioJoint.rows * Binary32.scenarioJoint.columns) ∧
      (∀ key ∈ sel.bestKeys, ∀ other,
        other < Binary32.scenarioJoint.rows * Binary32.scenarioJoint.columns →
        other ∉ sel.bestKeys → (sel.Probs.cell key).ge (sel.Probs.cell other) = true) ∧
      sel.bestCosts = sel.bestKeys.map sel.Probs.cell ∧
      (↑sel.bestCosts : Multiset Float32) =
        ↑((sel.Probs.data.insertionSort (fun a b => a.ge b = true)).take 2) :=
  ⟨by with_unfolding_all rfl,
   topK_selects_largest Binary32.scenarioSelf sortedNthElement Binary32.scenarioJoint 2
    sortedNthElement_contract (by decide) (by decide) (by decide)
    (by
      intro x hx
      simp only [Binary32.scenarioJoint, Binary32.ArrayMatrix.ofRows, List.flatten,
        List.append_nil, List.cons_append, List.nil_append, List.mem_cons,
        List.not_mem_nil, or_false] at hx
      rcases hx with rfl | rfl | rfl | rfl | rfl | rfl <;> exact round32_ne_nan _)⟩

/-! ## Where the top-K selection fails -/

theorem wideData_length (m : Nat) : (Binary32.wideData m).length = m + 2 := by
  simp [Binary32.wideData]

theorem wideData_ne_nan (m : Nat) : ∀ x ∈ Binary32.wideData m, x ≠ Float32.nan := by
  intro x hx
  simp only [Binary32.wideData, List.mem_cons, List.mem_append, List.mem_replicate,
    List.mem_singleton, List.not_mem_nil, or_false] at hx
  rcases hx with rfl | ⟨_, rfl⟩ | rfl <;> simp

theorem wideData_zero (m : Nat) (d : Float32) :
    (Binary32.wideData m).getD 0 d = .finite (-5) := by
  simp [Binary32.wideData]

theorem wideData_middle (m : Nat) (d : Float32) (i : Nat) (h1 : 1 ≤ i) (h2 : i ≤ m) :
    (Binary32.wideData m).getD i d = .finite 0 := by
  obtain ⟨j, rfl⟩ : ∃ j, i = j + 1 := ⟨i - 1, by omega⟩
  have hj : j < m := by omega
  simp [Binary32.wideData, List.getD_eq_getElem?_getD, List.getElem?_append_left, hj,
    List.getElem?_replicate]

theorem wideData_last (m : Nat) (d : Float32) :
    (Binary32.wideData m).getD (m + 1) d = .finite 1 := by
  simp [Binary32.wideData, List.getD_eq_getElem?_getD, List.getElem?_append_right]

/-- On a row of `m + 2` scores `-5, 0, .., 0, 1` with `m + 1 = 2^32`, the comparator
reads key `m + 1` as key `0`: whatever `std::nth_element` does within its contract,
the key it puts first has score `0`, and key `m + 1`, of score `1`, is left out. -/
theorem wide_selected (m : Nat) (hm : m + 1 = 4294967296) (nth_element : NthElement)
    (hne : NthElementContract nth_element) :
    ∃ x, (nth_element (Binary32.ProbCompare (Binary32.wideData m))
        (List.range (m + 2)) 1).take 1 = [x] ∧ 1 ≤ x ∧ x ≤ m := by
  obtain ⟨hperm, hpart⟩ := hne (Binary32.ProbCompare (Binary32.wideData m))
    (List.range (m + 2)) 1 (probCompare32_strictWeakOrdering _ (wideData_ne_nan m))
    (by simp)
  generalize nth_element (Binary32.ProbCompare (Binary32.wideData m))
    (List.range (m + 2)) 1 = keys1 at hperm hpart
  cases keys1 with
  | nil =>
    have := hperm.length_eq
    simp at this
  | cons x tl =>
    refine ⟨x, by simp, ?_⟩
    have hx : x < m + 2 := by
      have := hperm.subset (List.mem_cons_self x tl)
      simpa using this
    have h1 : (1 : Nat) ∈ x :: tl := hperm.symm.subset (by simp)
    by_contra hcon
    have hx0 : x = 0 ∨ x = m + 1 := by omega
    have hread : (Binary32.wideData m).getD (toUnsigned x) (.finite 0) = .finite (-5) := by
      have : toUnsigned x = 0 := by
        unfold toUnsigned
        omega
      rw [this]; exact wideData_zero m _
    have h1tl : (1 : Nat) ∈ tl := by
      rcases List.mem_cons.1 h1 with h | h
      · omega
      · exact h
    have hcomp := hpart x (by simp) 1 (by simpa using h1tl)
    have hone : toUnsigned 1 = 1 := rfl
    simp only [Binary32.ProbCompare, hread, hone] at hcomp
    rw [wideData_middle m _ 1 (le_refl _) (by omega)] at hcomp
    simp [Float32.gt] at hcomp

set_option maxRecDepth 4000 in
/-- C1, counterexample.  (a) Scorers with the log-scores `[-1, -2]`, weight `1.0`, and
`[-inf, -3]`, weight `0.0`, give the joint row `[NaN, -2]`; whatever
`std::nth_element` does there at beam size 1, it is not so that one key `< 2` is
selected whose score is `>=` the score of the key left out.  (b) On the row of
`2^32 + 1` scores `-5, 0, .., 0, 1`, none a NaN, the comparator reads key `2^32` as
key `0`: every `std::nth_element` within its contract selects a key of score `0` at
beam size 1 and leaves out key `2^32`, of score `1`. -/
theorem topK_counterexample :
    (Binary32.jointProbs Binary32.nanSelf Binary32.rootHeap [0] Binary32.nanScorers =
        .ok Binary32.nanJoint ∧
      ∀ nth_element : NthElement,
        ∃ sel, Binary32.topK Binary32.nanSelf nth_element Binary32.nanJoint 1 = .ok sel ∧
          ¬ (sel.bestKeys.length = 1 ∧ (∀ key ∈ sel.bestKeys, key < 2) ∧
              ∀ key ∈ sel.bestKeys, ∀ other, other < 2 → other ∉ sel.bestKeys →
                (sel.Probs.cell key).ge (sel.Probs.cell other) = true)) ∧
    (Binary32.wideJoint.WF ∧
      Binary32.wideJoint.rows * Binary32.wideJoint.columns = 4294967296 + 1 ∧
      (∀ x ∈ Binary32.wideJoint.data, x ≠ Float32.nan) ∧
      ∀ nth_element : NthElement, NthElementContract nth_element →
        ∃ sel, Binary32.topK Binary32.scenarioSelf nth_element Binary32.wideJoint 1 = .ok sel ∧
          ∃ key ∈ sel.bestKeys, (4294967296 : Nat) ∉ sel.bestKeys ∧
            sel.Probs.cell key = .finite 0 ∧ sel.Probs.cell 4294967296 = .finite 1 ∧
            (sel.Probs.cell key).ge (sel.Probs.cell 4294967296) = false) := by
  refine ⟨⟨by with_unfolding_all rfl, ?_⟩, ?_, by decide, wideData_ne_nan _, ?_⟩
  · intro nth_element
    refine ⟨_, topK32_ok Binary32.nanSelf nth_element Binary32.nanJoint Binary32.nanJoint 1
      rfl (by decide), ?_⟩
    rintro ⟨hlen, hlt, hdom⟩
    simp only at hlen hlt hdom
    generalize (nth_element (Binary32.ProbCompare Binary32.nanJoint.data)
      (List.range (Binary32.nanJoint.rows * Binary32.nanJoint.columns)) 1).take 1 = best
      at hlen hlt hdom
    match best, hlen with
    | [x], _ =>
      have hx : x < 2 := hlt x (by simp)
      have h0 : Binary32.nanJoint.cell 0 = .nan := rfl
      have h1 : Binary32.nanJoint.cell 1 = .finite (-2) := rfl
      rcases (by omega : x = 0 ∨ x = 1) with rfl | rfl
      · have := hdom 0 (by simp) 1 (by omega) (by simp)
        rw [h0, h1] at this
        simp [Float32.ge] at this
      · have := hdom 1 (by simp) 0 (by omega) (by simp)
        rw [h0, h1] at this
        simp [Float32.ge] at this
  · show (Binary32.wideData 4294967295).length = 1 * 4294967297
    rw [wideData_length]
  · intro nth_element hne
    obtain ⟨x, hx, hx1, hx2⟩ := wide_selected 4294967295 (by decide) nth_element hne
    have hN : Binary32.wideJoint.rows * Binary32.wideJoint.columns = 4294967295 + 2 := by
      decide
    refine ⟨_, topK32_ok Binary32.scenarioSelf nth_element Binary32.wideJoint
      Binary32.wideJoint 1 rfl (by decide), ?_⟩
    simp only [hN]
    have hd : Binary32.wideJoint.data = Binary32.wideData 4294967295 := rfl
    rw [hd, hx]
    have hcx : Binary32.wideJoint.cell x = .finite 0 := by
      unfold Binary32.ArrayMatrix.cell
      rw [hd]; exact wideData_middle _ _ x hx1 hx2
    have hcl : Binary32.wideJoint.cell 4294967296 = .finite 1 := by
      unfold Binary32.ArrayMatrix.cell
      rw [hd]; exact wideData_last 4294967295 _
    refine ⟨x, by simp, ?_, hcx, hcl, ?_⟩
    · simp only [List.mem_singleton]; omega
    · rw [hcx, hcl]; simp [Float32.ge]

/-! ## The joint matrix over exact arithmetic -/

theorem readCosts_ok (heap : List Hypothesis) :
    ∀ (ptrs : List HypothesisPtr) (costs : List ℚ),
      ptrs.map (fun p => (heap[p]?).map Hypothesis.cost) = costs.map some →
      readCosts heap ptrs = .ok costs
  | [], costs, h => by
    cases costs with
    | nil => rfl
    | cons c cs => simp at h
  | p :: ps, costs, h => by
    cases costs with
    | nil => simp at h
    | cons c cs =>
      simp only [List.map_cons, List.cons.injEq] at h
      obtain ⟨h1, h2⟩ := h
      have ih := readCosts_ok heap ps cs h2
      cases hp : heap[p]? with
      | none => rw [hp] at h1; simp at h1
      | some hy =>
        rw [hp] at h1
        simp only [Option.map_some', Option.some.injEq] at h1
        simp [readCosts, hp, ih, h1]

theorem fillCosts_ok (heap : List Hypothesis) (prevHyps : List HypothesisPtr)
    (costs : List ℚ) (rows : Nat)
    (hcosts : prevHyps.map (fun p => (heap[p]?).map Hypothesis.cost) = costs.map some)
    (hlen : prevHyps.length = rows) :
    fillCosts heap prevHyps rows = .ok ⟨rows, 1, costs⟩ := by
  have h1 : prevHyps.take rows = prevHyps := by
    rw [← hlen]; exact List.take_length _
  simp [fillCosts, h1, readCosts_ok heap prevHyps costs hcosts, hlen]

theorem cell_zipWith (a b : List ℚ) (f : ℚ → ℚ → ℚ) (k : Nat)
    (ha : k < a.length) (hb : k < b.length) :
    (List.zipWith f a b).getD k 0 = f (a.getD k 0) (b.getD k 0) := by
  simp [List.getD_eq_getElem?_getD, List.getElem?_eq_getElem ha,
    List.getElem?_eq_getElem hb, List.getElem?_zipWith]

/-- Lines 58-62 succeed on equally shaped matrices with known weights; the shape
is kept and every cell gains the weighted scores of the further scorers. -/
theorem addScorers_ok (self : BestHyps) :
    ∀ (rest : List Scorer) (Probs : ArrayMatrix),
      Probs.WF →
      (∀ s ∈ rest, s.probs.rows = Probs.rows ∧ s.probs.columns = Probs.columns ∧ s.probs.WF) →
      (∀ s ∈ rest, (self.weights_ s.name).isSome = true) →
      ∃ J, addScorers self Probs rest = .ok J ∧ J.rows = Probs.rows ∧
        J.columns = Probs.columns ∧ J.WF ∧
        ∀ k, k < Probs.rows * Probs.columns →
          J.cell k = Probs.cell k +
            (rest.map (fun s => self.weight s.name * s.probs.cell k)).sum
  | [], Probs, hwf, _, _ => ⟨Probs, rfl, rfl, rfl, hwf, fun k _ => by simp⟩
  | s :: rest, Probs, hwf, hshape, hw => by
    obtain ⟨hr, hc, hswf⟩ := hshape s (List.mem_cons_self _ _)
    have hws := hw s (List.mem_cons_self _ _)
    obtain ⟨w, hwv⟩ := Option.isSome_iff_exists.1 hws
    have hwf1 : ArrayMatrix.WF
        { Probs with data := List.zipWith (fun x y => x + w * y) Probs.data s.probs.data } := by
      unfold ArrayMatrix.WF at *
      simp only [List.length_zipWith, hwf, hswf, hr, hc, min_self]
    obtain ⟨J, hJ, hJr, hJc, hJwf, hJcell⟩ := addScorers_ok self rest _ hwf1
      (fun t ht => by
        obtain ⟨a, b, c⟩ := hshape t (List.mem_cons_of_mem _ ht)
        exact ⟨a, b, c⟩)
      (fun t ht => hw t (List.mem_cons_of_mem _ ht))
    refine ⟨J, ?_, hJr, hJc, hJwf, ?_⟩
    · simp [addScorers, hwv, ArrayMatrix.addScaled, hr, hc, hJ]
    · intro k hk
      rw [hJcell k hk]
      simp only [ArrayMatrix.cell, List.map_cons, List.sum_cons, BestHyps.weight, hwv,
        Option.getD_some]
      rw [cell_zipWith _ _ _ _ (by rw [hwf]; exact hk) (by rw [hswf, hr, hc]; exact hk)]
      ring

/-- Lines 48-62 on well-formed input: the joint matrix. -/
theorem jointProbs_ok (self : BestHyps) (heap : List Hypothesis)
    (prevHyps : List HypothesisPtr) (s0 : Scorer) (rest : List Scorer) (costs : List ℚ)
    (hshape : ∀ s ∈ s0 :: rest,
      s.probs.rows = s0.probs.rows ∧ s.probs.columns = s0.probs.columns ∧ s.probs.WF)
    (hw : ∀ s ∈ s0 :: rest, (self.weights_ s.name).isSome = true)
    (hcosts : prevHyps.map (fun p => (heap[p]?).map Hypothesis.cost) = costs.map some)
    (hlen : prevHyps.length = s0.probs.rows) :
    ∃ J, jointProbs self heap prevHyps (s0 :: rest) = .ok J ∧
      J.rows = s0.probs.rows ∧ J.columns = s0.probs.columns ∧ J.WF ∧
      ∀ k, k < s0.probs.rows * s0.probs.columns →
        J.cell k = s0.probs.cell k * self.weight s0.name + costs.getD (k / s0.probs.columns) 0 +
          (rest.map (fun s => self.weight s.name * s.probs.cell k)).sum := by
  obtain ⟨_, _, hwf0⟩ := hshape s0 (List.mem_cons_self _ _)
  obtain ⟨w0, hw0⟩ := Option.isSome_iff_exists.1 (hw s0 (List.mem_cons_self _ _))
  have hwfB : (AddBiasVector_byColumn (s0.probs.scale w0) ⟨s0.probs.rows, 1, costs⟩).WF := by
    unfold ArrayMatrix.WF at *
    simp [AddBiasVector_byColumn, ArrayMatrix.scale, hwf0]
  obtain ⟨J, hJ, hJr, hJc, hJwf, hJcell⟩ := addScorers_ok self rest _ hwfB
    (fun t ht => by
      obtain ⟨a, b, c⟩ := hshape t (List.mem_cons_of_mem _ ht)
      exact ⟨a, b, c⟩)
    (fun t ht => hw t (List.mem_cons_of_mem _ ht))
  refine ⟨J, ?_, hJr, hJc, hJwf, ?_⟩
  · simp [jointProbs, fillCosts_ok heap prevHyps costs _ hcosts hlen, hw0, hJ]
  · intro k hk
    have := hJcell k hk
    rw [this]
    congr 1
    simp only [AddBiasVector_byColumn, ArrayMatrix.scale, ArrayMatrix.cell]
    rw [cell_mapIdx _ _ _ (by rw [List.length_map, hwf0]; exact hk)]
    simp [BestHyps.weight, hw0, List.getD_eq_getElem?_getD,
      List.getElem?_eq_getElem (show k < s0.probs.data.length by rw [hwf0]; exact hk)]

/-! ## C2: the joint matrix in `float` arithmetic -/

theorem readCosts32_ok (heap : List Binary32.Hypothesis) :
    ∀ (ptrs : List HypothesisPtr) (costs : List Float32),
      ptrs.map (fun p => (heap[p]?).map Binary32.Hypothesis.cost) = costs.map some →
      Binary32.readCosts heap ptrs = .ok costs
  | [], costs, h => by
    cases costs with
    | nil => rfl
    | cons c cs => simp at h
  | p :: ps, costs, h => by
    cases costs with
    | nil => simp at h
    | cons c cs =>
      simp only [List.map_cons, List.cons.injEq] at h
      obtain ⟨h1, h2⟩ := h
      have ih := readCosts32_ok heap ps cs h2
      cases hp : heap[p]? with
      | none => rw [hp] at h1; simp at h1
      | some hy =>
        rw [hp] at h1
        simp only [Option.map_some', Option.some.injEq] at h1
        simp [Binary32.readCosts, hp, ih, h1]

theorem fillCosts32_ok (heap : List Binary32.Hypothesis) (prevHyps : List HypothesisPtr)
    (costs : List Float32) (rows : Nat)
    (hcosts : prevHyps.map (fun p => (heap[p]?).map Binary32.Hypothesis.cost) = costs.map some)
    (hlen : prevHyps.length = rows) :
    Binary32.fillCosts heap prevHyps rows = .ok ⟨rows, 1, costs⟩ := by
  have h1 : prevHyps.take rows = prevHyps := by
    rw [← hlen]; exact List.take_length _
  simp [Binary32.fillCosts, h1, readCosts32_ok heap prevHyps costs hcosts, hlen]

/-- Lines 58-62 in `float` arithmetic: on equally shaped matrices with known
weights the shape is kept, and every cell gains, scorer after scorer, the rounded
product of weight and score, each sum being rounded. -/
theorem addScorers32_ok (self : Binary32.BestHyps) :
    ∀ (rest : List Binary32.Scorer) (Probs : Binary32.ArrayMatrix),
      Probs.WF →
      (∀ s ∈ rest, s.probs.rows = Probs.rows ∧ s.probs.columns = Probs.columns ∧ s.probs.WF) →
      (∀ s ∈ rest, (self.weights_ s.name).isSome = true) →
      ∃ J, Binary32.addScorers self Probs rest = .ok J ∧ J.rows = Probs.rows ∧
        J.columns = Probs.columns ∧ J.WF ∧
        ∀ k, k < Probs.rows * Probs.columns →
          J.cell k = rest.foldl
            (fun acc s => acc.add ((self.weight s.name).mul (s.probs.cell k))) (Probs.cell k)
  | [], Probs, hwf, _, _ => ⟨Probs, rfl, rfl, rfl, hwf, fun k _ => by simp⟩
  | s :: rest, Probs, hwf, hshape, hw => by
    obtain ⟨hr, hc, hswf⟩ := hshape s (List.mem_cons_self _ _)
    have hws := hw s (List.mem_cons_self _ _)
    obtain ⟨w, hwv⟩ := Option.isSome_iff_exists.1 hws
    have hwf1 : Binary32.ArrayMatrix.WF
        { Probs with data := List.zipWith (fun x y => x.add (w.mul y)) Probs.data s.probs.data } := by
      unfold Binary32.ArrayMatrix.WF at *
      simp only [List.length_zipWith, hwf, hswf, hr, hc, min_self]
    obtain ⟨J, hJ, hJr, hJc, hJwf, hJcell⟩ := addScorers32_ok self rest _ hwf1
      (fun t ht => by
        obtain ⟨a, b, c⟩ := hshape t (List.mem_cons_of_mem _ ht)
        exact ⟨a, b, c⟩)
      (fun t ht => hw t (List.mem_cons_of_mem _ ht))
    refine ⟨J, ?_, hJr, hJc, hJwf, ?_⟩
    · simp [Binary32.addScorers, hwv, Binary32.ArrayMatrix.addScaled, hr, hc, hJ]
    · intro k hk
      rw [hJcell k hk]
      simp only [Binary32.ArrayMatrix.cell, List.foldl_cons, Binary32.BestHyps.weight, hwv,
        Option.getD_some]
      rw [getD_zipWith_of_lt _ _ _ _ _ (by rw [hwf]; exact hk) (by rw [hswf, hr, hc]; exact hk)]

/-- Lines 48-62 in `float` arithmetic on well-formed input: the joint matrix. -/
theorem jointProbs32_ok (self : Binary32.BestHyps) (heap : List Binary32.Hypothesis)
    (prevHyps : List HypothesisPtr) (s0 : Binary32.Scorer) (rest : List Binary32.Scorer)
    (costs : List Float32)
    (hshape : ∀ s ∈ s0 :: rest,
      s.probs.rows = s0.probs.rows ∧ s.probs.columns = s0.probs.columns ∧ s.probs.WF)
    (hw : ∀ s ∈ s0 :: rest, (self.weights_ s.name).isSome = true)
    (hcosts : prevHyps.map (fun p => (heap[p]?).map Binary32.Hypothesis.cost) = costs.map some)
    (hlen : prevHyps.length = s0.probs.rows) :
    ∃ J, Binary32.jointProbs self heap prevHyps (s0 :: rest) = .ok J ∧
      J.rows = s0.probs.rows ∧ J.columns = s0.probs.columns ∧ J.WF ∧
      ∀ k, k < s0.probs.rows * s0.probs.columns →
        J.cell k = rest.foldl
          (fun acc s => acc.add ((self.weight s.name).mul (s.probs.cell k)))
          (((s0.probs.cell k).mul (self.weight s0.name)).add
            (costs.getD (k / s0.probs.columns) (.finite 0))) := by
  obtain ⟨_, _, hwf0⟩ := hshape s0 (List.mem_cons_self _ _)
  obtain ⟨w0, hw0⟩ := Option.isSome_iff_exists.1 (hw s0 (List.mem_cons_self _ _))
  have hwfB : (Binary32.AddBiasVector_byColumn (s0.probs.scale w0)
      ⟨s0.probs.rows, 1, costs⟩).WF := by
    unfold Binary32.ArrayMatrix.WF at *
    simp [Binary32.AddBiasVector_byColumn, Binary32.ArrayMatrix.scale, hwf0]
  obtain ⟨J, hJ, hJr, hJc, hJwf, hJcell⟩ := addScorers32_ok self rest _ hwfB
    (fun t ht => by
      obtain ⟨a, b, c⟩ := hshape t (List.mem_cons_of_mem _ ht)
      exact ⟨a, b, c⟩)
    (fun t ht => hw t (List.mem_cons_of_mem _ ht))
  refine ⟨J, ?_, hJr, hJc, hJwf, ?_⟩
  · simp [Binary32.jointProbs, fillCosts32_ok heap prevHyps costs _ hcosts hlen, hw0, hJ]
  · intro k hk
    have := hJcell k hk
    rw [this]
    congr 1
    simp only [Binary32.AddBiasVector_byColumn, Binary32.ArrayMatrix.scale,
      Binary32.ArrayMatrix.cell]
    rw [getD_mapIdx_of_lt _ _ _ _ (by rw [List.length_map, hwf0]; exact hk)]
    simp [Binary32.BestHyps.weight, hw0, List.getD_eq_getElem?_getD,
      List.getElem?_eq_getElem (show k < s0.probs.data.length by rw [hwf0]; exact hk)]

/-- C2. Ensemble combination, lines 48-62 in `float` arithmetic: for `n ≥ 1` scorers
`s0 :: rest` with equally shaped matrices, a weight for every scorer and one
previous hypothesis per row, with costs `costs`, the joint matrix has the shape of
the first scorer's matrix, and every cell is
`w_0 * P_0[r][c] + costs[r] + w_1 * P_1[r][c] + .. + w_{n-1} * P_{n-1}[r][c]`
evaluated from left to right, every product and every sum rounded to a `float`
(the order of the two factors of a product does not matter, `float32_mul_comm`):
the previous cost enters exactly once. -/
theorem jointProbs_combines (self : Binary32.BestHyps) (heap : List Binary32.Hypothesis)
    (prevHyps : List HypothesisPtr) (s0 : Binary32.Scorer) (rest : List Binary32.Scorer)
    (costs : List Float32)
    (hshape : ∀ s ∈ s0 :: rest,
      s.probs.rows = s0.probs.rows ∧ s.probs.columns = s0.probs.columns ∧ s.probs.WF)
    (hw : ∀ s ∈ s0 :: rest, (self.weights_ s.name).isSome = true)
    (hcosts : prevHyps.map (fun p => (heap[p]?).map Binary32.Hypothesis.cost) = costs.map some)
    (hlen : prevHyps.length = s0.probs.rows) :
    ∃ J, Binary32.jointProbs self heap prevHyps (s0 :: rest) = .ok J ∧
      J.rows = s0.probs.rows ∧ J.columns = s0.probs.columns ∧ J.WF ∧
      ∀ r c, r < s0.probs.rows → c < s0.probs.columns →
        J.at r c = rest.foldl
          (fun acc s => acc.add ((self.weight s.name).mul (s.probs.at r c)))
          (((s0.probs.at r c).mul (self.weight s0.name)).add (costs.getD r (.finite 0))) := by
  obtain ⟨J, hJ, hJr, hJc, hJwf, hJcell⟩ :=
    jointProbs32_ok self heap prevHyps s0 rest costs hshape hw hcosts hlen
  refine ⟨J, hJ, hJr, hJc, hJwf, ?_⟩
  intro r c hr hc
  have hk : r * s0.probs.columns + c < s0.probs.rows * s0.probs.columns := by
    calc r * s0.probs.columns + c < r * s0.probs.columns + s0.probs.columns := by omega
      _ = (r + 1) * s0.probs.columns := by ring
      _ ≤ s0.probs.rows * s0.probs.columns := Nat.mul_le_mul_right _ hr
  have hdiv : (r * s0.probs.columns + c) / s0.probs.columns = r := by
    rw [Nat.add_comm, Nat.add_mul_div_right _ _ (by omega), Nat.div_eq_of_lt hc, Nat.zero_add]
  have hfold : ∀ (l : List Binary32.Scorer) (x : Float32),
      (∀ s ∈ l, s.probs.columns = s0.probs.columns) →
      l.foldl (fun acc s => acc.add ((self.weight s.name).mul (s.probs.at r c))) x =
      l.foldl (fun acc s => acc.add ((self.weight s.name).mul
        (s.probs.cell (r * s0.probs.columns + c)))) x := by
    intro l
    induction l with
    | nil => intro x _; rfl
    | cons s l ih =>
      intro x hcol
      simp only [List.foldl_cons, Binary32.ArrayMatrix.at,
        hcol s (List.mem_cons_self _ _)]
      exact ih _ (fun t ht => hcol t (List.mem_cons_of_mem _ ht))
  rw [hfold rest _ (fun s hs => (hshape s (List.mem_cons_of_mem _ hs)).2.1)]
  simp only [Binary32.ArrayMatrix.at, hJc]
  rw [hJcell _ hk, hdiv]

set_option maxRecDepth 4000 in
theorem jointProbs_combines_witness :
    Binary32.jointProbs Binary32.scenarioSelf Binary32.scenarioHeap [0, 1]
      Binary32.scenarioScorers = .ok Binary32.scenarioJoint ∧
    ∃ J, Binary32.jointProbs Binary32.scenarioSelf Binary32.scenarioHeap [0, 1]
        Binary32.scenarioScorers = .ok J ∧
      J.rows = 2 ∧ J.columns = 3 ∧ J.WF ∧
      ∀ r c, r < 2 → c < 3 →
        J.at r c = ([] : List Binary32.Scorer).foldl
          (fun acc s => acc.add ((Binary32.scenarioSelf.weight s.name).mul (s.probs.at r c)))
          (((Binary32.scenarioProbs.at r c).mul (Binary32.scenarioSelf.weight "F0")).add
            ([Float32.finite 0, Float32.finite (-1)].getD r (.finite 0))) :=
  ⟨by with_unfolding_all rfl,
   jointProbs_combines Binary32.scenarioSelf Binary32.scenarioHeap [0, 1]
    ⟨"F0", Binary32.scenarioProbs⟩ [] [.finite 0, .finite (-1)]
    (by decide) (by decide) (by with_unfolding_all rfl) (by decide)⟩

set_option maxRecDepth 4000 in
/-- C2, counterexample.  (a) One scorer of weight `1.0` with the row `[0.5, 1.0]` over
a previous hypothesis of cost `2^25`, all of them `float`s: the joint row the code
builds is `[2^25, 2^25]`, not `[2^25 + 0.5, 2^25 + 1]` as the equation
`joint[r][c] = w_0 * P_0[r][c] + c_r` has it; the two keys tie, and a stable
selection of one key returns key `0` where the equation makes key `1` the best.
(b) The sum of line 61 rounds as well: with the scores `2^25`, weight `1.0`, and
`1.0`, weight `0.5`, over a cost `0`, the joint score is `2^25`, not `2^25 + 0.5`.
(c) So does the product of line 55: the score `1 + 2^-23` with the weight
`1 + 2^-23` over a cost `0` gives `1 + 2^-22`, not `(1 + 2^-23)^2`. -/
theorem jointProbs_counterexample :
    ((IsFloat32 1 ∧ IsFloat32 (1/2) ∧ IsFloat32 33554432) ∧
      Binary32.jointProbs Binary32.scenarioSelf Binary32.largeCostHeap [0]
        Binary32.largeCostScorers = .ok ⟨1, 2, [.finite 33554432, .finite 33554432]⟩ ∧
      ¬ (∃ J, Binary32.jointProbs Binary32.scenarioSelf Binary32.largeCostHeap [0]
          Binary32.largeCostScorers = .ok J ∧
          ∀ c, c < 2 → J.at 0 c = .finite (1 * ([1/2, 1] : List ℚ).getD c 0 + 33554432)) ∧
      Binary32.topK Binary32.scenarioSelf sortedNthElement
        ⟨1, 2, [.finite 33554432, .finite 33554432]⟩ 1 =
          .ok ⟨⟨1, 2, [.finite 33554432, .finite 33554432]⟩, [0, 1], [0],
            [.finite 33554432]⟩) ∧
    (Binary32.jointProbs Binary32.halfSelf Binary32.rootHeap [0]
        Binary32.largeScoreScorers = .ok ⟨1, 1, [.finite 33554432]⟩ ∧
      (33554432 : ℚ) ≠ 1 * 33554432 + 0 + 1/2 * 1) ∧
    (IsFloat32 (8388609/8388608) ∧
      Binary32.jointProbs Binary32.fineSelf Binary32.rootHeap [0]
        Binary32.fineScorers = .ok ⟨1, 1, [.finite (4194305/4194304)]⟩ ∧
      (4194305/4194304 : ℚ) ≠ 8388609/8388608 * (8388609/8388608) + 0) := by
  have hJ : Binary32.jointProbs Binary32.scenarioSelf Binary32.largeCostHeap [0]
      Binary32.largeCostScorers = .ok ⟨1, 2, [.finite 33554432, .finite 33554432]⟩ := by
    with_unfolding_all rfl
  refine ⟨⟨⟨⟨1, 149, by norm_num, by norm_num, by norm_num⟩,
      ⟨1, 148, by norm_num, by norm_num, by norm_num⟩,
      ⟨1, 174, by norm_num, by norm_num, by norm_num⟩⟩, hJ, ?_, by with_unfolding_all rfl⟩,
    ⟨by with_unfolding_all rfl, by norm_num⟩,
    ⟨⟨8388609, 126, by norm_num, by norm_num, by norm_num⟩, by with_unfolding_all rfl,
      by norm_num⟩⟩
  rintro ⟨J, hJ1, hcell⟩
  rw [hJ] at hJ1
  cases hJ1
  have h := hcell 1 (by decide)
  have h1 : (Binary32.ArrayMatrix.at ⟨1, 2, [.finite 33554432, .finite 33554432]⟩ 0 1)
      = .finite 33554432 := rfl
  rw [h1] at h
  simp only [Float32.finite.injEq] at h
  norm_num at h

/-! ## The cost breakdown of a new hypothesis (lines 131-148) -/

theorem resize_length (v : List ℚ) (n : Nat) (x : ℚ) : (resize v n x).length = n := by
  simp only [resize, List.length_append, List.length_take, List.length_replicate]
  omega

theorem backfill_length (n : Nat) (h : Hypothesis) :
    ¬ (backfill n h).costBreakdown.length < n := by
  unfold backfill
  split
  · simp [resize_length]
  · assumption

theorem backfill_of_not_lt (n : Nat) (h : Hypothesis) (hn : ¬ h.costBreakdown.length < n) :
    backfill n h = h := by
  unfold backfill
  rw [if_neg hn]

theorem backfill_idem (n : Nat) (h : Hypothesis) : backfill n (backfill n h) = backfill n h :=
  backfill_of_not_lt n _ (backfill_length n h)

/-- Extending a breakdown with zeros changes no entry read with default `0`. -/
theorem backfill_getD (n : Nat) (h : Hypothesis) (j : Nat) :
    (backfill n h).costBreakdown.getD j 0 = h.costBreakdown.getD j 0 := by
  unfold backfill
  split
  · rename_i hlt
    simp only [resize, List.take_of_length_le (Nat.le_of_lt hlt)]
    by_cases hj : j < h.costBreakdown.length
    · simp [List.getD_eq_getElem?_getD, List.getElem?_append_left hj]
    · have hj1 : h.costBreakdown.length ≤ j := Nat.le_of_not_lt hj
      simp only [List.getD_eq_getElem?_getD, List.getElem?_append_right hj1,
        List.getElem?_eq_none hj1, Option.getD_none]
      by_cases hj2 : j - h.costBreakdown.length < n - h.costBreakdown.length
      · simp [List.getElem?_replicate, hj2]
      · simp [List.getElem?_replicate, hj2]
  · rfl

theorem tailEntries_congr (breakDowns : List (List ℚ)) (i : Nat) (bd1 bd2 : List ℚ)
    (h : ∀ j, bd1.getD j 0 = bd2.getD j 0) :
    ∀ (rest : List Scorer) (j : Nat),
      tailEntries breakDowns i bd1 j rest = tailEntries breakDowns i bd2 j rest
  | [], _ => rfl
  | _ :: rest, j => by
    simp only [tailEntries, h j, tailEntries_congr breakDowns i bd1 bd2 h rest (j + 1)]

theorem tailEntries_length (breakDowns : List (List ℚ)) (i : Nat) (bd : List ℚ) :
    ∀ (rest : List Scorer) (j : Nat), (tailEntries breakDowns i bd j rest).length = rest.length
  | [], _ => rfl
  | _ :: rest, j => by
    simp [tailEntries, tailEntries_length breakDowns i bd rest (j + 1)]

theorem tailEntries_getD (breakDowns : List (List ℚ)) (i : Nat) (bd : List ℚ) :
    ∀ (rest : List Scorer) (j t : Nat), t < rest.length →
      (tailEntries breakDowns i bd j rest).getD t 0 =
        (breakDowns.getD (j + t) []).getD i 0 + bd.getD (j + t) 0
  | [], _, _, h => by simp at h
  | _ :: rest, j, 0, _ => by simp [tailEntries]
  | _ :: rest, j, t + 1, h => by
    have := tailEntries_getD breakDowns i bd rest (j + 1) t (by simpa using h)
    simp only [tailEntries, List.getD_cons_succ, this]
    have e : j + 1 + t = j + (t + 1) := by omega
    rw [e]

theorem take_set_succ (c : ℚ) :
    ∀ (l : List ℚ) (j : Nat), j < l.length → (l.set j c).take (j + 1) = l.take j ++ [c]
  | [], _, h => by simp at h
  | _ :: _, 0, _ => by simp
  | a :: l, j + 1, h => by
    simp [take_set_succ c l j (by simpa using h)]

/-- The loop of lines 133-146, from an index `j ≥ 1` on, in closed form. -/
theorem breakdownLoop_tail (self : BestHyps) (breakDowns : List (List ℚ)) (i : Nat)
    (p : HypothesisPtr) (n : Nat) :
    ∀ (rest : List Scorer) (j : Nat) (st : BreakdownState) (parent : Hypothesis),
      1 ≤ j → st.heap[p]? = some parent →
      (∀ s ∈ rest, (self.weights_ s.name).isSome = true) →
      st.costBreakdown.length = j + rest.length →
      breakdownLoop self breakDowns i p n j rest st =
        (⟨if rest = [] then st.heap else st.heap.set p (backfill n parent),
          st.costBreakdown.take j ++
            tailEntries breakDowns i (backfill n parent).costBreakdown j rest,
          st.sum + weightedSum self rest
            (tailEntries breakDowns i (backfill n parent).costBreakdown j rest)⟩, none)
  | [], j, st, parent, _, _, _, hlen => by
    have : st.costBreakdown.take j = st.costBreakdown := by
      apply List.take_of_length_le; simp at hlen; omega
    simp [breakdownLoop, tailEntries, weightedSum, this]
  | s :: rest, j, st, parent, hj, hp, hw, hlen => by
    have hj0 : j ≠ 0 := by omega
    obtain ⟨w, hwv⟩ := Option.isSome_iff_exists.1 (hw s (List.mem_cons_self _ _))
    have hplt : p < st.heap.length := by
      by_contra hcon
      rw [List.getElem?_eq_none (Nat.le_of_not_lt hcon)] at hp
      exact Option.noConfusion hp
    have hp1 : (st.heap.set p (backfill n parent))[p]? = some (backfill n parent) :=
      List.getElem?_set_self hplt
    have ih := breakdownLoop_tail self breakDowns i p n rest (j + 1)
      { heap := st.heap.set p (backfill n parent),
        costBreakdown := st.costBreakdown.set j
          ((breakDowns.getD j []).getD i 0 + (backfill n parent).costBreakdown.getD j 0),
        sum := st.sum + w *
          ((breakDowns.getD j []).getD i 0 + (backfill n parent).costBreakdown.getD j 0) }
      (backfill n parent) (by omega) hp1
      (fun t ht => hw t (List.mem_cons_of_mem _ ht))
      (by simp only [List.length_set, hlen, List.length_cons]; omega)
    have hjl : j < st.costBreakdown.length := by rw [hlen]; simp
    simp only [breakdownLoop, hj0, if_false, hp, hwv]
    rw [ih]
    simp only [backfill_idem, List.set_set, ite_self, take_set_succ _ _ _ hjl, tailEntries,
      weightedSum, List.zipWith_cons_cons, List.sum_cons, BestHyps.weight, hwv,
      Option.getD_some, List.append_assoc, List.singleton_append, add_assoc]
    simp

/-- Lines 131-148 in closed form: the breakdown of the new hypothesis, and the heap
with the parent's breakdown extended when there are two scorers or more. -/
theorem costBreakdown_ok (self : BestHyps) (s0 : Scorer) (rest : List Scorer)
    (breakDowns : List (List ℚ)) (i : Nat) (p : HypothesisPtr) (heap : List Hypothesis)
    (parent : Hypothesis) (hp : heap[p]? = some parent)
    (hw : ∀ s ∈ s0 :: rest, (self.weights_ s.name).isSome = true) :
    costBreakdown self (s0 :: rest) breakDowns i p heap =
      (if rest = [] then heap else heap.set p (backfill (rest.length + 1) parent),
        .ok (breakdownOf self (s0 :: rest) breakDowns i parent.costBreakdown)) := by
  obtain ⟨w0, hw0⟩ := Option.isSome_iff_exists.1 (hw s0 (List.mem_cons_self _ _))
  have htail := breakdownLoop_tail self breakDowns i p (rest.length + 1) rest 1
    { heap := heap,
      costBreakdown := (resize [] (rest.length + 1) 0).set 0 ((breakDowns.getD 0 []).getD i 0),
      sum := 0 } parent (Nat.le_refl 1) hp
    (fun t ht => hw t (List.mem_cons_of_mem _ ht))
    (by simp only [List.length_set, resize_length]; omega)
  have hcongr := tailEntries_congr breakDowns i
    (backfill (rest.length + 1) parent).costBreakdown parent.costBreakdown
    (backfill_getD (rest.length + 1) parent) rest 1
  have hres : resize [] (rest.length + 1) 0 = 0 :: List.replicate rest.length 0 := by
    simp [resize, List.replicate_succ]
  simp only [costBreakdown, breakdownLoop, List.length_cons, if_true, htail, hcongr,
    List.head?_cons, hw0, breakdownOf, BestHyps.weight, Option.getD_some, zero_add]
  simp [hres]

/-! ## The expansion loop (lines 100-151) in closed form -/

theorem collectAlignments_ok (hypIndex : Nat) :
    ∀ (scorers : List Scorer),
      (∀ s ∈ scorers, ∃ att, s.attention = some att ∧ hypIndex < att.rows) →
      collectAlignments hypIndex scorers = .ok (alignmentsOf hypIndex scorers)
  | [], _ => rfl
  | s :: rest, h => by
    obtain ⟨att, ha, hr⟩ := h s (List.mem_cons_self _ _)
    have ih := collectAlignments_ok hypIndex rest (fun t ht => h t (List.mem_cons_of_mem _ ht))
    simp [collectAlignments, ha, hr, ih, alignmentsOf]

theorem getElem?_eq_some_getD {α : Type} (l : List α) (k : Nat) (d : α)
    (h : k < l.length) : l[k]? = some (l.getD k d) := by
  rw [List.getD_eq_getElem?_getD, List.getElem?_eq_getElem h, Option.getD_some]

/-- One round of the expansion loop on well-formed input. -/
theorem expandOne_ok (self : BestHyps) (prevHyps : List HypothesisPtr) (s0 : Scorer)
    (rest : List Scorer) (filterIndices : Words) (sel : Selection) (i : Nat)
    (A B : List Hypothesis) (beams : Beams)
    (hprev : sel.bestKeys.getD i 0 / sel.Probs.columns < prevHyps.length)
    (hpar : parentOf prevHyps sel i < A.length)
    (hfil : self.isInputFiltered_ = true →
      sel.bestKeys.getD i 0 % sel.Probs.columns < filterIndices.length)
    (hatt : self.returnAttentionWeights_ = true → ∀ s ∈ s0 :: rest,
      ∃ att, s.attention = some att ∧ sel.bestKeys.getD i 0 / sel.Probs.columns < att.rows)
    (hw : self.returnNBestList_ = true →
      ∀ s ∈ s0 :: rest, (self.weights_ s.name).isSome = true) :
    expandOne self prevHyps (s0 :: rest) filterIndices sel i ⟨A ++ B, beams⟩ =
      ⟨⟨backfillStep self prevHyps (s0 :: rest) sel A i ++
          (B ++ [newHypothesis self prevHyps (s0 :: rest) filterIndices sel i
            (breakdownAt A (parentOf prevHyps sel i))]),
        beams.Add 0 (A.length + B.length)⟩, none⟩ := by
  have hp1 : prevHyps[sel.bestKeys.getD i 0 / sel.Probs.columns]? =
      some (parentOf prevHyps sel i) := by
    exact getElem?_eq_some_getD prevHyps _ 0 hprev
  have hA : A[parentOf prevHyps sel i]? = some (A.get ⟨_, hpar⟩) := by
    rw [List.getElem?_eq_getElem hpar]; rfl
  have hAB : (A ++ B)[parentOf prevHyps sel i]? = some (A.get ⟨_, hpar⟩) := by
    rw [List.getElem?_append_left hpar]; exact hA
  have hbd : breakdownAt A (parentOf prevHyps sel i) = (A.get ⟨_, hpar⟩).costBreakdown := by
    simp [breakdownAt, hA]
  have hfilter : (if self.isInputFiltered_ = true then
        filterIndices[sel.bestKeys.getD i 0 % sel.Probs.columns]?
      else some (sel.bestKeys.getD i 0 % sel.Probs.columns)) =
      some (if self.isInputFiltered_ = true then
          filterIndices.getD (sel.bestKeys.getD i 0 % sel.Probs.columns) 0
        else sel.bestKeys.getD i 0 % sel.Probs.columns) := by
    by_cases hf : self.isInputFiltered_ = true
    · rw [if_pos hf, if_pos hf]
      exact getElem?_eq_some_getD filterIndices _ 0 (hfil hf)
    · simp [hf]
  have halign : (if self.returnAttentionWeights_ = true then
        collectAlignments (sel.bestKeys.getD i 0 / sel.Probs.columns) (s0 :: rest)
      else .ok []) =
      .ok (if self.returnAttentionWeights_ = true then
          alignmentsOf (sel.bestKeys.getD i 0 / sel.Probs.columns) (s0 :: rest)
        else []) := by
    by_cases ha : self.returnAttentionWeights_ = true
    · rw [if_pos ha, if_pos ha, collectAlignments_ok _ _ (hatt ha)]
    · rw [if_neg ha, if_neg ha]
  simp only [expandOne, hfilter, hp1, halign]
  by_cases hn : self.returnNBestList_ = true
  · rw [if_pos hn, costBreakdown_ok self s0 rest sel.breakDowns i _ (A ++ B) _ hAB (hw hn)]
    by_cases hr : rest = []
    · subst hr
      simp [backfillStep, World.addHyp, newHypothesis, hn, hbd]
    · have h2 : 2 ≤ (s0 :: rest).length := by
        cases rest with
        | nil => exact absurd rfl hr
        | cons a l => simp
      have h3 : 2 ≤ rest.length + 1 := by simpa using h2
      simp only [hr, if_false, World.addHyp, backfillStep, hn, h3, and_self, if_true,
        updateAt, hA, newHypothesis, hbd, List.length_set, List.length_append,
        List.set_append_left _ _ hpar, List.append_assoc, List.length_cons]
  · simp [hn, backfillStep, World.addHyp, newHypothesis]

theorem breakdownOf_congr (self : BestHyps) (scorers : List Scorer)
    (breakDowns : List (List ℚ)) (i : Nat) (bd1 bd2 : List ℚ)
    (h : ∀ j, bd1.getD j 0 = bd2.getD j 0) :
    breakdownOf self scorers breakDowns i bd1 = breakdownOf self scorers breakDowns i bd2 := by
  cases scorers with
  | nil => rfl
  | cons s0 rest => simp only [breakdownOf, tailEntries_congr breakDowns i bd1 bd2 h rest 1]

theorem updateAt_length (f : Hypothesis → Hypothesis) (p : HypothesisPtr)
    (heap : List Hypothesis) : (updateAt f p heap).length = heap.length := by
  unfold updateAt
  split <;> simp

theorem updateAt_getElem? (f : Hypothesis → Hypothesis) (p q : HypothesisPtr)
    (heap : List Hypothesis) :
    (updateAt f p heap)[q]? = if q = p then (heap[q]?).map f else heap[q]? := by
  unfold updateAt
  split
  · rename_i h hh
    by_cases hq : q = p
    · subst hq
      have hlt : q < heap.length := by
        by_contra hcon
        rw [List.getElem?_eq_none (Nat.le_of_not_lt hcon)] at hh
        exact Option.noConfusion hh
      simp [List.getElem?_set_self hlt, hh]
    · rw [if_neg hq, List.getElem?_set_ne (fun e => hq e.symm)]
  · rename_i hh
    by_cases hq : q = p
    · subst hq; simp [hh]
    · rw [if_neg hq]

theorem backfillStep_length (self : BestHyps) (prevHyps : List HypothesisPtr)
    (scorers : List Scorer) (sel : Selection) (heap : List Hypothesis) (i : Nat) :
    (backfillStep self prevHyps scorers sel heap i).length = heap.length := by
  unfold backfillStep
  split
  · exact updateAt_length _ _ _
  · rfl

/-- A round of the loop leaves every hypothesis of the heap as it is or backfilled. -/
theorem backfillStep_getElem? (self : BestHyps) (prevHyps : List HypothesisPtr)
    (scorers : List Scorer) (sel : Selection) (heap : List Hypothesis) (i : Nat)
    (q : HypothesisPtr) :
    (backfillStep self prevHyps scorers sel heap i)[q]? =
      if self.returnNBestList_ = true ∧ 2 ≤ scorers.length ∧ q = parentOf prevHyps sel i then
        (heap[q]?).map (backfill scorers.length)
      else heap[q]? := by
  unfold backfillStep
  by_cases h : self.returnNBestList_ = true ∧ 2 ≤ scorers.length
  · rw [if_pos h, updateAt_getElem?]
    by_cases hq : q = parentOf prevHyps sel i
    · rw [if_pos hq, if_pos ⟨h.1, h.2, hq⟩]
    · rw [if_neg hq, if_neg (fun c => hq c.2.2)]
  · rw [if_neg h, if_neg (fun c => h ⟨c.1, c.2.1⟩)]

theorem backfillStep_breakdownAt (self : BestHyps) (prevHyps : List HypothesisPtr)
    (scorers : List Scorer) (sel : Selection) (heap : List Hypothesis) (i : Nat)
    (q : HypothesisPtr) (j : Nat) :
    (breakdownAt (backfillStep self prevHyps scorers sel heap i) q).getD j 0 =
      (breakdownAt heap q).getD j 0 := by
  unfold breakdownAt
  rw [backfillStep_getElem?]
  split
  · cases heap[q]? with
    | none => rfl
    | some h => simp only [Option.map_some', Option.getD_some]; exact backfill_getD _ _ _
  · rfl

theorem beams_add_addAll (beams : Beams) (x m : Nat) :
    (beams.Add 0 x).AddAll 0 (List.range' (x + 1) m) = beams.AddAll 0 (List.range' x (m + 1)) := by
  funext s
  simp only [Beams.Add, Beams.AddAll, List.range'_succ]
  split <;> simp

theorem beams_addAll_nil (beams : Beams) (ind : Nat) : beams.AddAll ind [] = beams := by
  funext s
  simp [Beams.AddAll]

/-- The expansion loop on well-formed input: it ends without error, appends one
hypothesis per index, in order, and touches the older hypotheses only through
`backfillParents`. -/
theorem expandLoop_ok (self : BestHyps) (prevHyps : List HypothesisPtr) (s0 : Scorer)
    (rest : List Scorer) (filterIndices : Words) (sel : Selection)
    (hw : self.returnNBestList_ = true →
      ∀ s ∈ s0 :: rest, (self.weights_ s.name).isSome = true) :
    ∀ (is : List Nat) (A B : List Hypothesis) (beams : Beams),
      (∀ i ∈ is,
        sel.bestKeys.getD i 0 / sel.Probs.columns < prevHyps.length ∧
        parentOf prevHyps sel i < A.length ∧
        (self.isInputFiltered_ = true →
          sel.bestKeys.getD i 0 % sel.Probs.columns < filterIndices.length) ∧
        (self.returnAttentionWeights_ = true → ∀ s ∈ s0 :: rest,
          ∃ att, s.attention = some att ∧
            sel.bestKeys.getD i 0 / sel.Probs.columns < att.rows)) →
      expandLoop self prevHyps (s0 :: rest) filterIndices sel is ⟨A ++ B, beams⟩ =
        ⟨⟨backfillParents self prevHyps (s0 :: rest) sel is A ++
            (B ++ is.map (fun i => newHypothesis self prevHyps (s0 :: rest) filterIndices sel i
              (breakdownAt A (parentOf prevHyps sel i)))),
          beams.AddAll 0 (List.range' (A.length + B.length) is.length)⟩, none⟩
  | [], A, B, beams, _ => by
    simp [expandLoop, backfillParents, beams_addAll_nil]
  | i :: is, A, B, beams, h => by
    obtain ⟨h1, h2, h3, h4⟩ := h i (List.mem_cons_self _ _)
    have ih := expandLoop_ok self prevHyps s0 rest filterIndices sel hw is
      (backfillStep self prevHyps (s0 :: rest) sel A i)
      (B ++ [newHypothesis self prevHyps (s0 :: rest) filterIndices sel i
        (breakdownAt A (parentOf prevHyps sel i))])
      (beams.Add 0 (A.length + B.length))
      (fun j hj => by
        obtain ⟨a, b, c, d⟩ := h j (List.mem_cons_of_mem _ hj)
        exact ⟨a, by rw [backfillStep_length]; exact b, c, d⟩)
    have hmap : is.map (fun j => newHypothesis self prevHyps (s0 :: rest) filterIndices sel j
          (breakdownAt (backfillStep self prevHyps (s0 :: rest) sel A i)
            (parentOf prevHyps sel j))) =
        is.map (fun j => newHypothesis self prevHyps (s0 :: rest) filterIndices sel j
          (breakdownAt A (parentOf prevHyps sel j))) := by
      apply List.map_congr_left
      intro j _
      simp only [newHypothesis]
      rw [breakdownOf_congr self (s0 :: rest) sel.breakDowns j _ _
        (backfillStep_breakdownAt self prevHyps (s0 :: rest) sel A i (parentOf prevHyps sel j))]
    simp only [expandLoop, expandOne_ok self prevHyps s0 rest filterIndices sel i A B beams
      h1 h2 h3 h4 hw]
    rw [ih, hmap]
    simp only [backfillParents, List.foldl_cons, List.map_cons, List.append_assoc,
      List.singleton_append, backfillStep_length, List.length_append, List.length_cons,
      List.length_nil, Nat.zero_add, ← Nat.add_assoc, beams_add_addAll]

/-! ## The whole call on well-formed input -/

theorem costsOf_spec (heap : List Hypothesis) :
    ∀ (prevHyps : List HypothesisPtr), (∀ p ∈ prevHyps, p < heap.length) →
      prevHyps.map (fun p => (heap[p]?).map Hypothesis.cost) = (costsOf heap prevHyps).map some
  | [], _ => rfl
  | p :: ps, h => by
    have hp := h p (List.mem_cons_self _ _)
    have ih := costsOf_spec heap ps (fun q hq => h q (List.mem_cons_of_mem _ hq))
    simp only [costsOf] at ih
    simp only [costsOf, List.map_cons, ih, List.getElem?_eq_getElem hp, Option.map_some',
      Option.getD_some]

theorem fillBreakDowns_fields (self : BestHyps) (scorers : List Scorer) (beamSize : Nat)
    (sel : Selection) :
    (fillBreakDowns self scorers beamSize sel).Probs = sel.Probs ∧
    (fillBreakDowns self scorers beamSize sel).bestKeys = sel.bestKeys ∧
    (fillBreakDowns self scorers beamSize sel).bestCosts = sel.bestCosts ∧
    (fillBreakDowns self scorers beamSize sel).breakDowns =
      if self.returnNBestList_ = true then
        sel.bestCosts :: scorers.map (fun s => (sel.keys.take beamSize).map s.probs.cell)
      else sel.breakDowns := by
  unfold fillBreakDowns
  split <;> simp_all

/-- Lines 48-98 on well-formed input. -/
theorem selectBest_ok (self : BestHyps) (nth_element : NthElement)
    (prevHyps : List HypothesisPtr) (scorers : List Scorer) (filterIndices : Words)
    (beamSize : Nat) (heap : List Hypothesis) (rows V : Nat)
    (hne : NthElementContract nth_element)
    (hwf : WellFormed self prevHyps scorers filterIndices beamSize heap rows V) :
    ∃ sel, selectBest self nth_element heap prevHyps scorers beamSize = .ok sel ∧
      SelectionSpec self prevHyps scorers beamSize heap rows V sel := by
  obtain ⟨hsne, hshape, _, hlen, hvalid, hk, hw, hunk, _, _⟩ := hwf
  cases scorers with
  | nil => exact absurd rfl hsne
  | cons s0 rest =>
    obtain ⟨hr0, hc0, _⟩ := hshape s0 (List.mem_cons_self _ _)
    obtain ⟨J, hJ, hJr, hJc, hJwf, _⟩ := jointProbs_ok self heap prevHyps s0 rest
      (costsOf heap prevHyps)
      (fun s hs => by
        obtain ⟨a, b, c⟩ := hshape s hs
        exact ⟨a.trans hr0.symm, b.trans hc0.symm, c⟩)
      hw (costsOf_spec heap prevHyps hvalid) (hlen.trans hr0.symm)
    have hJr1 : J.rows = rows := hJr.trans hr0
    have hJc1 : J.columns = V := hJc.trans hc0
    obtain ⟨P1, hm, hPr, hPc, hPlen, _⟩ := maskUNK_ok self J (by rw [hJc1]; exact hunk)
    have hk1 : beamSize ≤ J.rows * J.columns := by rw [hJr1, hJc1]; exact hk
    obtain ⟨_, hl, hnd, hlt, hpart, hdrop⟩ :=
      selected_keys_spec nth_element hne P1 (J.rows * J.columns) beamSize hk1
    refine ⟨fillBreakDowns self (overwriteFirst (s0 :: rest) P1) beamSize
      ⟨P1, nth_element (ProbCompare P1.data) (List.range (J.rows * J.columns)) beamSize,
        (nth_element (ProbCompare P1.data)
          (List.range (J.rows * J.columns)) beamSize).take beamSize,
        ((nth_element (ProbCompare P1.data)
          (List.range (J.rows * J.columns)) beamSize).take beamSize).map P1.cell,
        []⟩, ?_, ?_⟩
    · simp only [selectBest, hJ, topK_ok self nth_element J P1 beamSize hm hk1]
    · refine ⟨⟨J, hJ, hJr1, hJc1, hJwf, ?_⟩, ?_, ?_, ?_, ?_, ?_, ?_, ?_, ?_, ?_⟩
      · rw [(fillBreakDowns_fields _ _ _ _).1]; exact hm
      · rw [(fillBreakDowns_fields _ _ _ _).1]; exact hPr.trans hJr1
      · rw [(fillBreakDowns_fields _ _ _ _).1]; exact hPc.trans hJc1
      · rw [(fillBreakDowns_fields _ _ _ _).1]
        unfold ArrayMatrix.WF
        rw [hPlen, hPr, hPc]; exact hJwf
      · rw [(fillBreakDowns_fields _ _ _ _).2.1]; exact hl
      · rw [(fillBreakDowns_fields _ _ _ _).2.1]; exact hnd
      · rw [(fillBreakDowns_fields _ _ _ _).2.1, ← hJr1, ← hJc1]; exact hlt
      · rw [(fillBreakDowns_fields _ _ _ _).2.1, (fillBreakDowns_fields _ _ _ _).1]
        intro key hkey other ho hnot
        rw [← hJr1, ← hJc1] at ho
        exact hpart key hkey other (hdrop other ho hnot)
      · rw [(fillBreakDowns_fields _ _ _ _).2.1, (fillBreakDowns_fields _ _ _ _).1,
          (fillBreakDowns_fields _ _ _ _).2.2.1]
      · rw [(fillBreakDowns_fields _ _ _ _).2.1, (fillBreakDowns_fields _ _ _ _).1,
          (fillBreakDowns_fields _ _ _ _).2.2.1, (fillBreakDowns_fields _ _ _ _).2.2.2]

theorem getD_mem_of_lt {α : Type} (l : List α) (i : Nat) (d : α) (h : i < l.length) :
    l.getD i d ∈ l := by
  rw [List.getD_eq_getElem?_getD, List.getElem?_eq_getElem h, Option.getD_some]
  exact List.getElem_mem h

theorem div_lt_of_lt_mul (key rows V : Nat) (h : key < rows * V) : key / V < rows := by
  apply Nat.div_lt_of_lt_mul
  rw [Nat.mul_comm]; exact h

/-- The whole call on well-formed input: it ends without error; the heap is the old
heap, backfilled, followed by one new hypothesis per selected key, in selection
order; the beam of sentence 0 gains their addresses. -/
theorem CalcBeam_ok (self : BestHyps) (nth_element : NthElement)
    (prevHyps : List HypothesisPtr) (scorers : List Scorer) (filterIndices : Words)
    (beamSize : Nat) (w : World) (rows V : Nat)
    (hne : NthElementContract nth_element)
    (hwf : WellFormed self prevHyps scorers filterIndices beamSize w.heap rows V) :
    ∃ sel, selectBest self nth_element w.heap prevHyps scorers beamSize = .ok sel ∧
      SelectionSpec self prevHyps scorers beamSize w.heap rows V sel ∧
      CalcBeam self nth_element prevHyps scorers filterIndices beamSize w =
        ⟨⟨backfillParents self prevHyps scorers sel (List.range beamSize) w.heap ++
            (List.range beamSize).map (fun i =>
              newHypothesis self prevHyps scorers filterIndices sel i
                (breakdownAt w.heap (parentOf prevHyps sel i))),
          w.beams.AddAll 0 (List.range' w.heap.length beamSize)⟩, none⟩ := by
  obtain ⟨sel, hsel, hspec⟩ := selectBest_ok self nth_element prevHyps scorers filterIndices
    beamSize w.heap rows V hne hwf
  refine ⟨sel, hsel, hspec, ?_⟩
  obtain ⟨hsne, _, hV, hlen, hvalid, _, hw, _, hfil, hatt⟩ := hwf
  cases scorers with
  | nil => exact absurd rfl hsne
  | cons s0 rest =>
    have hkey : ∀ i ∈ List.range beamSize, sel.bestKeys.getD i 0 < rows * V := by
      intro i hi
      apply hspec.lt
      apply getD_mem_of_lt
      rw [hspec.length]; exact List.mem_range.1 hi
    have hloop := expandLoop_ok self prevHyps s0 rest filterIndices sel (fun _ => hw)
      (List.range beamSize) w.heap [] w.beams
      (fun i hi => by
        have h1 : sel.bestKeys.getD i 0 / sel.Probs.columns < prevHyps.length := by
          rw [hspec.columns_eq, hlen]
          exact div_lt_of_lt_mul _ _ _ (hkey i hi)
        refine ⟨h1, ?_, ?_, ?_⟩
        · exact hvalid _ (getD_mem_of_lt _ _ _ h1)
        · intro hf
          rw [hspec.columns_eq]
          exact Nat.lt_of_lt_of_le (Nat.mod_lt _ hV) (hfil hf)
        · intro ha s hs
          obtain ⟨att, h2, h3⟩ := hatt ha s hs
          refine ⟨att, h2, Nat.lt_of_lt_of_le ?_ h3⟩
          rw [hspec.columns_eq]
          exact div_lt_of_lt_mul _ _ _ (hkey i hi))
    simp only [List.append_nil, List.nil_append, List.length_nil, Nat.add_zero,
      List.length_range] at hloop
    simp only [CalcBeam, hsel]
    exact hloop

theorem backfillParents_length (self : BestHyps) (prevHyps : List HypothesisPtr)
    (scorers : List Scorer) (sel : Selection) :
    ∀ (is : List Nat) (heap : List Hypothesis),
      (backfillParents self prevHyps scorers sel is heap).length = heap.length
  | [], _ => rfl
  | i :: is, heap => by
    simp only [backfillParents, List.foldl_cons]
    have := backfillParents_length self prevHyps scorers sel is
      (backfillStep self prevHyps scorers sel heap i)
    simp only [backfillParents] at this
    rw [this, backfillStep_length]

/-- The hypotheses a call on well-formed input appends: the call ends without
error, the heap grows by `beamSize` cells, the beam of sentence 0 gains their
addresses in order, and the `i`-th new cell holds `newHypothesis .. i`. -/
theorem CalcBeam_appended (self : BestHyps) (nth_element : NthElement)
    (prevHyps : List HypothesisPtr) (scorers : List Scorer) (filterIndices : Words)
    (beamSize : Nat) (w : World) (rows V : Nat)
    (hne : NthElementContract nth_element)
    (hwf : WellFormed self prevHyps scorers filterIndices beamSize w.heap rows V) :
    ∃ sel, selectBest self nth_element w.heap prevHyps scorers beamSize = .ok sel ∧
      SelectionSpec self prevHyps scorers beamSize w.heap rows V sel ∧
      (CalcBeam self nth_element prevHyps scorers filterIndices beamSize w).error = none ∧
      (CalcBeam self nth_element prevHyps scorers filterIndices beamSize w).world.heap.length =
        w.heap.length + beamSize ∧
      (CalcBeam self nth_element prevHyps scorers filterIndices beamSize w).world.beams =
        w.beams.AddAll 0 (List.range' w.heap.length beamSize) ∧
      ∀ i, i < beamSize →
        (CalcBeam self nth_element prevHyps scorers filterIndices beamSize
            w).world.heap[w.heap.length + i]? =
          some (newHypothesis self prevHyps scorers filterIndices sel i
            (breakdownAt w.heap (parentOf prevHyps sel i))) := by
  obtain ⟨sel, hsel, hspec, hout⟩ := CalcBeam_ok self nth_element prevHyps scorers
    filterIndices beamSize w rows V hne hwf
  refine ⟨sel, hsel, hspec, ?_, ?_, ?_, ?_⟩
  · rw [hout]
  · rw [hout]
    simp [backfillParents_length]
  · rw [hout]
  · intro i hi
    rw [hout]
    simp only
    have hlen := backfillParents_length self prevHyps scorers sel (List.range beamSize) w.heap
    rw [List.getElem?_append_right (by rw [hlen]; omega), hlen, Nat.add_sub_cancel_left,
      List.getElem?_map, List.getElem?_range hi]
    rfl

theorem bestCosts_getD (sel : Selection) (i : Nat)
    (hcosts : sel.bestCosts = sel.bestKeys.map sel.Probs.cell) (hi : i < sel.bestKeys.length) :
    sel.bestCosts.getD i 0 = sel.Probs.cell (sel.bestKeys.getD i 0) := by
  rw [hcosts, List.getD_eq_getElem?_getD, List.getD_eq_getElem?_getD, List.getElem?_map,
    List.getElem?_eq_getElem hi]
  rfl

/-- The scenario of the specification is well-formed input. -/
theorem scenario_wellFormed :
    WellFormed scenarioSelf [0, 1] scenarioScorers [] 2 scenarioWorld.heap 2 3 where
  scorers_ne := by decide
  shape := by decide
  columns_pos := by decide
  prevHyps_length := rfl
  prevHyps_valid := by decide
  beamSize_le := by decide
  weights := by decide
  unk := by decide
  filter := by decide
  attention := by decide

/-- In the scenario of the specification every conforming `std::nth_element` selects
the keys 1 and 2, in some order. -/
theorem scenario_selected_keys (sel : Selection)
    (hspec : SelectionSpec scenarioSelf [0, 1] scenarioScorers 2 scenarioWorld.heap 2 3 sel) :
    sel.Probs = scenarioJoint ∧ (sel.bestKeys = [1, 2] ∨ sel.bestKeys = [2, 1]) := by
  obtain ⟨J, hJ, _, _, _, hmask⟩ := hspec.joint
  have hJv : jointProbs scenarioSelf scenarioWorld.heap [0, 1] scenarioScorers =
      .ok scenarioJoint := by with_unfolding_all rfl
  rw [hJv] at hJ
  have hJJ := Except.ok.inj hJ
  subst hJJ
  have hP : sel.Probs = scenarioJoint := (Except.ok.inj hmask).symm
  refine ⟨hP, ?_⟩
  have hlen := hspec.length
  have hnd := hspec.nodup
  have hlt := hspec.lt
  have hlarge := hspec.largest
  rw [hP] at hlarge
  match hb : sel.bestKeys with
  | [] => rw [hb] at hlen; simp at hlen
  | [_] => rw [hb] at hlen; simp at hlen
  | _ :: _ :: _ :: _ => rw [hb] at hlen; simp at hlen
  | [a, b] =>
    rw [hb] at hnd hlt hlarge
    have ha : a < 6 := hlt a (by simp)
    have hb6 : b < 6 := hlt b (by simp)
    have hab : a ≠ b := by
      intro e; subst e; simp at hnd
    have h1 : a = 1 ∨ b = 1 := by
      by_contra hcon
      push_neg at hcon
      have := hlarge a (by simp) 1 (by decide) (by simp [hcon.1.symm, hcon.2.symm])
      have ha1 := hcon.1
      interval_cases a <;> first
        | exact absurd rfl ha1
        | exact absurd this (by with_unfolding_all decide)
    have h2 : a = 2 ∨ b = 2 := by
      by_contra hcon
      push_neg at hcon
      have hA := hlarge a (by simp) 2 (by decide) (by simp [hcon.1.symm, hcon.2.symm])
      have hB := hlarge b (by simp) 2 (by decide) (by simp [hcon.1.symm, hcon.2.symm])
      have ha2 := hcon.1
      have hb2 := hcon.2
      have ha1 : a = 1 := by
        interval_cases a <;> first
          | rfl
          | exact absurd rfl ha2
          | exact absurd hA (by with_unfolding_all decide)
      have hb1 : b = 1 := by
        interval_cases b <;> first
          | rfl
          | exact absurd rfl hb2
          | exact absurd hB (by with_unfolding_all decide)
      exact hab (ha1.trans hb1.symm)
    rcases h1 with rfl | rfl
    · rcases h2 with h | rfl
      · exact absurd h (by decide)
      · exact Or.inl rfl
    · rcases h2 with rfl | h
      · exact Or.inr rfl
      · exact absurd h (by decide)

/-- In the scenario of the specification, whatever `std::nth_element` does, the two
appended hypotheses extend hypothesis 0 with the tokens 1 and 2 and the costs
`0.9` and `0.2`, in some order. -/
theorem scenario_any_selection (nth_element : NthElement)
    (hne : NthElementContract nth_element) :
    (((CalcBeam scenarioSelf nth_element [0, 1] scenarioScorers [] 2
        scenarioWorld).world.heap.drop 2).map
      (fun hyp => (hyp.prevHyp, hyp.prevIndex, hyp.word, hyp.cost))).Perm
        [(some 0, 0, 1, 9/10), (some 0, 0, 2, 2/10)] := by
  obtain ⟨sel, _, hspec, hout⟩ := CalcBeam_ok scenarioSelf nth_element [0, 1]
    scenarioScorers [] 2 scenarioWorld 2 3 hne scenario_wellFormed
  obtain ⟨hP, hkeys⟩ := scenario_selected_keys sel hspec
  have hcosts := hspec.costs
  rw [hout]
  simp only
  have hbl : (backfillParents scenarioSelf [0, 1] scenarioScorers sel (List.range 2)
      scenarioWorld.heap).length = 2 := backfillParents_length _ _ _ _ _ _
  rw [List.drop_left' hbl]
  have hr : List.range 2 = [0, 1] := rfl
  rcases hkeys with hk | hk
  · simp only [hr, List.map_cons, List.map_nil, newHypothesis, parentOf, hcosts, hk, hP]
    exact List.Perm.of_eq (by with_unfolding_all rfl)
  · simp only [hr, List.map_cons, List.map_nil, newHypothesis, parentOf, hcosts, hk, hP]
    refine (List.Perm.of_eq ?_).trans (List.Perm.swap _ _ _)
    with_unfolding_all rfl

/-! ## C3: hypothesis expansion -/

/-- C3. Hypothesis expansion without vocabulary filtering: on well-formed input
with beam size `k ≤ rows * V` and `V > 0`, the call ends without error and appends
exactly `k` new hypotheses to the beam of sentence 0 (and to no other beam); the
`i`-th of them, built from the `i`-th selected key, has
`hypIndex = key / V < rows`, `token = key % V < V`, `hypIndex * V + token = key`,
`parent = prevHyps[hypIndex]` and `cost` the joint score at that key. -/
theorem CalcBeam_expands (self : BestHyps) (nth_element : NthElement)
    (prevHyps : List HypothesisPtr) (scorers : List Scorer) (filterIndices : Words)
    (beamSize : Nat) (w : World) (rows V : Nat)
    (hne : NthElementContract nth_element)
    (hwf : WellFormed self prevHyps scorers filterIndices beamSize w.heap rows V)
    (hnf : self.isInputFiltered_ = false) :
    ∃ sel, selectBest self nth_element w.heap prevHyps scorers beamSize = .ok sel ∧
      sel.bestKeys.length = beamSize ∧
      (CalcBeam self nth_element prevHyps scorers filterIndices beamSize w).error = none ∧
      (CalcBeam self nth_element prevHyps scorers filterIndices beamSize w).world.beams 0 =
        w.beams 0 ++ List.range' w.heap.length beamSize ∧
      (∀ s, s ≠ 0 →
        (CalcBeam self nth_element prevHyps scorers filterIndices beamSize w).world.beams s =
          w.beams s) ∧
      (CalcBeam self nth_element prevHyps scorers filterIndices beamSize w).world.heap.length =
        w.heap.length + beamSize ∧
      ∀ i, i < beamSize → ∃ hyp,
        (CalcBeam self nth_element prevHyps scorers filterIndices beamSize
            w).world.heap[w.heap.length + i]? = some hyp ∧
        hyp.prevIndex = sel.bestKeys.getD i 0 / V ∧ hyp.prevIndex < rows ∧
        hyp.word = sel.bestKeys.getD i 0 % V ∧ hyp.word < V ∧
        hyp.prevIndex * V + hyp.word = sel.bestKeys.getD i 0 ∧
        hyp.prevHyp.isSome = true ∧ hyp.prevHyp = prevHyps[hyp.prevIndex]? ∧
        hyp.cost = sel.Probs.cell (sel.bestKeys.getD i 0) := by
  obtain ⟨sel, hsel, hspec, herr, hlen, hbeams, hnew⟩ := CalcBeam_appended self nth_element
    prevHyps scorers filterIndices beamSize w rows V hne hwf
  refine ⟨sel, hsel, hspec.length, herr, ?_, ?_, hlen, ?_⟩
  · rw [hbeams]; simp [Beams.AddAll]
  · intro s hs; rw [hbeams]; simp [Beams.AddAll, hs]
  · intro i hi
    have hkey : sel.bestKeys.getD i 0 < rows * V :=
      hspec.lt _ (getD_mem_of_lt _ _ _ (by rw [hspec.length]; exact hi))
    have hdiv : sel.bestKeys.getD i 0 / V < rows := div_lt_of_lt_mul _ _ _ hkey
    have hprev : sel.bestKeys.getD i 0 / V < prevHyps.length := by
      rw [hwf.prevHyps_length]; exact hdiv
    refine ⟨_, hnew i hi, ?_, ?_, ?_, ?_, ?_, ?_, ?_, ?_⟩
    · simp only [newHypothesis, hspec.columns_eq]
    · simp only [newHypothesis, hspec.columns_eq]; exact hdiv
    · simp only [newHypothesis, hspec.columns_eq, hnf, Bool.false_eq_true, if_false]
    · simp only [newHypothesis, hspec.columns_eq, hnf, Bool.false_eq_true, if_false]
      exact Nat.mod_lt _ hwf.columns_pos
    · simp only [newHypothesis, hspec.columns_eq, hnf, Bool.false_eq_true, if_false]
      rw [Nat.mul_comm]; exact Nat.div_add_mod _ _
    · simp only [newHypothesis, Option.isSome_some]
    · simp only [newHypothesis, parentOf, hspec.columns_eq]
      exact (getElem?_eq_some_getD prevHyps _ 0 hprev).symm
    · simp only [newHypothesis]
      exact bestCosts_getD sel i hspec.costs (by rw [hspec.length]; exact hi)

theorem CalcBeam_expands_witness :
    ((CalcBeam scenarioSelf sortedNthElement [0, 1] scenarioScorers [] 2
        scenarioWorld).world.heap.drop 2).map
      (fun hyp => (hyp.prevHyp, hyp.prevIndex, hyp.word, hyp.cost)) =
        [(some 0, 0, 1, 9/10), (some 0, 0, 2, 2/10)] ∧
    (∀ nth_element, NthElementContract nth_element →
      (((CalcBeam scenarioSelf nth_element [0, 1] scenarioScorers [] 2
          scenarioWorld).world.heap.drop 2).map
        (fun hyp => (hyp.prevHyp, hyp.prevIndex, hyp.word, hyp.cost))).Perm
          [(some 0, 0, 1, 9/10), (some 0, 0, 2, 2/10)]) ∧
    ∃ sel, selectBest scenarioSelf sortedNthElement scenarioWorld.heap [0, 1] scenarioScorers 2
        = .ok sel ∧
      sel.bestKeys.length = 2 ∧
      (CalcBeam scenarioSelf sortedNthElement [0, 1] scenarioScorers [] 2
        scenarioWorld).error = none ∧
      (CalcBeam scenarioSelf sortedNthElement [0, 1] scenarioScorers [] 2
        scenarioWorld).world.beams 0 =
        scenarioWorld.beams 0 ++ List.range' scenarioWorld.heap.length 2 ∧
      (∀ s, s ≠ 0 →
        (CalcBeam scenarioSelf sortedNthElement [0, 1] scenarioScorers [] 2
          scenarioWorld).world.beams s = scenarioWorld.beams s) ∧
      (CalcBeam scenarioSelf sortedNthElement [0, 1] scenarioScorers [] 2
        scenarioWorld).world.heap.length = scenarioWorld.heap.length + 2 ∧
      ∀ i, i < 2 → ∃ hyp,
        (CalcBeam scenarioSelf sortedNthElement [0, 1] scenarioScorers [] 2
            scenarioWorld).world.heap[scenarioWorld.heap.length + i]? = some hyp ∧
        hyp.prevIndex = sel.bestKeys.getD i 0 / 3 ∧ hyp.prevIndex < 2 ∧
        hyp.word = sel.bestKeys.getD i 0 % 3 ∧ hyp.word < 3 ∧
        hyp.prevIndex * 3 + hyp.word = sel.bestKeys.getD i 0 ∧
        hyp.prevHyp.isSome = true ∧ hyp.prevHyp = [0, 1][hyp.prevIndex]? ∧
        hyp.cost = sel.Probs.cell (sel.bestKeys.getD i 0) :=
  ⟨by with_unfolding_all rfl, scenario_any_selection,
   CalcBeam_expands scenarioSelf sortedNthElement [0, 1] scenarioScorers [] 2 scenarioWorld 2 3
    sortedNthElement_contract scenario_wellFormed rfl⟩

/-! ## C4: breakdown conservation -/

theorem breakdownOf_length (self : BestHyps) (scorers : List Scorer)
    (breakDowns : List (List ℚ)) (i : Nat) (bd : List ℚ) :
    (breakdownOf self scorers breakDowns i bd).length = scorers.length := by
  cases scorers with
  | nil => rfl
  | cons s0 rest => simp [breakdownOf, tailEntries_length]

theorem breakdownOf_weightedSum (self : BestHyps) (s0 : Scorer) (rest : List Scorer)
    (breakDowns : List (List ℚ)) (i : Nat) (bd : List ℚ) (hw0 : self.weight s0.name ≠ 0) :
    weightedSum self (s0 :: rest) (breakdownOf self (s0 :: rest) breakDowns i bd) =
      (breakDowns.getD 0 []).getD i 0 := by
  simp only [breakdownOf, weightedSum, List.zipWith_cons_cons, List.sum_cons]
  field_simp

/-- The scenario with two scorers in n-best mode is well-formed input. -/
theorem ensemble_wellFormed :
    WellFormed ensembleSelf [0, 1] ensembleScorers [] 2 scenarioWorld.heap 2 3 where
  scorers_ne := by decide
  shape := by decide
  columns_pos := by decide
  prevHyps_length := rfl
  prevHyps_valid := by decide
  beamSize_le := by decide
  weights := by decide
  unk := by decide
  filter := by decide
  attention := by decide

/-- C4. Breakdown conservation in n-best mode, over exact arithmetic: on well-formed
input with `n ≥ 1` scorers whose first weight is not zero, every appended
hypothesis carries a cost breakdown of length exactly `n` whose weighted sum
`Σ_j w_j * breakdown_j` equals the hypothesis's cumulative cost. -/
theorem CalcBeam_breakdown_conserved (self : BestHyps) (nth_element : NthElement)
    (prevHyps : List HypothesisPtr) (scorers : List Scorer) (filterIndices : Words)
    (beamSize : Nat) (w : World) (rows V : Nat)
    (hne : NthElementContract nth_element)
    (hwf : WellFormed self prevHyps scorers filterIndices beamSize w.heap rows V)
    (hnbest : self.returnNBestList_ = true)
    (hw0 : ∀ s0, scorers.head? = some s0 → self.weight s0.name ≠ 0) :
    (CalcBeam self nth_element prevHyps scorers filterIndices beamSize w).error = none ∧
    (CalcBeam self nth_element prevHyps scorers filterIndices beamSize w).world.heap.length =
      w.heap.length + beamSize ∧
    ∀ i, i < beamSize → ∃ hyp,
      (CalcBeam self nth_element prevHyps scorers filterIndices beamSize
          w).world.heap[w.heap.length + i]? = some hyp ∧
      hyp.costBreakdown.length = scorers.length ∧
      weightedSum self scorers hyp.costBreakdown = hyp.cost := by
  obtain ⟨sel, _, hspec, herr, hlen, _, hnew⟩ := CalcBeam_appended self nth_element
    prevHyps scorers filterIndices beamSize w rows V hne hwf
  refine ⟨herr, hlen, ?_⟩
  intro i hi
  refine ⟨_, hnew i hi, ?_, ?_⟩
  · simp only [newHypothesis, hnbest, if_true, breakdownOf_length]
  · have hsne := hwf.scorers_ne
    cases scorers with
    | nil => exact absurd rfl hsne
    | cons s0 rest =>
      simp only [newHypothesis, hnbest, if_true]
      rw [breakdownOf_weightedSum self s0 rest _ _ _ (hw0 s0 rfl), hspec.breakDowns]
      simp only [hnbest, if_true, List.getD_cons_zero]

theorem CalcBeam_breakdown_conserved_witness :
    ((CalcBeam ensembleSelf sortedNthElement [0, 1] ensembleScorers [] 2
        scenarioWorld).world.heap.drop 2).map (fun hyp => (hyp.cost, hyp.costBreakdown)) =
      [(41/20, [41/40, 41/20]), (19/10, [19/20, 19/10])] ∧
    (CalcBeam ensembleSelf sortedNthElement [0, 1] ensembleScorers [] 2
      scenarioWorld).error = none ∧
    (CalcBeam ensembleSelf sortedNthElement [0, 1] ensembleScorers [] 2
      scenarioWorld).world.heap.length = scenarioWorld.heap.length + 2 ∧
    ∀ i, i < 2 → ∃ hyp,
      (CalcBeam ensembleSelf sortedNthElement [0, 1] ensembleScorers [] 2
          scenarioWorld).world.heap[scenarioWorld.heap.length + i]? = some hyp ∧
      hyp.costBreakdown.length = ensembleScorers.length ∧
      weightedSum ensembleSelf ensembleScorers hyp.costBreakdown = hyp.cost :=
  ⟨by with_unfolding_all rfl,
   CalcBeam_breakdown_conserved ensembleSelf sortedNthElement [0, 1] ensembleScorers [] 2
    scenarioWorld 2 3 sortedNthElement_contract ensemble_wellFormed rfl
    (by
      intro s0 h
      have hs : s0 = ⟨"F0", scenarioProbs, none⟩ := by
        simpa [ensembleScorers] using h.symm
      subst hs
      with_unfolding_all decide)⟩

/-! ## C5: UNK exclusion -/

theorem lowest_eq : lowest = -(2 ^ 128 - 2 ^ 104) := by
  unfold lowest; norm_num

theorem addScorers_congr (self self1 : BestHyps) (hw : self1.weights_ = self.weights_) :
    ∀ (rest : List Scorer) (Probs : ArrayMatrix),
      addScorers self1 Probs rest = addScorers self Probs rest
  | [], _ => rfl
  | s :: rest, Probs => by
    simp only [addScorers, hw]
    cases self.weights_ s.name with
    | none => rfl
    | some w =>
      simp only
      cases Probs.addScaled w s.probs with
      | error e => rfl
      | ok P1 => exact addScorers_congr self self1 hw rest P1

/-- Lines 48-98 read the weights, `forbidUNK_`, `UNK_ID` and `returnNBestList_`
only. -/
theorem selectBest_congr (self self1 : BestHyps) (hw : self1.weights_ = self.weights_)
    (hf : self1.forbidUNK_ = self.forbidUNK_) (hu : self1.UNK_ID = self.UNK_ID)
    (hn : self1.returnNBestList_ = self.returnNBestList_) (nth_element : NthElement)
    (heap : List Hypothesis) (prevHyps : List HypothesisPtr) (scorers : List Scorer)
    (beamSize : Nat) :
    selectBest self1 nth_element heap prevHyps scorers beamSize =
      selectBest self nth_element heap prevHyps scorers beamSize := by
  have hj : jointProbs self1 heap prevHyps scorers = jointProbs self heap prevHyps scorers := by
    cases scorers with
    | nil => rfl
    | cons s0 rest =>
      simp only [jointProbs, hw]
      cases fillCosts heap prevHyps s0.probs.rows with
      | error e => rfl
      | ok c =>
        simp only
        cases self.weights_ s0.name with
        | none => rfl
        | some w0 => exact addScorers_congr self self1 hw rest _
  have hm : ∀ P, maskUNK self1 P = maskUNK self P := by
    intro P; simp only [maskUNK, hf, hu]
  have ht : ∀ P, topK self1 nth_element P beamSize = topK self nth_element P beamSize := by
    intro P; simp only [topK, hm]
  have hb : ∀ sc sel,
      fillBreakDowns self1 sc beamSize sel = fillBreakDowns self sc beamSize sel := by
    intro sc sel; simp only [fillBreakDowns, hn]
  simp only [selectBest, hj, ht, hb]

theorem breakdownOf_config (self self1 : BestHyps) (hw : self1.weights_ = self.weights_)
    (scorers : List Scorer) (breakDowns : List (List ℚ)) (i : Nat) (bd : List ℚ) :
    breakdownOf self1 scorers breakDowns i bd = breakdownOf self scorers breakDowns i bd := by
  cases scorers with
  | nil => rfl
  | cons s0 rest => simp only [breakdownOf, weightedSum, BestHyps.weight, hw]

/-- C6. Filter remapping: with vocabulary filtering on and a filter table covering
every column (well-formed input), the call ends without error and every appended
hypothesis has the token `filterIndices[key % V]` for its selected key, while it
agrees in every other field (`hypIndex = key / V`, parent, cost, ...) with
the hypothesis the call appends at the same place with filtering off, whose token
is `key % V`. -/
theorem CalcBeam_filter_remaps (self : BestHyps) (nth_element : NthElement)
    (prevHyps : List HypothesisPtr) (scorers : List Scorer) (filterIndices : Words)
    (beamSize : Nat) (w : World) (rows V : Nat)
    (hne : NthElementContract nth_element)
    (hwf : WellFormed self prevHyps scorers filterIndices beamSize w.heap rows V)
    (hfil : self.isInputFiltered_ = true) :
    ∃ sel, selectBest self nth_element w.heap prevHyps scorers beamSize = .ok sel ∧
      sel.bestKeys.length = beamSize ∧
      (CalcBeam self nth_element prevHyps scorers filterIndices beamSize w).error = none ∧
      (CalcBeam self nth_element prevHyps scorers filterIndices beamSize w).world.heap.length =
        w.heap.length + beamSize ∧
      ∀ i, i < beamSize → ∃ hyp hyp0,
        (CalcBeam self nth_element prevHyps scorers filterIndices beamSize
            w).world.heap[w.heap.length + i]? = some hyp ∧
        (CalcBeam { self with isInputFiltered_ := false } nth_element prevHyps scorers
            filterIndices beamSize w).world.heap[w.heap.length + i]? = some hyp0 ∧
        filterIndices[sel.bestKeys.getD i 0 % V]? = some hyp.word ∧
        hyp0.word = sel.bestKeys.getD i 0 % V ∧
        hyp.prevIndex = sel.bestKeys.getD i 0 / V ∧
        hyp.prevHyp = prevHyps[sel.bestKeys.getD i 0 / V]? ∧
        hyp.cost = sel.Probs.cell (sel.bestKeys.getD i 0) ∧
        hyp = { hyp0 with word := hyp.word } := by
  obtain ⟨sel, hsel, hspec, herr, hlen, _, hnew⟩ := CalcBeam_appended self nth_element
    prevHyps scorers filterIndices beamSize w rows V hne hwf
  have hwf0 : WellFormed { self with isInputFiltered_ := false } prevHyps scorers
      filterIndices beamSize w.heap rows V :=
    ⟨hwf.scorers_ne, hwf.shape, hwf.columns_pos, hwf.prevHyps_length, hwf.prevHyps_valid,
      hwf.beamSize_le, hwf.weights, hwf.unk, fun h => Bool.noConfusion h, hwf.attention⟩
  obtain ⟨sel0, hsel0, _, _, _, _, hnew0⟩ := CalcBeam_appended
    { self with isInputFiltered_ := false } nth_element
    prevHyps scorers filterIndices beamSize w rows V hne hwf0
  rw [selectBest_congr self { self with isInputFiltered_ := false } rfl rfl rfl rfl, hsel]
    at hsel0
  have hs := Except.ok.inj hsel0
  subst hs
  refine ⟨sel, hsel, hspec.length, herr, hlen, ?_⟩
  intro i hi
  have hkey : sel.bestKeys.getD i 0 < rows * V :=
    hspec.lt _ (getD_mem_of_lt _ _ _ (by rw [hspec.length]; exact hi))
  have hprev : sel.bestKeys.getD i 0 / V < prevHyps.length := by
    rw [hwf.prevHyps_length]; exact div_lt_of_lt_mul _ _ _ hkey
  have hcol : sel.bestKeys.getD i 0 % V < filterIndices.length :=
    Nat.lt_of_lt_of_le (Nat.mod_lt _ hwf.columns_pos) (hwf.filter hfil)
  refine ⟨_, _, hnew i hi, hnew0 i hi, ?_, ?_, ?_, ?_, ?_, ?_⟩
  · simp only [newHypothesis, hfil, if_true, hspec.columns_eq]
    exact getElem?_eq_some_getD filterIndices _ 0 hcol
  · simp only [newHypothesis, Bool.false_eq_true, if_false, hspec.columns_eq]
  · simp only [newHypothesis, hspec.columns_eq]
  · simp only [newHypothesis, parentOf, hspec.columns_eq]
    exact (getElem?_eq_some_getD prevHyps _ 0 hprev).symm
  · simp only [newHypothesis]
    exact bestCosts_getD sel i hspec.costs (by rw [hspec.length]; exact hi)
  · simp only [newHypothesis, hfil, if_true, Bool.false_eq_true, if_false]
    rw [breakdownOf_config self { self with isInputFiltered_ := false } rfl]

/-- The scenario of the specification with a filtered vocabulary is well-formed
input. -/
theorem scenarioFilter_wellFormed :
    WellFormed scenarioFilterSelf [0, 1] scenarioScorers scenarioFilter 2
      scenarioWorld.heap 2 3 where
  scorers_ne := by decide
  shape := by decide
  columns_pos := by decide
  prevHyps_length := rfl
  prevHyps_valid := by decide
  beamSize_le := by decide
  weights := by decide
  unk := by decide
  filter := by decide
  attention := by decide

theorem CalcBeam_filter_remaps_witness :
    ((CalcBeam scenarioFilterSelf sortedNthElement [0, 1] scenarioScorers scenarioFilter 2
        scenarioWorld).world.heap.drop 2).map
      (fun hyp => (hyp.prevHyp, hyp.prevIndex, hyp.word, hyp.cost)) =
        [(some 0, 0, 42, 9/10), (some 0, 0, 77, 2/10)] ∧
    ∃ sel, selectBest scenarioFilterSelf sortedNthElement scenarioWorld.heap [0, 1]
        scenarioScorers 2 = .ok sel ∧
      sel.bestKeys.length = 2 ∧
      (CalcBeam scenarioFilterSelf sortedNthElement [0, 1] scenarioScorers scenarioFilter 2
        scenarioWorld).error = none ∧
      (CalcBeam scenarioFilterSelf sortedNthElement [0, 1] scenarioScorers scenarioFilter 2
        scenarioWorld).world.heap.length = scenarioWorld.heap.length + 2 ∧
      ∀ i, i < 2 → ∃ hyp hyp0,
        (CalcBeam scenarioFilterSelf sortedNthElement [0, 1] scenarioScorers scenarioFilter 2
            scenarioWorld).world.heap[scenarioWorld.heap.length + i]? = some hyp ∧
        (CalcBeam { scenarioFilterSelf with isInputFiltered_ := false } sortedNthElement [0, 1]
            scenarioScorers scenarioFilter 2
            scenarioWorld).world.heap[scenarioWorld.heap.length + i]? = some hyp0 ∧
        scenarioFilter[sel.bestKeys.getD i 0 % 3]? = some hyp.word ∧
        hyp0.word = sel.bestKeys.getD i 0 % 3 ∧
        hyp.prevIndex = sel.bestKeys.getD i 0 / 3 ∧
        hyp.prevHyp = [0, 1][sel.bestKeys.getD i 0 / 3]? ∧
        hyp.cost = sel.Probs.cell (sel.bestKeys.getD i 0) ∧
        hyp = { hyp0 with word := hyp.word } :=
  ⟨by with_unfolding_all rfl,
   CalcBeam_filter_remaps scenarioFilterSelf sortedNthElement [0, 1] scenarioScorers
    scenarioFilter 2 scenarioWorld 2 3 sortedNthElement_contract scenarioFilter_wellFormed rfl⟩

/-! ## Which matrix feeds a breakdown entry -/

theorem breakdownOf_getD (self : BestHyps) (s0 : Scorer) (rest : List Scorer)
    (breakDowns : List (List ℚ)) (i : Nat) (bd : List ℚ) (j : Nat) (hj1 : 1 ≤ j)
    (hj : j < (s0 :: rest).length) :
    (breakdownOf self (s0 :: rest) breakDowns i bd).getD j 0 =
      (breakDowns.getD j []).getD i 0 + bd.getD j 0 := by
  obtain ⟨t, rfl⟩ : ∃ t, j = t + 1 := ⟨j - 1, by omega⟩
  simp only [breakdownOf, List.getD_cons_succ]
  rw [tailEntries_getD breakDowns i bd rest 1 t (by simpa using hj), Nat.add_comm 1 t]

/-- In n-best mode, entry `j ≥ 1` of the breakdown of the `i`-th new hypothesis is
the parent's entry `j` plus the cell, at the selected key, of the matrix of scorer
`j - 1` as it is after line 62 (the matrix of scorer 0 being the joint matrix). -/
theorem newHypothesis_breakdown_entry (self : BestHyps) (prevHyps : List HypothesisPtr)
    (scorers : List Scorer) (filterIndices : Words) (beamSize : Nat) (heap : List Hypothesis)
    (rows V : Nat) (sel : Selection) (bd : List ℚ)
    (hspec : SelectionSpec self prevHyps scorers beamSize heap rows V sel)
    (hnbest : self.returnNBestList_ = true) (i : Nat) (hi : i < beamSize)
    (j : Nat) (hj1 : 1 ≤ j) (hj : j < scorers.length) :
    (newHypothesis self prevHyps scorers filterIndices sel i bd).costBreakdown.getD j 0 =
      (((overwriteFirst scorers sel.Probs)[j - 1]?).map
        (fun s => s.probs.cell (sel.bestKeys.getD i 0))).getD 0 + bd.getD j 0 := by
  have hik : i < sel.bestKeys.length := by rw [hspec.length]; exact hi
  cases scorers with
  | nil => simp at hj
  | cons s0 rest =>
    obtain ⟨t, rfl⟩ : ∃ t, j = t + 1 := ⟨j - 1, by omega⟩
    have ht : t < (overwriteFirst (s0 :: rest) sel.Probs).length := by
      simp only [overwriteFirst, List.length_cons] at hj ⊢
      omega
    simp only [newHypothesis, hnbest, if_true]
    rw [breakdownOf_getD self s0 rest _ i _ (t + 1) hj1 hj, hspec.breakDowns]
    simp only [hnbest, if_true, List.getD_cons_succ, Nat.add_sub_cancel]
    congr 1
    simp only [List.getD_eq_getElem?_getD, List.getElem?_map, List.getElem?_eq_getElem ht,
      List.getElem?_eq_getElem hik, Option.map_some', Option.getD_some]

/-! ## C7: which matrix feeds breakdown entry `j` -/

theorem scenario_breakdownAt (p : HypothesisPtr) : breakdownAt scenarioWorld.heap p = [] := by
  match p with
  | 0 => rfl
  | 1 => rfl
  | _ + 2 => rfl

/-- C7, the code at a failing input. Two scorers `F0`, `F1` (weights `1`, `1/2`) in
n-best mode over the two previous hypotheses of the scenario (empty breakdowns),
beam size 2.  Whatever `std::nth_element` does, entry 1 of the breakdown of each
appended hypothesis is that hypothesis's own joint cost, and differs from the
parent's entry 1 plus the cell of the matrix of scorer 1 at the selected key.
With a stable selection the appended hypotheses come from the cells `(1, 2)` and
`(0, 1)`, their entry 1 is `41/20` and `19/10`, whereas the matrix of scorer 1
holds `6` and `2` there and the parents' entry 1 reads `0`. -/
theorem CalcBeam_breakdown_entry_offset :
    (∀ nth_element, NthElementContract nth_element → ∀ i, i < 2 → ∃ hyp key,
      (CalcBeam ensembleSelf nth_element [0, 1] ensembleScorers [] 2
        scenarioWorld).world.heap[2 + i]? = some hyp ∧
      key < 6 ∧ hyp.prevIndex = key / 3 ∧ hyp.word = key % 3 ∧
      hyp.costBreakdown.getD 1 0 = hyp.cost ∧
      hyp.costBreakdown.getD 1 0 ≠
        (breakdownAt scenarioWorld.heap ([0, 1].getD hyp.prevIndex 0)).getD 1 0 +
          (ArrayMatrix.ofRows 3 [[1, 2, 3], [4, 5, 6]]).cell key) ∧
    ((CalcBeam ensembleSelf sortedNthElement [0, 1] ensembleScorers [] 2
        scenarioWorld).world.heap.drop 2).map
      (fun hyp => (hyp.prevIndex, hyp.word, hyp.cost, hyp.costBreakdown.getD 1 0)) =
        [(1, 2, 41/20, 41/20), (0, 1, 19/10, 19/10)] ∧
    ensembleScorers.map (fun s => (s.name, s.probs.at 1 2, s.probs.at 0 1)) =
      [("F0", 1/20, 9/10), ("F1", 6, 2)] ∧
    scenarioWorld.heap.map (fun hyp => hyp.costBreakdown.getD 1 0) = [0, 0] := by
  refine ⟨?_, by with_unfolding_all rfl, by with_unfolding_all rfl, by with_unfolding_all rfl⟩
  intro nth_element hne i hi
  obtain ⟨sel, _, hspec, _, _, _, hnew⟩ := CalcBeam_appended ensembleSelf nth_element
    [0, 1] ensembleScorers [] 2 scenarioWorld 2 3 hne ensemble_wellFormed
  obtain ⟨J, hJ, _, _, _, hmask⟩ := hspec.joint
  have hJv : jointProbs ensembleSelf scenarioWorld.heap [0, 1] ensembleScorers =
      .ok ensembleJoint := by with_unfolding_all rfl
  rw [hJv] at hJ
  have hJJ := Except.ok.inj hJ
  subst hJJ
  have hP : sel.Probs = ensembleJoint := (Except.ok.inj hmask).symm
  have hik : i < sel.bestKeys.length := by rw [hspec.length]; exact hi
  have hkey : sel.bestKeys.getD i 0 < 6 := hspec.lt _ (getD_mem_of_lt _ _ _ hik)
  have hcost := bestCosts_getD sel i hspec.costs hik
  have h1 := newHypothesis_breakdown_entry ensembleSelf [0, 1] ensembleScorers [] 2
    scenarioWorld.heap 2 3 sel (breakdownAt scenarioWorld.heap (parentOf [0, 1] sel i))
    hspec rfl i hi 1 (Nat.le_refl 1) (by decide)
  have hov : (overwriteFirst ensembleScorers sel.Probs)[1 - 1]? =
      some ⟨"F0", sel.Probs, none⟩ := rfl
  rw [hov, scenario_breakdownAt] at h1
  simp only [Option.map_some', Option.getD_some, List.getD_nil, add_zero] at h1
  refine ⟨_, sel.bestKeys.getD i 0, hnew i hi, hkey, ?_, ?_, ?_, ?_⟩
  · simp only [newHypothesis, hP]; rfl
  · simp only [newHypothesis, hP]; rfl
  · rw [scenario_breakdownAt, h1]
    simp only [newHypothesis]
    rw [hcost]
  · rw [scenario_breakdownAt, h1, scenario_breakdownAt, hP]
    generalize sel.bestKeys.getD i 0 = key at hkey
    interval_cases key <;> with_unfolding_all decide

/-! ## C8: a missing ensemble weight -/

theorem addScorers_error_of_missing (self : BestHyps) :
    ∀ (rest : List Scorer) (Probs : ArrayMatrix),
      (∃ s ∈ rest, self.weights_ s.name = none) →
      ∃ e, addScorers self Probs rest = .error e
  | [], _, h => by simp at h
  | s :: rest, Probs, h => by
    simp only [addScorers]
    cases hws : self.weights_ s.name with
    | none => exact ⟨_, rfl⟩
    | some w =>
      simp only
      cases Probs.addScaled w s.probs with
      | error e => exact ⟨e, rfl⟩
      | ok P1 =>
        apply addScorers_error_of_missing self rest P1
        obtain ⟨t, ht, htw⟩ := h
        rcases List.mem_cons.1 ht with rfl | ht1
        · rw [hws] at htw; exact Option.noConfusion htw
        · exact ⟨t, ht1, htw⟩

theorem jointProbs_error_of_missing (self : BestHyps) (heap : List Hypothesis)
    (prevHyps : List HypothesisPtr) (scorers : List Scorer)
    (h : ∃ s ∈ scorers, self.weights_ s.name = none) :
    ∃ e, jointProbs self heap prevHyps scorers = .error e := by
  cases scorers with
  | nil => simp at h
  | cons s0 rest =>
    simp only [jointProbs]
    cases fillCosts heap prevHyps s0.probs.rows with
    | error e => exact ⟨e, rfl⟩
    | ok c =>
      simp only
      cases hws : self.weights_ s0.name with
      | none => exact ⟨_, rfl⟩
      | some w0 =>
        apply addScorers_error_of_missing self rest
        obtain ⟨t, ht, htw⟩ := h
        rcases List.mem_cons.1 ht with rfl | ht1
        · rw [hws] at htw; exact Option.noConfusion htw
        · exact ⟨t, ht1, htw⟩

theorem CalcBeam_of_selectBest_error (self : BestHyps) (nth_element : NthElement)
    (prevHyps : List HypothesisPtr) (scorers : List Scorer) (filterIndices : Words)
    (beamSize : Nat) (w : World) (e : Error)
    (h : selectBest self nth_element w.heap prevHyps scorers beamSize = .error e) :
    CalcBeam self nth_element prevHyps scorers filterIndices beamSize w = ⟨w, some e⟩ := by
  simp only [CalcBeam, h]

theorem selectBest_of_jointProbs_error (self : BestHyps) (nth_element : NthElement)
    (heap : List Hypothesis) (prevHyps : List HypothesisPtr) (scorers : List Scorer)
    (beamSize : Nat) (e : Error) (h : jointProbs self heap prevHyps scorers = .error e) :
    selectBest self nth_element heap prevHyps scorers beamSize = .error e := by
  simp only [selectBest, h]

theorem addScorers_missing_inv (self : BestHyps) (name : String) :
    ∀ (rest : List Scorer) (Probs : ArrayMatrix),
      addScorers self Probs rest = .error (.missingWeight name) →
      ∃ s ∈ rest, s.name = name ∧ self.weights_ s.name = none
  | [], _, h => by simp [addScorers] at h
  | s :: rest, Probs, h => by
    simp only [addScorers] at h
    cases hws : self.weights_ s.name with
    | none =>
      rw [hws] at h
      simp only [Except.error.injEq, Error.missingWeight.injEq] at h
      exact ⟨s, List.mem_cons_self _ _, h, hws⟩
    | some w =>
      rw [hws] at h
      simp only at h
      cases hadd : Probs.addScaled w s.probs with
      | error e =>
        rw [hadd] at h
        simp only [ArrayMatrix.addScaled] at hadd
        split at hadd
        · exact Except.noConfusion hadd
        · simp only [Except.error.injEq] at hadd h
          rw [← hadd] at h
          exact Error.noConfusion h
      | ok P1 =>
        rw [hadd] at h
        obtain ⟨t, ht, h1, h2⟩ := addScorers_missing_inv self name rest P1 h
        exact ⟨t, List.mem_cons_of_mem _ ht, h1, h2⟩

theorem readCosts_error (heap : List Hypothesis) :
    ∀ (ptrs : List HypothesisPtr) (e : Error),
      readCosts heap ptrs = .error e → e = .undefinedBehaviour
  | [], e, h => by simp [readCosts] at h
  | p :: ps, e, h => by
    simp only [readCosts] at h
    cases hp : heap[p]? with
    | none =>
      rw [hp] at h
      simp only [Except.error.injEq] at h
      exact h.symm
    | some hy =>
      rw [hp] at h
      simp only at h
      cases hr : readCosts heap ps with
      | error e1 =>
        rw [hr] at h
        simp only [Except.error.injEq] at h
        rw [← h]
        exact readCosts_error heap ps e1 hr
      | ok cs => rw [hr] at h; exact Except.noConfusion h

theorem fillCosts_error (heap : List Hypothesis) (prevHyps : List HypothesisPtr) (rows : Nat)
    (e : Error) (h : fillCosts heap prevHyps rows = .error e) : e = .undefinedBehaviour := by
  simp only [fillCosts] at h
  cases hr : readCosts heap (prevHyps.take rows) with
  | error e1 =>
    rw [hr] at h
    simp only [Except.error.injEq] at h
    rw [← h]
    exact readCosts_error heap _ e1 hr
  | ok cs =>
    rw [hr] at h
    simp only at h
    split at h
    · exact Except.noConfusion h
    · simp only [Except.error.injEq] at h
      exact h.symm

theorem jointProbs_missing_inv (self : BestHyps) (heap : List Hypothesis)
    (prevHyps : List HypothesisPtr) (scorers : List Scorer) (name : String)
    (h : jointProbs self heap prevHyps scorers = .error (.missingWeight name)) :
    ∃ s ∈ scorers, s.name = name ∧ self.weights_ s.name = none := by
  cases scorers with
  | nil => simp [jointProbs] at h
  | cons s0 rest =>
    simp only [jointProbs] at h
    cases hf : fillCosts heap prevHyps s0.probs.rows with
    | error e =>
      rw [hf] at h
      simp only [Except.error.injEq] at h
      have := fillCosts_error heap prevHyps _ e hf
      rw [h] at this
      exact Error.noConfusion this
    | ok c =>
      rw [hf] at h
      simp only at h
      cases hws : self.weights_ s0.name with
      | none =>
        rw [hws] at h
        simp only [Except.error.injEq, Error.missingWeight.injEq] at h
        exact ⟨s0, List.mem_cons_self _ _, h, hws⟩
      | some w0 =>
        rw [hws] at h
        obtain ⟨t, ht, h1, h2⟩ := addScorers_missing_inv self name rest _ h
        exact ⟨t, List.mem_cons_of_mem _ ht, h1, h2⟩

theorem topK_error (self : BestHyps) (nth_element : NthElement) (Probs : ArrayMatrix)
    (beamSize : Nat) (e : Error) (h : topK self nth_element Probs beamSize = .error e) :
    e = .invalidArgument ∨ e = .undefinedBehaviour := by
  simp only [topK] at h
  cases hm : maskUNK self Probs with
  | error e1 =>
    rw [hm] at h
    simp only [Except.error.injEq] at h
    subst h
    simp only [maskUNK, ArrayMatrix.setColumn] at hm
    split at hm
    · split at hm
      · exact Except.noConfusion hm
      · simp only [Except.error.injEq] at hm
        exact Or.inl hm.symm
    · exact Except.noConfusion hm
  | ok P1 =>
    rw [hm] at h
    simp only at h
    split at h
    · exact Except.noConfusion h
    · simp only [Except.error.injEq] at h
      exact Or.inr h.symm

theorem selectBest_missing_inv (self : BestHyps) (nth_element : NthElement)
    (heap : List Hypothesis) (prevHyps : List HypothesisPtr) (scorers : List Scorer)
    (beamSize : Nat) (name : String)
    (h : selectBest self nth_element heap prevHyps scorers beamSize =
      .error (.missingWeight name)) :
    ∃ s ∈ scorers, s.name = name ∧ self.weights_ s.name = none := by
  simp only [selectBest] at h
  cases hj : jointProbs self heap prevHyps scorers with
  | error e =>
    rw [hj] at h
    simp only [Except.error.injEq] at h
    rw [h] at hj
    exact jointProbs_missing_inv self heap prevHyps scorers name hj
  | ok J =>
    rw [hj] at h
    simp only at h
    cases ht : topK self nth_element J beamSize with
    | error e =>
      rw [ht] at h
      simp only [Except.error.injEq] at h
      rcases topK_error self nth_element J beamSize e ht with h1 | h1
      · rw [h] at h1; exact Error.noConfusion h1
      · rw [h] at h1; exact Error.noConfusion h1
    | ok sel => rw [ht] at h; exact Except.noConfusion h

theorem breakdownLoop_missing_inv (self : BestHyps) (breakDowns : List (List ℚ)) (i : Nat)
    (p : HypothesisPtr) (n : Nat) (name : String) :
    ∀ (rest : List Scorer) (j : Nat) (st : BreakdownState),
      (breakdownLoop self breakDowns i p n j rest st).2 = some (.missingWeight name) →
      ∃ s ∈ rest, s.name = name ∧ self.weights_ s.name = none
  | [], _, _, h => by simp [breakdownLoop] at h
  | s :: rest, j, st, h => by
    simp only [breakdownLoop] at h
    split at h
    · obtain ⟨t, ht, h1, h2⟩ := breakdownLoop_missing_inv self breakDowns i p n name rest _ _ h
      exact ⟨t, List.mem_cons_of_mem _ ht, h1, h2⟩
    · cases hp : st.heap[p]? with
      | none => rw [hp] at h; simp at h
      | some parent =>
        rw [hp] at h
        simp only at h
        cases hws : self.weights_ s.name with
        | none =>
          rw [hws] at h
          simp only [Option.some.injEq, Error.missingWeight.injEq] at h
          exact ⟨s, List.mem_cons_self _ _, h, hws⟩
        | some w =>
          rw [hws] at h
          obtain ⟨t, ht, h1, h2⟩ :=
            breakdownLoop_missing_inv self breakDowns i p n name rest _ _ h
          exact ⟨t, List.mem_cons_of_mem _ ht, h1, h2⟩

theorem costBreakdown_missing_inv (self : BestHyps) (scorers : List Scorer)
    (breakDowns : List (List ℚ)) (i : Nat) (p : HypothesisPtr) (heap : List Hypothesis)
    (name : String)
    (h : (costBreakdown self scorers breakDowns i p heap).2 = .error (.missingWeight name)) :
    ∃ s ∈ scorers, s.name = name ∧ self.weights_ s.name = none := by
  simp only [costBreakdown] at h
  generalize hloop : breakdownLoop self breakDowns i p scorers.length 0 scorers
    ⟨heap, resize [] scorers.length 0, 0⟩ = r at h
  obtain ⟨st, err⟩ := r
  cases err with
  | some e =>
    simp only [Except.error.injEq] at h
    subst h
    exact breakdownLoop_missing_inv self breakDowns i p scorers.length name scorers 0 _
      (by rw [hloop])
  | none =>
    simp only at h
    cases scorers with
    | nil => simp at h
    | cons s0 rest =>
      simp only [List.head?_cons] at h
      cases hws : self.weights_ s0.name with
      | none =>
        rw [hws] at h
        simp only [Except.error.injEq, Error.missingWeight.injEq] at h
        exact ⟨s0, List.mem_cons_self _ _, h, hws⟩
      | some w0 => rw [hws] at h; simp at h

theorem collectAlignments_error (hypIndex : Nat) :
    ∀ (scorers : List Scorer) (e : Error), collectAlignments hypIndex scorers = .error e →
      e = .fatal "Return Alignment is allowed only with Nematus scorer." ∨
      e = .undefinedBehaviour
  | [], e, h => by simp [collectAlignments] at h
  | s :: rest, e, h => by
    simp only [collectAlignments] at h
    cases ha : s.attention with
    | none =>
      rw [ha] at h
      simp only [Except.error.injEq] at h
      exact Or.inl h.symm
    | some att =>
      rw [ha] at h
      simp only at h
      split at h
      · cases hr : collectAlignments hypIndex rest with
        | error e1 =>
          rw [hr] at h
          simp only [Except.error.injEq] at h
          rw [← h]
          exact collectAlignments_error hypIndex rest e1 hr
        | ok al => rw [hr] at h; exact Except.noConfusion h
      · simp only [Except.error.injEq] at h
        exact Or.inr h.symm

theorem expandOne_missing_inv (self : BestHyps) (prevHyps : List HypothesisPtr)
    (scorers : List Scorer) (filterIndices : Words) (sel : Selection) (i : Nat) (w : World)
    (name : String)
    (h : (expandOne self prevHyps scorers filterIndices sel i w).error =
      some (.missingWeight name)) :
    ∃ s ∈ scorers, s.name = name ∧ self.weights_ s.name = none := by
  simp only [expandOne] at h
  split at h
  · simp at h
  · split at h
    · simp at h
    · split at h
      · rename_i e he
        simp only [Option.some.injEq] at h
        subst h
        split at he
        · rcases collectAlignments_error _ _ _ he with h1 | h1 <;> exact Error.noConfusion h1
        · exact Except.noConfusion he
      · split at h
        · split at h
          · rename_i heap1 e hc
            simp only [Option.some.injEq] at h
            subst h
            exact costBreakdown_missing_inv self scorers sel.breakDowns i _ w.heap name
              (by rw [hc])
          · simp at h
        · simp at h

theorem expandLoop_missing_inv (self : BestHyps) (prevHyps : List HypothesisPtr)
    (scorers : List Scorer) (filterIndices : Words) (sel : Selection) (name : String) :
    ∀ (is : List Nat) (w : World),
      (expandLoop self prevHyps scorers filterIndices sel is w).error =
        some (.missingWeight name) →
      ∃ s ∈ scorers, s.name = name ∧ self.weights_ s.name = none
  | [], w, h => by simp [expandLoop] at h
  | i :: is, w, h => by
    simp only [expandLoop] at h
    split at h
    · exact expandLoop_missing_inv self prevHyps scorers filterIndices sel name is _ h
    · rename_i w1 e he
      simp only [Option.some.injEq] at h
      subst h
      exact expandOne_missing_inv self prevHyps scorers filterIndices sel i w name
        (by rw [he])

theorem addScorers_first_missing (self : BestHyps) :
    ∀ (rest : List Scorer) (Probs : ArrayMatrix),
      Probs.WF →
      (∀ s ∈ rest, s.probs.rows = Probs.rows ∧ s.probs.columns = Probs.columns ∧ s.probs.WF) →
      (∃ s ∈ rest, self.weights_ s.name = none) →
      ∃ s ∈ rest, self.weights_ s.name = none ∧
        addScorers self Probs rest = .error (.missingWeight s.name)
  | [], _, _, _, h => by simp at h
  | s :: rest, Probs, hwf, hshape, h => by
    obtain ⟨hr, hc, hswf⟩ := hshape s (List.mem_cons_self _ _)
    cases hws : self.weights_ s.name with
    | none =>
      exact ⟨s, List.mem_cons_self _ _, hws, by simp only [addScorers, hws]⟩
    | some w =>
      have hwf1 : ArrayMatrix.WF
          { Probs with data := List.zipWith (fun x y => x + w * y) Probs.data s.probs.data } := by
        unfold ArrayMatrix.WF at *
        simp only [List.length_zipWith, hwf, hswf, hr, hc, min_self]
      have hrest : ∃ t ∈ rest, self.weights_ t.name = none := by
        obtain ⟨t, ht, htw⟩ := h
        rcases List.mem_cons.1 ht with rfl | ht1
        · rw [hws] at htw; exact Option.noConfusion htw
        · exact ⟨t, ht1, htw⟩
      obtain ⟨t, ht, htw, hres⟩ := addScorers_first_missing self rest _ hwf1
        (fun u hu => by
          obtain ⟨a, b, c⟩ := hshape u (List.mem_cons_of_mem _ hu)
          exact ⟨a, b, c⟩) hrest
      refine ⟨t, List.mem_cons_of_mem _ ht, htw, ?_⟩
      simp [addScorers, hws, ArrayMatrix.addScaled, hr, hc, hres]

theorem jointProbs_first_missing (self : BestHyps) (heap : List Hypothesis)
    (prevHyps : List HypothesisPtr) (scorers : List Scorer) (rows V : Nat)
    (hshape : ∀ s ∈ scorers, s.probs.rows = rows ∧ s.probs.columns = V ∧ s.probs.WF)
    (hlen : prevHyps.length = rows) (hvalid : ∀ p ∈ prevHyps, p < heap.length)
    (h : ∃ s ∈ scorers, self.weights_ s.name = none) :
    ∃ s ∈ scorers, self.weights_ s.name = none ∧
      jointProbs self heap prevHyps scorers = .error (.missingWeight s.name) := by
  cases scorers with
  | nil => simp at h
  | cons s0 rest =>
    obtain ⟨hr0, hc0, hwf0⟩ := hshape s0 (List.mem_cons_self _ _)
    have hfill := fillCosts_ok heap prevHyps (costsOf heap prevHyps) s0.probs.rows
      (costsOf_spec heap prevHyps hvalid) (hlen.trans hr0.symm)
    cases hws : self.weights_ s0.name with
    | none =>
      exact ⟨s0, List.mem_cons_self _ _, hws, by simp only [jointProbs, hfill, hws]⟩
    | some w0 =>
      have hwfB : (AddBiasVector_byColumn (s0.probs.scale w0)
          ⟨s0.probs.rows, 1, costsOf heap prevHyps⟩).WF := by
        unfold ArrayMatrix.WF at *
        simp [AddBiasVector_byColumn, ArrayMatrix.scale, hwf0]
      have hrest : ∃ t ∈ rest, self.weights_ t.name = none := by
        obtain ⟨t, ht, htw⟩ := h
        rcases List.mem_cons.1 ht with rfl | ht1
        · rw [hws] at htw; exact Option.noConfusion htw
        · exact ⟨t, ht1, htw⟩
      obtain ⟨t, ht, htw, hres⟩ := addScorers_first_missing self rest _ hwfB
        (fun u hu => by
          obtain ⟨a, b, c⟩ := hshape u (List.mem_cons_of_mem _ hu)
          exact ⟨a.trans hr0.symm, b.trans hc0.symm, c⟩) hrest
      exact ⟨t, List.mem_cons_of_mem _ ht, htw, by simp only [jointProbs, hfill, hws, hres]⟩

/-- C8. A missing ensemble weight is fatal: when the name of some scorer has no
entry in the weight table the call fails and leaves heap and beams as they were
(no hypothesis is appended); on equally shaped matrices with one live previous
hypothesis per row the failure is the exception of `weights_.at` for such a
scorer.  Conversely the call ends with that exception for a name only if a
scorer of that name has no entry in the table. -/
theorem CalcBeam_missing_weight (self : BestHyps) (nth_element : NthElement)
    (prevHyps : List HypothesisPtr) (scorers : List Scorer) (filterIndices : Words)
    (beamSize : Nat) (w : World) :
    ((∃ s ∈ scorers, self.weights_ s.name = none) →
      (∃ e, CalcBeam self nth_element prevHyps scorers filterIndices beamSize w =
        ⟨w, some e⟩) ∧
      ∀ rows V,
        (∀ s ∈ scorers, s.probs.rows = rows ∧ s.probs.columns = V ∧ s.probs.WF) →
        prevHyps.length = rows → (∀ p ∈ prevHyps, p < w.heap.length) →
        ∃ s ∈ scorers, self.weights_ s.name = none ∧
          CalcBeam self nth_element prevHyps scorers filterIndices beamSize w =
            ⟨w, some (.missingWeight s.name)⟩) ∧
    ∀ name,
      (CalcBeam self nth_element prevHyps scorers filterIndices beamSize w).error =
        some (.missingWeight name) →
      ∃ s ∈ scorers, s.name = name ∧ self.weights_ s.name = none := by
  refine ⟨fun hmiss => ⟨?_, ?_⟩, ?_⟩
  · obtain ⟨e, he⟩ := jointProbs_error_of_missing self w.heap prevHyps scorers hmiss
    exact ⟨e, CalcBeam_of_selectBest_error _ _ _ _ _ _ _ _
      (selectBest_of_jointProbs_error _ _ _ _ _ _ _ he)⟩
  · intro rows V hshape hlen hvalid
    obtain ⟨s, hs, hsw, he⟩ := jointProbs_first_missing self w.heap prevHyps scorers rows V
      hshape hlen hvalid hmiss
    exact ⟨s, hs, hsw, CalcBeam_of_selectBest_error _ _ _ _ _ _ _ _
      (selectBest_of_jointProbs_error _ _ _ _ _ _ _ he)⟩
  · intro name h
    simp only [CalcBeam] at h
    cases hsel : selectBest self nth_element w.heap prevHyps scorers beamSize with
    | error e =>
      rw [hsel] at h
      simp only [Option.some.injEq] at h
      rw [h] at hsel
      exact selectBest_missing_inv self nth_element w.heap prevHyps scorers beamSize name hsel
    | ok sel =>
      rw [hsel] at h
      exact expandLoop_missing_inv self prevHyps scorers filterIndices sel name _ w h

theorem CalcBeam_missing_weight_witness :
    CalcBeam noWeightSelf sortedNthElement [0, 1] scenarioScorers [] 2 scenarioWorld =
      ⟨scenarioWorld, some (.missingWeight "F0")⟩ ∧
    (∃ e, CalcBeam noWeightSelf sortedNthElement [0, 1] scenarioScorers [] 2 scenarioWorld =
      ⟨scenarioWorld, some e⟩) ∧
    ∃ s ∈ scenarioScorers, s.name = "F0" ∧ noWeightSelf.weights_ s.name = none :=
  ⟨by with_unfolding_all rfl,
   ((CalcBeam_missing_weight noWeightSelf sortedNthElement [0, 1] scenarioScorers [] 2
      scenarioWorld).1 ⟨⟨"F0", scenarioProbs, none⟩, List.mem_singleton.2 rfl, rfl⟩).1,
   (CalcBeam_missing_weight noWeightSelf sortedNthElement [0, 1] scenarioScorers [] 2
      scenarioWorld).2 "F0" (by with_unfolding_all rfl)⟩

/-! ## C9: the alignment capability -/

theorem collectAlignments_error_of_none (hypIndex : Nat) :
    ∀ (scorers : List Scorer), (∃ s ∈ scorers, s.attention = none) →
      ∃ e, collectAlignments hypIndex scorers = .error e
  | [], h => by simp at h
  | s :: rest, h => by
    simp only [collectAlignments]
    cases ha : s.attention with
    | none => exact ⟨_, rfl⟩
    | some att =>
      simp only
      split
      · have hrest : ∃ t ∈ rest, t.attention = none := by
          obtain ⟨t, ht, hta⟩ := h
          rcases List.mem_cons.1 ht with rfl | ht1
          · rw [ha] at hta; exact Option.noConfusion hta
          · exact ⟨t, ht1, hta⟩
        obtain ⟨e, he⟩ := collectAlignments_error_of_none hypIndex rest hrest
        exact ⟨e, by rw [he]⟩
      · exact ⟨_, rfl⟩

theorem collectAlignments_fatal (hypIndex : Nat) :
    ∀ (scorers : List Scorer),
      (∀ s ∈ scorers, ∀ att, s.attention = some att → hypIndex < att.rows) →
      (∃ s ∈ scorers, s.attention = none) →
      collectAlignments hypIndex scorers =
        .error (.fatal "Return Alignment is allowed only with Nematus scorer.")
  | [], _, h => by simp at h
  | s :: rest, hrows, h => by
    simp only [collectAlignments]
    cases ha : s.attention with
    | none => rfl
    | some att =>
      have hlt := hrows s (List.mem_cons_self _ _) att ha
      have hrest : ∃ t ∈ rest, t.attention = none := by
        obtain ⟨t, ht, hta⟩ := h
        rcases List.mem_cons.1 ht with rfl | ht1
        · rw [ha] at hta; exact Option.noConfusion hta
        · exact ⟨t, ht1, hta⟩
      have ih := collectAlignments_fatal hypIndex rest
        (fun t ht => hrows t (List.mem_cons_of_mem _ ht)) hrest
      simp only [hlt, if_true, ih]

/-- With alignment capture on and a scorer without attention, no round of the
expansion loop appends anything. -/
theorem expandOne_no_attention (self : BestHyps) (prevHyps : List HypothesisPtr)
    (scorers : List Scorer) (filterIndices : Words) (sel : Selection) (i : Nat) (w : World)
    (hatt : self.returnAttentionWeights_ = true) (h : ∃ s ∈ scorers, s.attention = none) :
    ∃ e, expandOne self prevHyps scorers filterIndices sel i w = ⟨w, some e⟩ := by
  simp only [expandOne, hatt, if_true]
  split
  · exact ⟨_, rfl⟩
  · split
    · exact ⟨_, rfl⟩
    · obtain ⟨e, he⟩ := collectAlignments_error_of_none
        (sel.bestKeys.getD i 0 / sel.Probs.columns) scorers h
      rw [he]
      exact ⟨e, rfl⟩

theorem expandLoop_cons_error (self : BestHyps) (prevHyps : List HypothesisPtr)
    (scorers : List Scorer) (filterIndices : Words) (sel : Selection) (i : Nat)
    (is : List Nat) (w w1 : World) (e : Error)
    (h : expandOne self prevHyps scorers filterIndices sel i w = ⟨w1, some e⟩) :
    expandLoop self prevHyps scorers filterIndices sel (i :: is) w = ⟨w1, some e⟩ := by
  simp only [expandLoop, h]

theorem range_eq_cons (n : Nat) (hn : 1 ≤ n) : ∃ is, List.range n = 0 :: is := by
  cases n with
  | zero => omega
  | succ m => exact ⟨_, List.range_succ_eq_map m⟩

theorem alignmentsOf_getElem? (hypIndex : Nat) (scorers : List Scorer) (j : Nat) (s : Scorer)
    (att : ArrayMatrix) (hs : scorers[j]? = some s) (ha : s.attention = some att) :
    (alignmentsOf hypIndex scorers)[j]? = some (att.row hypIndex) := by
  simp only [alignmentsOf, List.getElem?_map, hs, Option.map_some', ha, Option.getD_some]

/-- With alignment capture on, a first round whose filter and parent lookups are in
range ends with the exception of line 121 when some scorer has no attention. -/
theorem expandOne_fatal (self : BestHyps) (prevHyps : List HypothesisPtr)
    (scorers : List Scorer) (filterIndices : Words) (sel : Selection) (i : Nat) (w : World)
    (hatt : self.returnAttentionWeights_ = true)
    (hprev : sel.bestKeys.getD i 0 / sel.Probs.columns < prevHyps.length)
    (hfil : self.isInputFiltered_ = true →
      sel.bestKeys.getD i 0 % sel.Probs.columns < filterIndices.length)
    (hrows : ∀ s ∈ scorers, ∀ att, s.attention = some att →
      sel.bestKeys.getD i 0 / sel.Probs.columns < att.rows)
    (h : ∃ s ∈ scorers, s.attention = none) :
    expandOne self prevHyps scorers filterIndices sel i w =
      ⟨w, some (.fatal "Return Alignment is allowed only with Nematus scorer.")⟩ := by
  have hp1 : prevHyps[sel.bestKeys.getD i 0 / sel.Probs.columns]? =
      some (parentOf prevHyps sel i) := getElem?_eq_some_getD prevHyps _ 0 hprev
  have hfilter : (if self.isInputFiltered_ = true then
        filterIndices[sel.bestKeys.getD i 0 % sel.Probs.columns]?
      else some (sel.bestKeys.getD i 0 % sel.Probs.columns)) =
      some (if self.isInputFiltered_ = true then
          filterIndices.getD (sel.bestKeys.getD i 0 % sel.Probs.columns) 0
        else sel.bestKeys.getD i 0 % sel.Probs.columns) := by
    by_cases hf : self.isInputFiltered_ = true
    · rw [if_pos hf, if_pos hf]
      exact getElem?_eq_some_getD filterIndices _ 0 (hfil hf)
    · rw [if_neg hf, if_neg hf]
  simp only [expandOne, hfilter, hp1, hatt, if_true, collectAlignments_fatal _ scorers hrows h]

/-- C9. Alignment capability check, with alignment capture on.  If the beam size is
at least 1 and some scorer has no attention, the call fails and leaves heap and
beams as they were (no hypothesis is appended); on otherwise well-formed input
the failure is the exception of line 121.  If the input is well-formed, so that
every scorer has an attention, every appended hypothesis carries exactly one
alignment per scorer, in scorer order: row `hypIndex` of that scorer's
attention. -/
theorem CalcBeam_alignment (self : BestHyps) (nth_element : NthElement)
    (prevHyps : List HypothesisPtr) (scorers : List Scorer) (filterIndices : Words)
    (beamSize : Nat) (w : World)
    (hne : NthElementContract nth_element)
    (hatt : self.returnAttentionWeights_ = true) :
    (1 ≤ beamSize → (∃ s ∈ scorers, s.attention = none) →
      (∃ e, CalcBeam self nth_element prevHyps scorers filterIndices beamSize w =
        ⟨w, some e⟩) ∧
      ∀ rows V,
        WellFormed { self with returnAttentionWeights_ := false } prevHyps scorers
          filterIndices beamSize w.heap rows V →
        (∀ s ∈ scorers, ∀ att, s.attention = some att → rows ≤ att.rows) →
        CalcBeam self nth_element prevHyps scorers filterIndices beamSize w =
          ⟨w, some (.fatal "Return Alignment is allowed only with Nematus scorer.")⟩) ∧
    ∀ rows V, WellFormed self prevHyps scorers filterIndices beamSize w.heap rows V →
      (CalcBeam self nth_element prevHyps scorers filterIndices beamSize w).error = none ∧
      (CalcBeam self nth_element prevHyps scorers filterIndices beamSize w).world.heap.length =
        w.heap.length + beamSize ∧
      ∀ i, i < beamSize → ∃ hyp,
        (CalcBeam self nth_element prevHyps scorers filterIndices beamSize
            w).world.heap[w.heap.length + i]? = some hyp ∧
        hyp.alignments.length = scorers.length ∧
        ∀ j, j < scorers.length → ∃ s att, scorers[j]? = some s ∧ s.attention = some att ∧
          hyp.alignments[j]? = some (att.row hyp.prevIndex) := by
  refine ⟨fun hk hnone => ⟨?_, ?_⟩, ?_⟩
  · obtain ⟨is, his⟩ := range_eq_cons beamSize hk
    cases hsel : selectBest self nth_element w.heap prevHyps scorers beamSize with
    | error e => exact ⟨e, CalcBeam_of_selectBest_error _ _ _ _ _ _ _ _ hsel⟩
    | ok sel =>
      obtain ⟨e, he⟩ := expandOne_no_attention self prevHyps scorers filterIndices sel 0 w
        hatt hnone
      refine ⟨e, ?_⟩
      simp only [CalcBeam, hsel, his]
      exact expandLoop_cons_error _ _ _ _ _ _ _ _ _ _ he
  · intro rows V hwf hrows
    obtain ⟨is, his⟩ := range_eq_cons beamSize hk
    obtain ⟨sel, hsel, hspec⟩ := selectBest_ok { self with returnAttentionWeights_ := false }
      nth_element prevHyps scorers filterIndices beamSize w.heap rows V hne hwf
    rw [selectBest_congr self { self with returnAttentionWeights_ := false } rfl rfl rfl rfl]
      at hsel
    have hkey : sel.bestKeys.getD 0 0 < rows * V :=
      hspec.lt _ (getD_mem_of_lt _ _ _ (by rw [hspec.length]; exact hk))
    have hdiv : sel.bestKeys.getD 0 0 / sel.Probs.columns < rows := by
      rw [hspec.columns_eq]; exact div_lt_of_lt_mul _ _ _ hkey
    have hone := expandOne_fatal self prevHyps scorers filterIndices sel 0 w hatt
      (by rw [hwf.prevHyps_length]; exact hdiv)
      (fun hf => by
        rw [hspec.columns_eq]
        exact Nat.lt_of_lt_of_le (Nat.mod_lt _ hwf.columns_pos) (hwf.filter hf))
      (fun s hs att ha => Nat.lt_of_lt_of_le hdiv (hrows s hs att ha)) hnone
    simp only [CalcBeam, hsel, his]
    exact expandLoop_cons_error _ _ _ _ _ _ _ _ _ _ hone
  · intro rows V hwf
    obtain ⟨sel, _, hspec, herr, hlen, _, hnew⟩ := CalcBeam_appended self nth_element
      prevHyps scorers filterIndices beamSize w rows V hne hwf
    refine ⟨herr, hlen, ?_⟩
    intro i hi
    refine ⟨_, hnew i hi, ?_, ?_⟩
    · simp only [newHypothesis, hatt, if_true, alignmentsOf, List.length_map]
    · intro j hj
      obtain ⟨att, ha, _⟩ := hwf.attention hatt _ (List.getElem_mem hj)
      refine ⟨scorers[j], att, List.getElem?_eq_getElem hj, ha, ?_⟩
      simp only [newHypothesis, hatt, if_true]
      exact alignmentsOf_getElem? _ scorers j _ att (List.getElem?_eq_getElem hj) ha

/-- The scenario with alignment capture on and a scorer with attention is
well-formed input. -/
theorem scenarioAlign_wellFormed :
    WellFormed scenarioAlignSelf [0, 1] attentionScorers [] 2 scenarioWorld.heap 2 3 where
  scorers_ne := by decide
  shape := by decide
  columns_pos := by decide
  prevHyps_length := rfl
  prevHyps_valid := by decide
  beamSize_le := by decide
  weights := by decide
  unk := by decide
  filter := by decide
  attention := by
    intro _ s hs
    have hs1 : s = ⟨"F0", scenarioProbs, some (ArrayMatrix.ofRows 2 [[1/4, 3/4], [1/2, 1/2]])⟩ :=
      List.mem_singleton.1 hs
    subst hs1
    exact ⟨_, rfl, by decide⟩

theorem CalcBeam_alignment_witness :
    CalcBeam scenarioAlignSelf sortedNthElement [0, 1] scenarioScorers [] 2 scenarioWorld =
      ⟨scenarioWorld, some (.fatal "Return Alignment is allowed only with Nematus scorer.")⟩ ∧
    ((CalcBeam scenarioAlignSelf sortedNthElement [0, 1] attentionScorers [] 2
        scenarioWorld).world.heap.drop 2).map (fun hyp => (hyp.prevIndex, hyp.alignments)) =
      [(0, [[1/4, 3/4]]), (0, [[1/4, 3/4]])] ∧
    (∃ e, CalcBeam scenarioAlignSelf sortedNthElement [0, 1] scenarioScorers [] 2
      scenarioWorld = ⟨scenarioWorld, some e⟩) ∧
    (CalcBeam scenarioAlignSelf sortedNthElement [0, 1] attentionScorers [] 2
      scenarioWorld).error = none :=
  ⟨by with_unfolding_all rfl, by with_unfolding_all rfl,
   ((CalcBeam_alignment scenarioAlignSelf sortedNthElement [0, 1] scenarioScorers [] 2
      scenarioWorld sortedNthElement_contract rfl).1 (by decide)
      ⟨⟨"F0", scenarioProbs, none⟩, List.mem_singleton.2 rfl, rfl⟩).1,
   ((CalcBeam_alignment scenarioAlignSelf sortedNthElement [0, 1] attentionScorers [] 2
      scenarioWorld sortedNthElement_contract rfl).2 2 3 scenarioAlign_wellFormed).1⟩

/-! ## C10: a filter index out of range -/

/-- C10, the code at a failing input. Line 104 reads `filterIndices[wordIndex]`
without a range check: whenever filtering is on and the column of the selected key
is not an index of the filter table, the round ends in an access outside the
table, not in an exception.  In the scenario with the one-entry table `[5]`, the
first selected key is 1, of column 1, and the call ends that way. -/
theorem CalcBeam_filter_unchecked :
    (∀ (self : BestHyps) (prevHyps : List HypothesisPtr) (scorers : List Scorer)
        (filterIndices : Words) (sel : Selection) (i : Nat) (w : World),
      self.isInputFiltered_ = true →
      filterIndices.length ≤ sel.bestKeys.getD i 0 % sel.Probs.columns →
      expandOne self prevHyps scorers filterIndices sel i w =
        ⟨w, some .undefinedBehaviour⟩) ∧
    (∃ sel, selectBest scenarioFilterSelf sortedNthElement scenarioWorld.heap [0, 1]
        scenarioScorers 2 = .ok sel ∧ sel.bestKeys = [1, 2] ∧ sel.Probs.columns = 3) ∧
    shortFilter.length = 1 ∧
    CalcBeam scenarioFilterSelf sortedNthElement [0, 1] scenarioScorers shortFilter 2
      scenarioWorld = ⟨scenarioWorld, some .undefinedBehaviour⟩ := by
  refine ⟨?_, ⟨_, rfl, by with_unfolding_all rfl, by with_unfolding_all rfl⟩, rfl,
    by with_unfolding_all rfl⟩
  intro self prevHyps scorers filterIndices sel i w hf hlen
  simp only [expandOne, hf, if_true, List.getElem?_eq_none hlen]

/-! ## What a call does to the heap, on any input -/

theorem set_same_getElem? (heap : List Hypothesis) (p : HypothesisPtr) (h : Hypothesis)
    (hp : heap[p]? = some h) : heap.set p h = heap := by
  apply List.ext_getElem?
  intro q
  by_cases hq : p = q
  · subst hq
    have hlt : p < heap.length := by
      by_contra hcon
      rw [List.getElem?_eq_none (Nat.le_of_not_lt hcon)] at hp
      exact Option.noConfusion hp
    rw [List.getElem?_set_self hlt, hp]
  · rw [List.getElem?_set_ne hq]

/-- The loop of lines 133-146 leaves the heap as it is or backfills the parent, the
latter only for a scorer index `j ≥ 1`, hence with two scorers or more. -/
theorem breakdownLoop_heap (self : BestHyps) (breakDowns : List (List ℚ)) (i : Nat)
    (p : HypothesisPtr) (n : Nat) :
    ∀ (rest : List Scorer) (j : Nat) (st : BreakdownState), j + rest.length = n →
      (breakdownLoop self breakDowns i p n j rest st).1.heap = st.heap ∨
      ∃ parent, st.heap[p]? = some parent ∧ 2 ≤ n ∧
        (breakdownLoop self breakDowns i p n j rest st).1.heap =
          st.heap.set p (backfill n parent)
  | [], _, _, _ => Or.inl rfl
  | s :: rest, j, st, hn => by
    simp only [breakdownLoop]
    split
    · exact breakdownLoop_heap self breakDowns i p n rest (j + 1) _
        (by simp only [List.length_cons] at hn; omega)
    · rename_i hj
      cases hp : st.heap[p]? with
      | none => exact Or.inl rfl
      | some parent =>
        simp only
        have h2 : 2 ≤ n := by simp only [List.length_cons] at hn; omega
        have hplt : p < st.heap.length := by
          by_contra hcon
          rw [List.getElem?_eq_none (Nat.le_of_not_lt hcon)] at hp
          exact Option.noConfusion hp
        cases hws : self.weights_ s.name with
        | none => exact Or.inr ⟨parent, rfl, h2, rfl⟩
        | some w =>
          simp only
          rcases breakdownLoop_heap self breakDowns i p n rest (j + 1)
            { heap := st.heap.set p (backfill n parent),
              costBreakdown := st.costBreakdown.set j
                ((breakDowns.getD j []).getD i 0 + (backfill n parent).costBreakdown.getD j 0),
              sum := st.sum + w *
                ((breakDowns.getD j []).getD i 0 +
                  (backfill n parent).costBreakdown.getD j 0) }
            (by simp only [List.length_cons] at hn; omega) with h | ⟨parent1, hp1, _, h⟩
          · exact Or.inr ⟨parent, rfl, h2, h⟩
          · refine Or.inr ⟨parent, rfl, h2, ?_⟩
            rw [h]
            simp only at hp1
            rw [List.getElem?_set_self hplt] at hp1
            have := Option.some.inj hp1
            rw [← this, backfill_idem, List.set_set]

/-- Lines 131-148 leave the heap as it is or backfill the parent, the latter only
with two scorers or more. -/
theorem costBreakdown_heap (self : BestHyps) (scorers : List Scorer)
    (breakDowns : List (List ℚ)) (i : Nat) (p : HypothesisPtr) (heap : List Hypothesis) :
    (costBreakdown self scorers breakDowns i p heap).1 = heap ∨
    ∃ parent, heap[p]? = some parent ∧ 2 ≤ scorers.length ∧
      (costBreakdown self scorers breakDowns i p heap).1 =
        heap.set p (backfill scorers.length parent) := by
  have hloop := breakdownLoop_heap self breakDowns i p scorers.length scorers 0
    ⟨heap, resize [] scorers.length 0, 0⟩ (by simp)
  have hfst : (costBreakdown self scorers breakDowns i p heap).1 =
      (breakdownLoop self breakDowns i p scorers.length 0 scorers
        ⟨heap, resize [] scorers.length 0, 0⟩).1.heap := by
    simp only [costBreakdown]
    split
    · rename_i st e he; rw [he]
    · rename_i st he
      rw [he]
      split
      · rfl
      · split <;> rfl
  rw [hfst]
  exact hloop

theorem Backfilled.refl (n : Nat) (may : HypothesisPtr → Prop) (H : List Hypothesis) :
    Backfilled n may H H :=
  ⟨rfl, fun _ _ h => Or.inl h⟩

theorem Backfilled.mono {n : Nat} {may may1 : HypothesisPtr → Prop} {H0 H1 : List Hypothesis}
    (h : Backfilled n may H0 H1) (hm : ∀ q, may q → may1 q) : Backfilled n may1 H0 H1 :=
  ⟨h.1, fun q c hc => (h.2 q c hc).imp id (fun ⟨a, b, d⟩ => ⟨a, b, hm q d⟩)⟩

theorem Backfilled.trans {n : Nat} {may : HypothesisPtr → Prop} {H0 H1 H2 : List Hypothesis}
    (h01 : Backfilled n may H0 H1) (h12 : Backfilled n may H1 H2) : Backfilled n may H0 H2 := by
  refine ⟨h12.1.trans h01.1, ?_⟩
  intro q c hc
  rcases h01.2 q c hc with h1 | ⟨h1, hlen, hmay⟩
  · exact h12.2 q c h1
  · rcases h12.2 q _ h1 with h2 | ⟨h2, hlen2, _⟩
    · exact Or.inr ⟨h2, hlen, hmay⟩
    · exact absurd hlen2 (backfill_length n c)

theorem Backfilled.set {n : Nat} {may : HypothesisPtr → Prop} (H : List Hypothesis)
    (p : HypothesisPtr) (parent : Hypothesis) (hp : H[p]? = some parent) (hmay : may p) :
    Backfilled n may H (H.set p (backfill n parent)) := by
  refine ⟨List.length_set _ _ _, ?_⟩
  intro q c hc
  have hplt : p < H.length := by
    by_contra hcon
    rw [List.getElem?_eq_none (Nat.le_of_not_lt hcon)] at hp
    exact Option.noConfusion hp
  by_cases hq : p = q
  · subst hq
    rw [hp] at hc
    have hpc := Option.some.inj hc
    subst hpc
    rw [List.getElem?_set_self hplt]
    by_cases hlen : parent.costBreakdown.length < n
    · exact Or.inr ⟨rfl, hlen, hmay⟩
    · rw [backfill_of_not_lt n parent hlen]
      exact Or.inl rfl
  · rw [List.getElem?_set_ne hq]
    exact Or.inl hc

theorem beams_add_eq_addAll (beams : Beams) (x : HypothesisPtr) :
    beams.Add 0 x = beams.AddAll 0 [x] := rfl

/-- One round of the expansion loop, on any input whose previous hypotheses are in
the old part `A` of the heap: the old part is as it was or has the parent
backfilled, and at most one hypothesis is appended, whose parent is an element of
`prevHyps`. -/
theorem expandOne_frame (self : BestHyps) (prevHyps : List HypothesisPtr)
    (scorers : List Scorer) (filterIndices : Words) (sel : Selection) (i : Nat)
    (A B : List Hypothesis) (beams : Beams) (hvalid : ∀ p ∈ prevHyps, p < A.length) :
    ∃ A1 news,
      (expandOne self prevHyps scorers filterIndices sel i ⟨A ++ B, beams⟩).world =
        ⟨A1 ++ (B ++ news), beams.AddAll 0 (List.range' (A.length + B.length) news.length)⟩ ∧
      Backfilled scorers.length
        (fun q => self.returnNBestList_ = true ∧ 2 ≤ scorers.length ∧
          prevHyps[sel.bestKeys.getD i 0 / sel.Probs.columns]? = some q) A A1 ∧
      (∀ h ∈ news, ∃ p, h.prevHyp = some p ∧ p ∈ prevHyps) ∧
      news.length ≤ 1 ∧
      ((expandOne self prevHyps scorers filterIndices sel i ⟨A ++ B, beams⟩).error = none →
        news.length = 1) := by
  simp only [expandOne]
  split
  · exact ⟨A, [], by simp [beams_addAll_nil], Backfilled.refl _ _ _, by simp, by simp,
      by simp⟩
  · rename_i wi _
    split
    · exact ⟨A, [], by simp [beams_addAll_nil], Backfilled.refl _ _ _, by simp, by simp,
        by simp⟩
    · rename_i prevHyp hprev
      have hmem : prevHyp ∈ prevHyps := List.getElem?_mem hprev
      have hplt : prevHyp < A.length := hvalid _ hmem
      split
      · exact ⟨A, [], by simp [beams_addAll_nil], Backfilled.refl _ _ _, by simp, by simp,
          by simp⟩
      · rename_i alignments _
        split
        · rename_i hn
          have hheap := costBreakdown_heap self scorers sel.breakDowns i prevHyp (A ++ B)
          have hA1 : ∃ A1, (costBreakdown self scorers sel.breakDowns i prevHyp (A ++ B)).1 =
              A1 ++ B ∧ Backfilled scorers.length
                (fun q => self.returnNBestList_ = true ∧ 2 ≤ scorers.length ∧
                  prevHyps[sel.bestKeys.getD i 0 / sel.Probs.columns]? = some q) A A1 := by
            rcases hheap with h | ⟨parent, hp, h2, h⟩
            · exact ⟨A, h, Backfilled.refl _ _ _⟩
            · rw [List.getElem?_append_left hplt] at hp
              refine ⟨A.set prevHyp (backfill scorers.length parent), ?_,
                Backfilled.set A prevHyp parent hp ⟨hn, h2, hprev⟩⟩
              rw [h, List.set_append_left _ _ hplt]
          obtain ⟨A1, hA1eq, hA1b⟩ := hA1
          split
          · rename_i heap1 e hc
            have : heap1 = A1 ++ B := by rw [← hA1eq, hc]
            subst this
            exact ⟨A1, [], by simp [beams_addAll_nil], hA1b, by simp, by simp, by simp⟩
          · rename_i heap1 bd hc
            have : heap1 = A1 ++ B := by rw [← hA1eq, hc]
            subst this
            refine ⟨A1, [⟨some prevHyp, wi, sel.bestKeys.getD i 0 / sel.Probs.columns,
              sel.bestCosts.getD i 0, alignments, bd⟩], ?_, hA1b, ?_, by simp, by simp⟩
            · simp only [World.addHyp, List.append_assoc, List.length_append, hA1b.1,
                List.length_singleton, List.range'_one, beams_add_eq_addAll]
            · intro h hh
              rw [List.mem_singleton] at hh
              subst hh
              exact ⟨prevHyp, rfl, hmem⟩
        · refine ⟨A, [⟨some prevHyp, wi, sel.bestKeys.getD i 0 / sel.Probs.columns,
            sel.bestCosts.getD i 0, alignments, []⟩], ?_, Backfilled.refl _ _ _, ?_,
            by simp, by simp⟩
          · simp only [World.addHyp, List.append_assoc, List.length_append,
              List.length_singleton, List.range'_one, beams_add_eq_addAll]
          · intro h hh
            rw [List.mem_singleton] at hh
            subst hh
            exact ⟨prevHyp, rfl, hmem⟩

theorem beams_addAll_addAll (beams : Beams) (l1 l2 : List HypothesisPtr) :
    (beams.AddAll 0 l1).AddAll 0 l2 = beams.AddAll 0 (l1 ++ l2) := by
  funext s
  simp only [Beams.AddAll]
  split <;> simp

/-- The expansion loop on any input whose previous hypotheses are in the old part
`A` of the heap: the old part keeps its cells, some parents of selected keys being
backfilled; every appended hypothesis has its parent in `prevHyps`; the beam of
sentence 0 gains the addresses of the appended hypotheses. -/
theorem expandLoop_frame (self : BestHyps) (prevHyps : List HypothesisPtr)
    (scorers : List Scorer) (filterIndices : Words) (sel : Selection) :
    ∀ (is : List Nat) (A B : List Hypothesis) (beams : Beams),
      (∀ p ∈ prevHyps, p < A.length) →
      ∃ A1 news,
        (expandLoop self prevHyps scorers filterIndices sel is ⟨A ++ B, beams⟩).world =
          ⟨A1 ++ (B ++ news),
            beams.AddAll 0 (List.range' (A.length + B.length) news.length)⟩ ∧
        Backfilled scorers.length
          (fun q => self.returnNBestList_ = true ∧ 2 ≤ scorers.length ∧
            ∃ i ∈ is, prevHyps[sel.bestKeys.getD i 0 / sel.Probs.columns]? = some q) A A1 ∧
        (∀ h ∈ news, ∃ p, h.prevHyp = some p ∧ p ∈ prevHyps) ∧
        news.length ≤ is.length ∧
        ((expandLoop self prevHyps scorers filterIndices sel is ⟨A ++ B, beams⟩).error = none →
          news.length = is.length)
  | [], A, B, beams, _ =>
    ⟨A, [], by simp [expandLoop, beams_addAll_nil], Backfilled.refl _ _ _, by simp, by simp,
      by simp⟩
  | i :: is, A, B, beams, hvalid => by
    obtain ⟨A1, n1, hw1, hb1, hn1, hl1, he1⟩ :=
      expandOne_frame self prevHyps scorers filterIndices sel i A B beams hvalid
    have hb1' : Backfilled scorers.length
        (fun q => self.returnNBestList_ = true ∧ 2 ≤ scorers.length ∧
          ∃ j ∈ i :: is, prevHyps[sel.bestKeys.getD j 0 / sel.Probs.columns]? = some q) A A1 :=
      hb1.mono (fun q ⟨a, b, c⟩ => ⟨a, b, i, List.mem_cons_self _ _, c⟩)
    simp only [expandLoop]
    cases hout : expandOne self prevHyps scorers filterIndices sel i ⟨A ++ B, beams⟩ with
    | mk w1 err =>
      rw [hout] at hw1 he1
      simp only at hw1 he1
      cases err with
      | some e =>
        exact ⟨A1, n1, hw1, hb1', hn1, by simp only [List.length_cons]; omega,
          fun h => Option.noConfusion h⟩
      | none =>
        simp only
        have hlen1 := he1 rfl
        subst hw1
        obtain ⟨A2, n2, hw2, hb2, hn2, hl2, he2⟩ :=
          expandLoop_frame self prevHyps scorers filterIndices sel is A1 (B ++ n1)
            (beams.AddAll 0 (List.range' (A.length + B.length) n1.length))
            (fun p hp => by rw [hb1.1]; exact hvalid p hp)
        refine ⟨A2, n1 ++ n2, ?_, ?_, ?_, ?_, ?_⟩
        · rw [hw2, beams_addAll_addAll]
          simp only [List.append_assoc, List.length_append, hb1.1, World.mk.injEq, true_and]
          rw [← Nat.add_assoc, List.range'_append_1, Nat.add_comm n2.length]
        · exact hb1'.trans
            (hb2.mono (fun q ⟨a, b, j, hj, c⟩ => ⟨a, b, j, List.mem_cons_of_mem _ hj, c⟩))
        · intro h hh
          rcases List.mem_append.1 hh with h1 | h2
          · exact hn1 h h1
          · exact hn2 h h2
        · simp only [List.length_append, List.length_cons]; omega
        · intro herr
          simp only [List.length_append, List.length_cons, he2 herr, hlen1]
          omega

theorem readCosts_valid (heap : List Hypothesis) :
    ∀ (ptrs : List HypothesisPtr) (cs : List ℚ), readCosts heap ptrs = .ok cs →
      ∀ p ∈ ptrs, p < heap.length
  | [], _, _ => by simp
  | q :: ps, cs, h => by
    simp only [readCosts] at h
    cases hq : heap[q]? with
    | none => rw [hq] at h; exact Except.noConfusion h
    | some hy =>
      rw [hq] at h
      simp only at h
      cases hr : readCosts heap ps with
      | error e => rw [hr] at h; exact Except.noConfusion h
      | ok cs1 =>
        intro p hp
        rcases List.mem_cons.1 hp with rfl | hp1
        · by_contra hcon
          rw [List.getElem?_eq_none (Nat.le_of_not_lt hcon)] at hq
          exact Option.noConfusion hq
        · exact readCosts_valid heap ps cs1 hr p hp1

/-- When lines 48-98 succeed, every element of `prevHyps` has been dereferenced:
it is an address of the heap. -/
theorem selectBest_valid (self : BestHyps) (nth_element : NthElement)
    (heap : List Hypothesis) (prevHyps : List HypothesisPtr) (scorers : List Scorer)
    (beamSize : Nat) (sel : Selection)
    (h : selectBest self nth_element heap prevHyps scorers beamSize = .ok sel) :
    ∀ p ∈ prevHyps, p < heap.length := by
  simp only [selectBest] at h
  cases hj : jointProbs self heap prevHyps scorers with
  | error e => rw [hj] at h; exact Except.noConfusion h
  | ok J =>
    cases scorers with
    | nil => simp [jointProbs] at hj
    | cons s0 rest =>
      simp only [jointProbs] at hj
      cases hf : fillCosts heap prevHyps s0.probs.rows with
      | error e => rw [hf] at hj; exact Except.noConfusion hj
      | ok c =>
        simp only [fillCosts] at hf
        cases hr : readCosts heap (prevHyps.take s0.probs.rows) with
        | error e => rw [hr] at hf; exact Except.noConfusion hf
        | ok cs =>
          rw [hr] at hf
          simp only at hf
          split at hf
          · rename_i hle
            have := readCosts_valid heap _ cs hr
            rw [List.take_of_length_le hle] at this
            exact this
          · exact Except.noConfusion hf

/-- The frame of a call, on any input: the heap keeps its cells, each as it was or
backfilled (the latter only in n-best mode with two scorers or more, for a parent
of a selected key whose breakdown was shorter than the number of scorers), followed
by the appended hypotheses, at most `beamSize` of them, each with its parent in
`prevHyps`; the beam of sentence 0 gains their addresses and no other beam
changes. -/
theorem CalcBeam_frame (self : BestHyps) (nth_element : NthElement)
    (prevHyps : List HypothesisPtr) (scorers : List Scorer) (filterIndices : Words)
    (beamSize : Nat) (w : World) :
    ∃ A1 news,
      (CalcBeam self nth_element prevHyps scorers filterIndices beamSize w).world =
        ⟨A1 ++ news, w.beams.AddAll 0 (List.range' w.heap.length news.length)⟩ ∧
      Backfilled scorers.length
        (fun q => self.returnNBestList_ = true ∧ 2 ≤ scorers.length ∧
          ∃ sel, selectBest self nth_element w.heap prevHyps scorers beamSize = .ok sel ∧
            ∃ i, i < beamSize ∧
              prevHyps[sel.bestKeys.getD i 0 / sel.Probs.columns]? = some q) w.heap A1 ∧
      (∀ h ∈ news, ∃ p, h.prevHyp = some p ∧ p ∈ prevHyps ∧ p < w.heap.length) ∧
      news.length ≤ beamSize ∧
      ((CalcBeam self nth_element prevHyps scorers filterIndices beamSize w).error = none →
        news.length = beamSize) := by
  simp only [CalcBeam]
  cases hsel : selectBest self nth_element w.heap prevHyps scorers beamSize with
  | error e =>
    exact ⟨w.heap, [], by simp [beams_addAll_nil], Backfilled.refl _ _ _, by simp, by simp,
      by simp⟩
  | ok sel =>
    simp only
    have hvalid := selectBest_valid self nth_element w.heap prevHyps scorers beamSize sel hsel
    obtain ⟨A1, news, hw, hb, hn, hl, he⟩ := expandLoop_frame self prevHyps scorers
      filterIndices sel (List.range beamSize) w.heap [] w.beams hvalid
    simp only [List.append_nil, List.nil_append, List.length_nil, Nat.add_zero,
      List.length_range] at hw hl he
    refine ⟨A1, news, hw, ?_, ?_, hl, he⟩
    · exact hb.mono (fun q ⟨a, b, i, hi, c⟩ => ⟨a, b, sel, rfl, i, List.mem_range.1 hi, c⟩)
    · intro h hh
      obtain ⟨p, hp, hmem⟩ := hn h hh
      exact ⟨p, hp, hmem, hvalid p hmem⟩

/-! ## C11: lineage depth -/

theorem backfill_prevHyp (n : Nat) (h : Hypothesis) : (backfill n h).prevHyp = h.prevHyp := by
  unfold backfill
  split <;> rfl

/-- The depth of a hypothesis only depends on the parent links of the heap. -/
theorem hasDepth_of_agree (H0 H1 : List Hypothesis)
    (hagree : ∀ (q : HypothesisPtr) (h : Hypothesis), H0[q]? = some h →
      ∃ h1 : Hypothesis, H1[q]? = some h1 ∧ h1.prevHyp = h.prevHyp) :
    ∀ (n : Nat) (p : HypothesisPtr), hasDepth H0 n p = true → hasDepth H1 n p = true
  | 0, p, h => by
    simp only [hasDepth] at h ⊢
    cases hp : H0[p]? with
    | none => rw [hp] at h; exact Bool.noConfusion h
    | some c =>
      rw [hp] at h
      obtain ⟨c1, hc1, hpar⟩ := hagree p c hp
      rw [hc1]
      simp only at h ⊢
      rw [hpar]; exact h
  | n + 1, p, h => by
    simp only [hasDepth] at h ⊢
    cases hp : H0[p]? with
    | none => rw [hp] at h; exact Bool.noConfusion h
    | some c =>
      rw [hp] at h
      obtain ⟨c1, hc1, hpar⟩ := hagree p c hp
      rw [hc1]
      simp only at h ⊢
      rw [hpar]
      cases hq : c.prevHyp with
      | none => rw [hq] at h; exact Bool.noConfusion h
      | some q =>
        rw [hq] at h
        exact hasDepth_of_agree H0 H1 hagree n q h

/-- A hypothesis has one depth only. -/
theorem hasDepth_unique (H : List Hypothesis) :
    ∀ (n m : Nat) (p : HypothesisPtr), hasDepth H n p = true → hasDepth H m p = true → n = m
  | 0, 0, _, _, _ => rfl
  | 0, m + 1, p, h0, h1 => by
    simp only [hasDepth] at h0 h1
    cases hp : H[p]? with
    | none => rw [hp] at h0; exact Bool.noConfusion h0
    | some c =>
      rw [hp] at h0 h1
      simp only at h0 h1
      cases hq : c.prevHyp with
      | none => rw [hq] at h1; exact Bool.noConfusion h1
      | some q => rw [hq] at h0; exact Bool.noConfusion h0
  | n + 1, 0, p, h0, h1 => by
    simp only [hasDepth] at h0 h1
    cases hp : H[p]? with
    | none => rw [hp] at h0; exact Bool.noConfusion h0
    | some c =>
      rw [hp] at h0 h1
      simp only at h0 h1
      cases hq : c.prevHyp with
      | none => rw [hq] at h0; exact Bool.noConfusion h0
      | some q => rw [hq] at h1; exact Bool.noConfusion h1
  | n + 1, m + 1, p, h0, h1 => by
    simp only [hasDepth] at h0 h1
    cases hp : H[p]? with
    | none => rw [hp] at h0; exact Bool.noConfusion h0
    | some c =>
      rw [hp] at h0 h1
      simp only at h0 h1
      cases hq : c.prevHyp with
      | none => rw [hq] at h0; exact Bool.noConfusion h0
      | some q =>
        rw [hq] at h0 h1
        rw [hasDepth_unique H n m q h0 h1]

/-- The `k`-th ancestor of a hypothesis of depth `n` exists only for `k ≤ n`, and
has depth `n - k`. -/
theorem hasDepth_ancestorAt (H : List Hypothesis) :
    ∀ (k n : Nat) (p q : HypothesisPtr), hasDepth H n p = true →
      ancestorAt H k p = some q → k ≤ n ∧ hasDepth H (n - k) q = true
  | 0, n, p, q, h, ha => by
    simp only [ancestorAt] at ha
    split at ha
    · rw [← Option.some.inj ha]; exact ⟨Nat.zero_le _, h⟩
    · exact Option.noConfusion ha
  | k + 1, n, p, q, h, ha => by
    simp only [ancestorAt] at ha
    cases hp : H[p]? with
    | none => rw [hp] at ha; exact Option.noConfusion ha
    | some c =>
      rw [hp] at ha
      simp only at ha
      cases hq : c.prevHyp with
      | none => rw [hq] at ha; exact Option.noConfusion ha
      | some p1 =>
        rw [hq] at ha
        simp only at ha
        cases n with
        | zero =>
          simp only [hasDepth, hp, hq] at h
          exact Bool.noConfusion h
        | succ n1 =>
          simp only [hasDepth, hp, hq] at h
          obtain ⟨hk, hd⟩ := hasDepth_ancestorAt H k n1 p1 q h ha
          exact ⟨Nat.succ_le_succ hk, by rw [Nat.succ_sub_succ]; exact hd⟩

/-- The parent chain of a hypothesis that has a depth never comes back to it. -/
theorem hasDepth_acyclic (H : List Hypothesis) (n : Nat) (p : HypothesisPtr)
    (h : hasDepth H n p = true) (k : Nat) (hk : 1 ≤ k) : ancestorAt H k p ≠ some p := by
  intro ha
  obtain ⟨hkn, hd⟩ := hasDepth_ancestorAt H k n p p h ha
  have := hasDepth_unique H n (n - k) p h hd
  omega

/-- One call and the lineage: the hypotheses already in the heap keep their depth;
if the previous hypotheses have depth `n`, every appended hypothesis has its parent
in `prevHyps` and depth `n + 1`; the beam of sentence 0 gains exactly the addresses
of the appended hypotheses. -/
theorem CalcBeam_depth (self : BestHyps) (nth_element : NthElement)
    (prevHyps : List HypothesisPtr) (scorers : List Scorer) (filterIndices : Words)
    (beamSize : Nat) (w : World) (n : Nat)
    (hdepth : ∀ p ∈ prevHyps, hasDepth w.heap n p = true) :
    w.heap.length ≤
      (CalcBeam self nth_element prevHyps scorers filterIndices beamSize w).world.heap.length ∧
    (CalcBeam self nth_element prevHyps scorers filterIndices beamSize w).world.beams =
      w.beams.AddAll 0 (List.range' w.heap.length
        ((CalcBeam self nth_element prevHyps scorers filterIndices beamSize
          w).world.heap.length - w.heap.length)) ∧
    (∀ p m, hasDepth w.heap m p = true →
      hasDepth (CalcBeam self nth_element prevHyps scorers filterIndices beamSize
        w).world.heap m p = true) ∧
    ∀ q, w.heap.length ≤ q →
      q < (CalcBeam self nth_element prevHyps scorers filterIndices beamSize
        w).world.heap.length →
      hasDepth (CalcBeam self nth_element prevHyps scorers filterIndices beamSize
        w).world.heap (n + 1) q = true ∧
      ∃ h p, (CalcBeam self nth_element prevHyps scorers filterIndices beamSize
          w).world.heap[q]? = some h ∧ h.prevHyp = some p ∧ p ∈ prevHyps := by
  obtain ⟨A1, news, hw, hb, hn, _, _⟩ := CalcBeam_frame self nth_element prevHyps scorers
    filterIndices beamSize w
  rw [hw]
  simp only [List.length_append, hb.1, Nat.add_sub_cancel_left, Nat.le_add_right, true_and]
  have hagree : ∀ (q : HypothesisPtr) (h : Hypothesis), w.heap[q]? = some h →
      ∃ h1 : Hypothesis, (A1 ++ news)[q]? = some h1 ∧ h1.prevHyp = h.prevHyp := by
    intro q h hq
    have hqlt : q < A1.length := by
      rw [hb.1]
      by_contra hcon
      rw [List.getElem?_eq_none (Nat.le_of_not_lt hcon)] at hq
      exact Option.noConfusion hq
    rw [List.getElem?_append_left hqlt]
    rcases hb.2 q h hq with h1 | ⟨h1, _, _⟩
    · exact ⟨h, h1, rfl⟩
    · exact ⟨_, h1, backfill_prevHyp _ _⟩
  have hold : ∀ p m, hasDepth w.heap m p = true → hasDepth (A1 ++ news) m p = true :=
    fun p m h => hasDepth_of_agree w.heap (A1 ++ news) hagree m p h
  refine ⟨hold, ?_⟩
  intro q hq1 hq2
  have hq3 : q - A1.length < news.length := by rw [hb.1]; omega
  have hcell : (A1 ++ news)[q]? = some (news.get ⟨q - A1.length, hq3⟩) := by
    rw [List.getElem?_append_right (by rw [hb.1]; exact hq1), List.getElem?_eq_getElem hq3]
    rfl
  obtain ⟨p, hp, hmem, _⟩ := hn _ (List.get_mem news _ hq3)
  refine ⟨?_, _, p, hcell, hp, hmem⟩
  simp only [hasDepth, hcell, hp]
  exact hold p n (hdepth p hmem)

/-- Successive steps and the lineage: starting from previous hypotheses of depth `d`,
after a run of the steps without error the last previous hypotheses have depth
`d` plus the number of steps. -/
theorem decodeSteps_depth (self : BestHyps) (nth_element : NthElement) :
    ∀ (steps : List Step) (prevHyps : List HypothesisPtr) (heap : List Hypothesis) (d : Nat),
      (∀ p ∈ prevHyps, hasDepth heap d p = true) →
      (decodeSteps self nth_element steps prevHyps heap).2.error = none →
      ∀ p ∈ (decodeSteps self nth_element steps prevHyps heap).1,
        hasDepth (decodeSteps self nth_element steps prevHyps heap).2.world.heap
          (d + steps.length) p = true
  | [], prevHyps, heap, d, hd, _ => by
    simpa [decodeSteps] using hd
  | s :: rest, prevHyps, heap, d, hd, herr => by
    obtain ⟨hlen, hbeams, _, hnew⟩ := CalcBeam_depth self nth_element prevHyps s.scorers
      s.filterIndices s.beamSize ⟨heap, fun _ => []⟩ d hd
    simp only [decodeSteps] at herr ⊢
    cases hout : CalcBeam self nth_element prevHyps s.scorers s.filterIndices s.beamSize
        ⟨heap, fun _ => []⟩ with
    | mk w1 err =>
      rw [hout] at hlen hbeams hnew herr
      simp only at hlen hbeams hnew herr ⊢
      cases err with
      | some e => exact absurd herr (by simp)
      | none =>
        simp only at herr ⊢
        have hnext : ∀ p ∈ w1.beams 0, hasDepth w1.heap (d + 1) p = true := by
          intro p hp
          rw [hbeams] at hp
          simp only [Beams.AddAll, if_true, List.nil_append, List.mem_range'_1] at hp
          exact (hnew p hp.1 (by omega)).1
        have ih := decodeSteps_depth self nth_element rest (w1.beams 0) w1.heap (d + 1)
          hnext herr
        rw [List.length_cons, Nat.add_comm rest.length 1, ← Nat.add_assoc]
        exact ih

/-- C11. Lineage depth.  If every hypothesis of `prevHyps` has exactly `n` ancestors
up to a root, every hypothesis appended by one call (the cells the heap gains,
whose addresses the beam of sentence 0 gains) has its parent in `prevHyps`, has
exactly `n + 1` ancestors, and its parent chain never comes back to it.
Consequently, after a run of successive steps from root hypotheses, each step's
appended hypotheses being the next step's `prevHyps`, every hypothesis of the last
step has exactly as many ancestors as there were steps, and an acyclic parent
chain. -/
theorem CalcBeam_lineage_depth (self : BestHyps) (nth_element : NthElement)
    (prevHyps : List HypothesisPtr) (scorers : List Scorer) (filterIndices : Words)
    (beamSize : Nat) (w : World) (n : Nat)
    (hdepth : ∀ p ∈ prevHyps, hasDepth w.heap n p = true) :
    ((CalcBeam self nth_element prevHyps scorers filterIndices beamSize w).world.beams 0 =
      w.beams 0 ++ List.range' w.heap.length
        ((CalcBeam self nth_element prevHyps scorers filterIndices beamSize
          w).world.heap.length - w.heap.length)) ∧
    (∀ q, w.heap.length ≤ q →
      q < (CalcBeam self nth_element prevHyps scorers filterIndices beamSize
        w).world.heap.length →
      (∃ h p, (CalcBeam self nth_element prevHyps scorers filterIndices beamSize
          w).world.heap[q]? = some h ∧ h.prevHyp = some p ∧ p ∈ prevHyps) ∧
      (∀ m, hasDepth (CalcBeam self nth_element prevHyps scorers filterIndices beamSize
          w).world.heap m q = true ↔ m = n + 1) ∧
      ∀ k, 1 ≤ k →
        ancestorAt (CalcBeam self nth_element prevHyps scorers filterIndices beamSize
          w).world.heap k q ≠ some q) ∧
    ∀ (steps : List Step) (roots : List HypothesisPtr) (heap : List Hypothesis),
      (∀ p ∈ roots, hasDepth heap 0 p = true) →
      (decodeSteps self nth_element steps roots heap).2.error = none →
      ∀ p ∈ (decodeSteps self nth_element steps roots heap).1,
        (∀ m, hasDepth (decodeSteps self nth_element steps roots heap).2.world.heap m p = true ↔
          m = steps.length) ∧
        ∀ k, 1 ≤ k →
          ancestorAt (decodeSteps self nth_element steps roots heap).2.world.heap k p ≠
            some p := by
  obtain ⟨_, hbeams, _, hnew⟩ := CalcBeam_depth self nth_element prevHyps scorers
    filterIndices beamSize w n hdepth
  refine ⟨?_, ?_, ?_⟩
  · rw [hbeams]; simp [Beams.AddAll]
  · intro q hq1 hq2
    obtain ⟨hd, hpar⟩ := hnew q hq1 hq2
    refine ⟨hpar, ?_, hasDepth_acyclic _ _ _ hd⟩
    intro m
    exact ⟨fun hm => hasDepth_unique _ _ _ _ hm hd, fun hm => hm ▸ hd⟩
  · intro steps roots heap hroots herr p hp
    have hd := decodeSteps_depth self nth_element steps roots heap 0 hroots herr p hp
    rw [Nat.zero_add] at hd
    refine ⟨?_, hasDepth_acyclic _ _ _ hd⟩
    intro m
    exact ⟨fun hm => hasDepth_unique _ _ _ _ hm hd, fun hm => hm ▸ hd⟩

theorem CalcBeam_lineage_depth_witness :
    (decodeSteps scenarioSelf sortedNthElement [scenarioStep, scenarioStep] [0, 1]
        scenarioHeap).1 = [4, 5] ∧
    ((decodeSteps scenarioSelf sortedNthElement [scenarioStep, scenarioStep] [0, 1]
        scenarioHeap).2.world.heap.map (fun hyp => (hyp.prevHyp, hyp.word, hyp.cost))) =
      [(none, 0, 0), (none, 0, -1), (some 0, 1, 9/10), (some 0, 2, 2/10),
        (some 2, 1, 18/10), (some 2, 2, 11/10)] ∧
    (∀ p ∈ (decodeSteps scenarioSelf sortedNthElement [scenarioStep, scenarioStep] [0, 1]
        scenarioHeap).1,
      (∀ m, hasDepth (decodeSteps scenarioSelf sortedNthElement [scenarioStep, scenarioStep]
          [0, 1] scenarioHeap).2.world.heap m p = true ↔ m = 2) ∧
      ∀ k, 1 ≤ k →
        ancestorAt (decodeSteps scenarioSelf sortedNthElement [scenarioStep, scenarioStep]
          [0, 1] scenarioHeap).2.world.heap k p ≠ some p) ∧
    ∀ q, scenarioWorld.heap.length ≤ q →
      q < (CalcBeam scenarioSelf sortedNthElement [0, 1] scenarioScorers [] 2
        scenarioWorld).world.heap.length →
      (∃ h p, (CalcBeam scenarioSelf sortedNthElement [0, 1] scenarioScorers [] 2
          scenarioWorld).world.heap[q]? = some h ∧ h.prevHyp = some p ∧ p ∈ [0, 1]) ∧
      (∀ m, hasDepth (CalcBeam scenarioSelf sortedNthElement [0, 1] scenarioScorers [] 2
          scenarioWorld).world.heap m q = true ↔ m = 0 + 1) ∧
      ∀ k, 1 ≤ k →
        ancestorAt (CalcBeam scenarioSelf sortedNthElement [0, 1] scenarioScorers [] 2
          scenarioWorld).world.heap k q ≠ some q :=
  ⟨by with_unfolding_all rfl, by with_unfolding_all rfl,
   (CalcBeam_lineage_depth scenarioSelf sortedNthElement [0, 1] scenarioScorers [] 2
      scenarioWorld 0 (by decide)).2.2 [scenarioStep, scenarioStep] [0, 1] scenarioHeap
      (by decide) (by with_unfolding_all rfl),
   (CalcBeam_lineage_depth scenarioSelf sortedNthElement [0, 1] scenarioScorers [] 2
      scenarioWorld 0 (by decide)).2.1⟩

/-! ## C12: the parent backfill is the only mutation -/

/-- Backfilling a breakdown shorter than `n` appends zeros up to length `n` and
changes nothing else. -/
theorem backfill_of_lt (n : Nat) (h : Hypothesis) (hlt : h.costBreakdown.length < n) :
    backfill n h =
      { h with costBreakdown :=
          h.costBreakdown ++ List.replicate (n - h.costBreakdown.length) 0 } := by
  unfold backfill
  rw [if_pos hlt]
  simp only [resize, List.take_of_length_le (Nat.le_of_lt hlt)]

/-- C12. Parent backfill is the only mutation of previous hypotheses.  On any input,
a hypothesis that was in the heap before the call (every element of `prevHyps`
that the call can read is one) is, after the call, either exactly as it was, or
differs only by zeros appended to its cost breakdown up to length
`scorers.size()`; the latter happens only in n-best mode, with two scorers or
more, for the parent of a selected candidate whose breakdown was shorter than
`scorers.size()`.  Token, cost, parent link, alignments and the existing breakdown
entries are unchanged.  With n-best mode off every hypothesis is exactly as it
was. -/
theorem CalcBeam_backfill_only (self : BestHyps) (nth_element : NthElement)
    (prevHyps : List HypothesisPtr) (scorers : List Scorer) (filterIndices : Words)
    (beamSize : Nat) (w : World) :
    (∀ (q : HypothesisPtr) (h : Hypothesis), w.heap[q]? = some h →
      (CalcBeam self nth_element prevHyps scorers filterIndices beamSize w).world.heap[q]? =
        some h ∨
      (self.returnNBestList_ = true ∧ 2 ≤ scorers.length ∧
        (∃ sel i, selectBest self nth_element w.heap prevHyps scorers beamSize = .ok sel ∧
          i < beamSize ∧ prevHyps[sel.bestKeys.getD i 0 / sel.Probs.columns]? = some q) ∧
        h.costBreakdown.length < scorers.length ∧
        ∃ h1 : Hypothesis,
          (CalcBeam self nth_element prevHyps scorers filterIndices beamSize
            w).world.heap[q]? = some h1 ∧
          h1.word = h.word ∧ h1.cost = h.cost ∧ h1.prevHyp = h.prevHyp ∧
          h1.prevIndex = h.prevIndex ∧ h1.alignments = h.alignments ∧
          h1.costBreakdown =
            h.costBreakdown ++ List.replicate (scorers.length - h.costBreakdown.length) 0)) ∧
    (self.returnNBestList_ = false →
      ∀ (q : HypothesisPtr) (h : Hypothesis), w.heap[q]? = some h →
        (CalcBeam self nth_element prevHyps scorers filterIndices beamSize w).world.heap[q]? =
          some h) := by
  obtain ⟨A1, news, hw, hb, _, _, _⟩ := CalcBeam_frame self nth_element prevHyps scorers
    filterIndices beamSize w
  have hmain : ∀ (q : HypothesisPtr) (h : Hypothesis), w.heap[q]? = some h →
      (CalcBeam self nth_element prevHyps scorers filterIndices beamSize w).world.heap[q]? =
        some h ∨
      (self.returnNBestList_ = true ∧ 2 ≤ scorers.length ∧
        (∃ sel i, selectBest self nth_element w.heap prevHyps scorers beamSize = .ok sel ∧
          i < beamSize ∧ prevHyps[sel.bestKeys.getD i 0 / sel.Probs.columns]? = some q) ∧
        h.costBreakdown.length < scorers.length ∧
        ∃ h1 : Hypothesis,
          (CalcBeam self nth_element prevHyps scorers filterIndices beamSize
            w).world.heap[q]? = some h1 ∧
          h1.word = h.word ∧ h1.cost = h.cost ∧ h1.prevHyp = h.prevHyp ∧
          h1.prevIndex = h.prevIndex ∧ h1.alignments = h.alignments ∧
          h1.costBreakdown =
            h.costBreakdown ++ List.replicate (scorers.length - h.costBreakdown.length) 0) := by
    intro q h hq
    have hqlt : q < A1.length := by
      rw [hb.1]
      by_contra hcon
      rw [List.getElem?_eq_none (Nat.le_of_not_lt hcon)] at hq
      exact Option.noConfusion hq
    rw [hw]
    simp only [List.getElem?_append_left hqlt]
    rcases hb.2 q h hq with h1 | ⟨h1, hlen, hn, h2, sel, hsel, i, hi, hpar⟩
    · exact Or.inl h1
    · refine Or.inr ⟨hn, h2, ⟨sel, i, hsel, hi, hpar⟩, hlen, backfill scorers.length h, h1, ?_⟩
      rw [backfill_of_lt _ _ hlen]
      exact ⟨rfl, rfl, rfl, rfl, rfl, rfl⟩
  refine ⟨hmain, ?_⟩
  intro hoff q h hq
  rcases hmain q h hq with h1 | ⟨hn, _⟩
  · exact h1
  · rw [hoff] at hn; exact Bool.noConfusion hn

theorem CalcBeam_backfill_only_witness :
    (CalcBeam ensembleSelf sortedNthElement [0, 1] ensembleScorers [] 2
        scenarioWorld).world.heap.take 2 =
      [⟨none, 0, 0, 0, [], [0, 0]⟩, ⟨none, 0, 0, -1, [], [0, 0]⟩] ∧
    (CalcBeam scenarioSelf sortedNthElement [0, 1] scenarioScorers [] 2
        scenarioWorld).world.heap.take 2 = scenarioHeap ∧
    ((CalcBeam ensembleSelf sortedNthElement [0, 1] ensembleScorers [] 2
        scenarioWorld).world.heap[1]? = some ⟨none, 0, 0, -1, [], []⟩ ∨
      (ensembleSelf.returnNBestList_ = true ∧ 2 ≤ ensembleScorers.length ∧
        (∃ sel i, selectBest ensembleSelf sortedNthElement scenarioWorld.heap [0, 1]
            ensembleScorers 2 = .ok sel ∧
          i < 2 ∧ [0, 1][sel.bestKeys.getD i 0 / sel.Probs.columns]? = some 1) ∧
        (⟨none, 0, 0, -1, [], []⟩ : Hypothesis).costBreakdown.length < ensembleScorers.length ∧
        ∃ h1 : Hypothesis,
          (CalcBeam ensembleSelf sortedNthElement [0, 1] ensembleScorers [] 2
            scenarioWorld).world.heap[1]? = some h1 ∧
          h1.word = 0 ∧ h1.cost = -1 ∧ h1.prevHyp = none ∧
          h1.prevIndex = 0 ∧ h1.alignments = [] ∧
          h1.costBreakdown = [] ++ List.replicate (ensembleScorers.length - 0) 0)) :=
  ⟨by with_unfolding_all rfl, by with_unfolding_all rfl,
   (CalcBeam_backfill_only ensembleSelf sortedNthElement [0, 1] ensembleScorers [] 2
      scenarioWorld).1 1 ⟨none, 0, 0, -1, [], []⟩ rfl⟩

/-! ## C13: the offset of the per-model cost table -/

theorem overwriteFirst_length (scorers : List Scorer) (Probs : ArrayMatrix) :
    (overwriteFirst scorers Probs).length = scorers.length := by
  cases scorers <;> rfl

theorem overwriteFirst_zero (scorers : List Scorer) (Probs : ArrayMatrix) (s : Scorer)
    (h : (overwriteFirst scorers Probs)[0]? = some s) : s.probs = Probs := by
  cases scorers with
  | nil => simp [overwriteFirst] at h
  | cons s0 rest =>
    simp only [overwriteFirst, List.getElem?_cons_zero, Option.some.injEq] at h
    rw [← h]

theorem overwriteFirst_succ (scorers : List Scorer) (Probs : ArrayMatrix) (j : Nat) :
    (overwriteFirst scorers Probs)[j + 1]? = scorers[j + 1]? := by
  cases scorers with
  | nil => rfl
  | cons s0 rest => simp only [overwriteFirst, List.getElem?_cons_succ]

/-- C13. Offset of the per-model cost table in n-best mode, on well-formed input.
The table `breakDowns` has `scorers.size() + 1` rows: row 0 holds the selected
joint costs, row `j + 1` holds the matrix of scorer `j` read at the selected keys,
the matrix of scorer 0 being the joint matrix by then.  Hence, for every appended
hypothesis and every `j ≥ 1`, breakdown entry `j` is the parent's entry `j` (zero
beyond its length) plus the cell of the matrix of scorer `j - 1` at the selected
key; with two scorers or more, entry 1 is the parent's entry 1 plus the
hypothesis's own cumulative joint cost. -/
theorem CalcBeam_breakdown_table_offset (self : BestHyps) (nth_element : NthElement)
    (prevHyps : List HypothesisPtr) (scorers : List Scorer) (filterIndices : Words)
    (beamSize : Nat) (w : World) (rows V : Nat)
    (hne : NthElementContract nth_element)
    (hwf : WellFormed self prevHyps scorers filterIndices beamSize w.heap rows V)
    (hnbest : self.returnNBestList_ = true) :
    ∃ sel, selectBest self nth_element w.heap prevHyps scorers beamSize = .ok sel ∧
      sel.breakDowns.length = scorers.length + 1 ∧
      sel.breakDowns[0]? = some sel.bestCosts ∧
      sel.bestCosts = sel.bestKeys.map sel.Probs.cell ∧
      (∀ j, j < scorers.length → ∃ s, (overwriteFirst scorers sel.Probs)[j]? = some s ∧
        sel.breakDowns[j + 1]? = some (sel.bestKeys.map s.probs.cell) ∧
        (j = 0 → s.probs = sel.Probs) ∧ (1 ≤ j → scorers[j]? = some s)) ∧
      ∀ i, i < beamSize → ∃ hyp,
        (CalcBeam self nth_element prevHyps scorers filterIndices beamSize
            w).world.heap[w.heap.length + i]? = some hyp ∧
        hyp.prevHyp = some (parentOf prevHyps sel i) ∧
        hyp.cost = sel.Probs.cell (sel.bestKeys.getD i 0) ∧
        (∀ j, 1 ≤ j → j < scorers.length →
          ∃ s, (overwriteFirst scorers sel.Probs)[j - 1]? = some s ∧
            hyp.costBreakdown.getD j 0 =
              (breakdownAt w.heap (parentOf prevHyps sel i)).getD j 0 +
                s.probs.cell (sel.bestKeys.getD i 0)) ∧
        (2 ≤ scorers.length →
          hyp.costBreakdown.getD 1 0 =
            (breakdownAt w.heap (parentOf prevHyps sel i)).getD 1 0 + hyp.cost) := by
  obtain ⟨sel, hsel, hspec, _, _, _, hnew⟩ := CalcBeam_appended self nth_element
    prevHyps scorers filterIndices beamSize w rows V hne hwf
  have hbd : sel.breakDowns = sel.bestCosts ::
      (overwriteFirst scorers sel.Probs).map (fun s => sel.bestKeys.map s.probs.cell) := by
    rw [hspec.breakDowns, if_pos hnbest]
  refine ⟨sel, hsel, ?_, ?_, hspec.costs, ?_, ?_⟩
  · rw [hbd]; simp [overwriteFirst_length]
  · rw [hbd, List.getElem?_cons_zero]
  · intro j hj
    have hj1 : j < (overwriteFirst scorers sel.Probs).length := by
      rw [overwriteFirst_length]; exact hj
    refine ⟨(overwriteFirst scorers sel.Probs)[j], List.getElem?_eq_getElem hj1, ?_, ?_, ?_⟩
    · rw [hbd, List.getElem?_cons_succ, List.getElem?_map, List.getElem?_eq_getElem hj1]
      rfl
    · intro h0
      subst h0
      exact overwriteFirst_zero scorers sel.Probs _ (List.getElem?_eq_getElem hj1)
    · intro h1
      obtain ⟨t, rfl⟩ : ∃ t, j = t + 1 := ⟨j - 1, by omega⟩
      rw [← overwriteFirst_succ scorers sel.Probs t]
      exact List.getElem?_eq_getElem hj1
  · intro i hi
    have hik : i < sel.bestKeys.length := by rw [hspec.length]; exact hi
    have hcost : (newHypothesis self prevHyps scorers filterIndices sel i
        (breakdownAt w.heap (parentOf prevHyps sel i))).cost =
          sel.Probs.cell (sel.bestKeys.getD i 0) := bestCosts_getD sel i hspec.costs hik
    have hentry : ∀ j, 1 ≤ j → j < scorers.length →
        ∃ s, (overwriteFirst scorers sel.Probs)[j - 1]? = some s ∧
          (newHypothesis self prevHyps scorers filterIndices sel i
            (breakdownAt w.heap (parentOf prevHyps sel i))).costBreakdown.getD j 0 =
            (breakdownAt w.heap (parentOf prevHyps sel i)).getD j 0 +
              s.probs.cell (sel.bestKeys.getD i 0) := by
      intro j hj1 hj
      have hjl : j - 1 < (overwriteFirst scorers sel.Probs).length := by
        rw [overwriteFirst_length]; omega
      refine ⟨_, List.getElem?_eq_getElem hjl, ?_⟩
      rw [newHypothesis_breakdown_entry self prevHyps scorers filterIndices beamSize w.heap
        rows V sel _ hspec hnbest i hi j hj1 hj, List.getElem?_eq_getElem hjl,
        Option.map_some', Option.getD_some, add_comm]
    refine ⟨_, hnew i hi, rfl, hcost, hentry, ?_⟩
    intro h2
    obtain ⟨s, hs, he⟩ := hentry 1 (Nat.le_refl 1) (by omega)
    rw [he, hcost, overwriteFirst_zero scorers sel.Probs s hs]

theorem CalcBeam_breakdown_table_offset_witness :
    (∃ sel, selectBest ensembleSelf sortedNthElement scenarioWorld.heap [0, 1]
        ensembleScorers 2 = .ok sel ∧ sel.bestKeys = [5, 1] ∧
      sel.breakDowns = [[41/20, 19/10], [41/20, 19/10], [6, 2]]) ∧
    ∃ sel, selectBest ensembleSelf sortedNthElement scenarioWorld.heap [0, 1]
        ensembleScorers 2 = .ok sel ∧
      sel.breakDowns.length = ensembleScorers.length + 1 ∧
      sel.breakDowns[0]? = some sel.bestCosts ∧
      sel.bestCosts = sel.bestKeys.map sel.Probs.cell ∧
      (∀ j, j < ensembleScorers.length →
        ∃ s, (overwriteFirst ensembleScorers sel.Probs)[j]? = some s ∧
          sel.breakDowns[j + 1]? = some (sel.bestKeys.map s.probs.cell) ∧
          (j = 0 → s.probs = sel.Probs) ∧ (1 ≤ j → ensembleScorers[j]? = some s)) ∧
      ∀ i, i < 2 → ∃ hyp,
        (CalcBeam ensembleSelf sortedNthElement [0, 1] ensembleScorers [] 2
            scenarioWorld).world.heap[scenarioWorld.heap.length + i]? = some hyp ∧
        hyp.prevHyp = some (parentOf [0, 1] sel i) ∧
        hyp.cost = sel.Probs.cell (sel.bestKeys.getD i 0) ∧
        (∀ j, 1 ≤ j → j < ensembleScorers.length →
          ∃ s, (overwriteFirst ensembleScorers sel.Probs)[j - 1]? = some s ∧
            hyp.costBreakdown.getD j 0 =
              (breakdownAt scenarioWorld.heap (parentOf [0, 1] sel i)).getD j 0 +
                s.probs.cell (sel.bestKeys.getD i 0)) ∧
        (2 ≤ ensembleScorers.length →
          hyp.costBreakdown.getD 1 0 =
            (breakdownAt scenarioWorld.heap (parentOf [0, 1] sel i)).getD 1 0 + hyp.cost) :=
  ⟨⟨_, rfl, by with_unfolding_all rfl, by with_unfolding_all rfl⟩,
   CalcBeam_breakdown_table_offset ensembleSelf sortedNthElement [0, 1] ensembleScorers [] 2
    scenarioWorld 2 3 sortedNthElement_contract ensemble_wellFormed rfl⟩

/-! ## C14: totality on well-formed input -/

theorem fillBreakDowns_keys (self : BestHyps) (scorers : List Scorer) (beamSize : Nat)
    (sel : Selection) : (fillBreakDowns self scorers beamSize sel).keys = sel.keys := by
  unfold fillBreakDowns
  split <;> rfl

/-- What a successful run of lines 48-98 has computed. -/
theorem selectBest_inv (self : BestHyps) (nth_element : NthElement) (heap : List Hypothesis)
    (prevHyps : List HypothesisPtr) (scorers : List Scorer) (beamSize : Nat)
    (sel : Selection)
    (h : selectBest self nth_element heap prevHyps scorers beamSize = .ok sel) :
    ∃ J, jointProbs self heap prevHyps scorers = .ok J ∧
      maskUNK self J = .ok sel.Probs ∧ beamSize ≤ J.rows * J.columns ∧
      sel.keys = nth_element (ProbCompare sel.Probs.data)
        (List.range (J.rows * J.columns)) beamSize ∧
      sel.bestKeys = sel.keys.take beamSize := by
  simp only [selectBest] at h
  cases hj : jointProbs self heap prevHyps scorers with
  | error e => rw [hj] at h; exact Except.noConfusion h
  | ok J =>
    rw [hj] at h
    simp only at h
    cases ht : topK self nth_element J beamSize with
    | error e => rw [ht] at h; exact Except.noConfusion h
    | ok sel0 =>
      rw [ht] at h
      simp only [Except.ok.injEq] at h
      simp only [topK] at ht
      cases hm : maskUNK self J with
      | error e => rw [hm] at ht; exact Except.noConfusion ht
      | ok P1 =>
        rw [hm] at ht
        simp only at ht
        split at ht
        · rename_i hk
          simp only [Except.ok.injEq] at ht
          subst ht
          subst h
          refine ⟨J, rfl, ?_, hk, ?_, ?_⟩
          · rw [(fillBreakDowns_fields _ _ _ _).1]; exact hm
          · rw [fillBreakDowns_keys, (fillBreakDowns_fields _ _ _ _).1]
          · rw [fillBreakDowns_keys, (fillBreakDowns_fields _ _ _ _).2.1]
        · exact Except.noConfusion ht

/-- The input with every option on is well-formed. -/
theorem full_wellFormed :
    WellFormed fullSelf [0, 1] fullScorers scenarioFilter 2 scenarioWorld.heap 2 3 where
  scorers_ne := by decide
  shape := by decide
  columns_pos := by decide
  prevHyps_length := rfl
  prevHyps_valid := by decide
  beamSize_le := by decide
  weights := by decide
  unk := by decide
  filter := by decide
  attention := by
    intro _ s hs
    simp only [fullScorers, List.mem_cons, List.mem_singleton, List.not_mem_nil,
      or_false] at hs
    rcases hs with rfl | rfl
    · exact ⟨_, rfl, by decide⟩
    · exact ⟨_, rfl, by decide⟩

/-- C14. Totality on well-formed input (at least one scorer, matrices of one shape
`rows × V` with `V > 0`, one live previous hypothesis per row, `k ≤ rows * V`, a
weight for every scorer, `UNK_ID < V` when UNK is forbidden, a filter table of at
least `V` entries when filtering is on, an attention of at least `rows` rows for
every scorer when alignments are asked for): the call completes without error
and appends `k` hypotheses, and every index it uses is in bounds: the cost
vector, the key array, the cells of the joint matrix and of every scorer's
matrix, `prevHyps.at(hypIndex)`, `filterIndices[wordIndex]`, the attention rows,
`breakDowns[j][i]` and the parent's breakdown entry `j`. -/
theorem CalcBeam_total (self : BestHyps) (nth_element : NthElement)
    (prevHyps : List HypothesisPtr) (scorers : List Scorer) (filterIndices : Words)
    (beamSize : Nat) (w : World) (rows V : Nat)
    (hne : NthElementContract nth_element)
    (hwf : WellFormed self prevHyps scorers filterIndices beamSize w.heap rows V) :
    (CalcBeam self nth_element prevHyps scorers filterIndices beamSize w).error = none ∧
    (CalcBeam self nth_element prevHyps scorers filterIndices beamSize w).world.heap.length =
      w.heap.length + beamSize ∧
    (CalcBeam self nth_element prevHyps scorers filterIndices beamSize w).world.beams 0 =
      w.beams 0 ++ List.range' w.heap.length beamSize ∧
    (∀ i, i < prevHyps.length → i < rows ∧ ∃ p parent, prevHyps[i]? = some p ∧
      w.heap[p]? = some parent) ∧
    ∃ sel, selectBest self nth_element w.heap prevHyps scorers beamSize = .ok sel ∧
      sel.keys.length = rows * V ∧ beamSize ≤ sel.keys.length ∧
      sel.Probs.data.length = rows * V ∧
      ∀ i, i < beamSize →
        sel.keys[i]? = some (sel.bestKeys.getD i 0) ∧
        sel.bestKeys.getD i 0 < sel.Probs.data.length ∧
        (∀ s ∈ overwriteFirst scorers sel.Probs,
          sel.bestKeys.getD i 0 < s.probs.data.length) ∧
        (∃ p parent, prevHyps[sel.bestKeys.getD i 0 / sel.Probs.columns]? = some p ∧
          w.heap[p]? = some parent ∧
          ∀ j, j < scorers.length → j < (backfill scorers.length parent).costBreakdown.length) ∧
        (self.isInputFiltered_ = true →
          sel.bestKeys.getD i 0 % sel.Probs.columns < filterIndices.length) ∧
        (self.returnAttentionWeights_ = true → ∀ s ∈ scorers, ∃ att,
          s.attention = some att ∧ sel.bestKeys.getD i 0 / sel.Probs.columns < att.rows) ∧
        (self.returnNBestList_ = true → ∀ j, j ≤ scorers.length →
          ∃ row, sel.breakDowns[j]? = some row ∧ i < row.length) := by
  obtain ⟨sel, hsel, hspec, herr, hlen, hbeams, _⟩ := CalcBeam_appended self nth_element
    prevHyps scorers filterIndices beamSize w rows V hne hwf
  obtain ⟨J, hJ, _, hk, hkeys, hbest⟩ := selectBest_inv self nth_element w.heap prevHyps
    scorers beamSize sel hsel
  obtain ⟨J1, hJ1, hJr, hJc, _, _⟩ := hspec.joint
  have hJJ : J1 = J := by rw [hJ] at hJ1; exact (Except.ok.inj hJ1).symm
  subst hJJ
  have hperm := (selected_keys_spec nth_element hne sel.Probs (J1.rows * J1.columns)
    beamSize hk).1
  rw [← hkeys, hJr, hJc] at hperm
  have hklen : sel.keys.length = rows * V := by simpa using hperm.length_eq
  have hPlen : sel.Probs.data.length = rows * V := by
    rw [← hspec.rows_eq, ← hspec.columns_eq]; exact hspec.wf
  have hheap : ∀ p ∈ prevHyps, ∃ parent, w.heap[p]? = some parent := fun p hp =>
    ⟨_, List.getElem?_eq_getElem (hwf.prevHyps_valid p hp)⟩
  refine ⟨herr, hlen, ?_, ?_, sel, hsel, hklen, ?_, hPlen, ?_⟩
  · rw [hbeams]; simp [Beams.AddAll]
  · intro i hi
    refine ⟨by rw [← hwf.prevHyps_length]; exact hi, prevHyps[i], ?_⟩
    obtain ⟨parent, hp⟩ := hheap _ (List.getElem_mem hi)
    exact ⟨parent, List.getElem?_eq_getElem hi, hp⟩
  · rw [hklen]; exact hwf.beamSize_le
  · intro i hi
    have hik : i < sel.bestKeys.length := by rw [hspec.length]; exact hi
    have hkey : sel.bestKeys.getD i 0 < rows * V := hspec.lt _ (getD_mem_of_lt _ _ _ hik)
    have hdiv : sel.bestKeys.getD i 0 / sel.Probs.columns < rows := by
      rw [hspec.columns_eq]; exact div_lt_of_lt_mul _ _ _ hkey
    have hprev : sel.bestKeys.getD i 0 / sel.Probs.columns < prevHyps.length := by
      rw [hwf.prevHyps_length]; exact hdiv
    refine ⟨?_, by rw [hPlen]; exact hkey, ?_, ?_, ?_, ?_, ?_⟩
    · rw [← getElem?_eq_some_getD sel.bestKeys i 0 hik, hbest, List.getElem?_take_of_lt hi]
    · intro s hs
      have hsne := hwf.scorers_ne
      cases scorers with
      | nil => exact absurd rfl hsne
      | cons s0 rest =>
        simp only [overwriteFirst, List.mem_cons] at hs
        rcases hs with rfl | hs1
        · simp only; rw [hPlen]; exact hkey
        · obtain ⟨hr, hc, hswf⟩ := hwf.shape s (List.mem_cons_of_mem _ hs1)
          unfold ArrayMatrix.WF at hswf
          rw [hswf, hr, hc]; exact hkey
    · obtain ⟨parent, hp⟩ := hheap _ (getD_mem_of_lt prevHyps _ 0 hprev)
      refine ⟨_, parent, getElem?_eq_some_getD prevHyps _ 0 hprev, hp, ?_⟩
      intro j hj
      have := backfill_length scorers.length parent
      omega
    · intro hf
      rw [hspec.columns_eq]
      exact Nat.lt_of_lt_of_le (Nat.mod_lt _ hwf.columns_pos) (hwf.filter hf)
    · intro ha s hs
      obtain ⟨att, h1, h2⟩ := hwf.attention ha s hs
      exact ⟨att, h1, Nat.lt_of_lt_of_le hdiv h2⟩
    · intro hn j hj
      rw [hspec.breakDowns, if_pos hn]
      cases j with
      | zero =>
        refine ⟨_, List.getElem?_cons_zero, ?_⟩
        rw [hspec.costs, List.length_map]; exact hik
      | succ t =>
        have ht : t < (overwriteFirst scorers sel.Probs).length := by
          rw [overwriteFirst_length]; omega
        refine ⟨sel.bestKeys.map (overwriteFirst scorers sel.Probs)[t].probs.cell, ?_, ?_⟩
        · rw [List.getElem?_cons_succ, List.getElem?_map, List.getElem?_eq_getElem ht]
          rfl
        · rw [List.length_map]; exact hik

theorem CalcBeam_total_witness :
    ((CalcBeam fullSelf sortedNthElement [0, 1] fullScorers scenarioFilter 2
        scenarioWorld).world.heap.drop 2).map
      (fun hyp => (hyp.prevHyp, hyp.prevIndex, hyp.word, hyp.cost, hyp.alignments,
        hyp.costBreakdown)) =
      [(some 1, 1, 77, 41/20, [[1/2, 1/2], [1, 0]], [41/40, 41/20]),
       (some 0, 0, 77, 17/10, [[1/4, 3/4], [1/3, 2/3]], [17/20, 17/10])] ∧
    (CalcBeam fullSelf sortedNthElement [0, 1] fullScorers scenarioFilter 2
      scenarioWorld).error = none ∧
    (CalcBeam fullSelf sortedNthElement [0, 1] fullScorers scenarioFilter 2
      scenarioWorld).world.heap.length = scenarioWorld.heap.length + 2 ∧
    (CalcBeam fullSelf sortedNthElement [0, 1] fullScorers scenarioFilter 2
      scenarioWorld).world.beams 0 =
      scenarioWorld.beams 0 ++ List.range' scenarioWorld.heap.length 2 :=
  ⟨by with_unfolding_all rfl,
   (CalcBeam_total fullSelf sortedNthElement [0, 1] fullScorers scenarioFilter 2
      scenarioWorld 2 3 sortedNthElement_contract full_wellFormed).1,
   (CalcBeam_total fullSelf sortedNthElement [0, 1] fullScorers scenarioFilter 2
      scenarioWorld 2 3 sortedNthElement_contract full_wellFormed).2.1,
   (CalcBeam_total fullSelf sortedNthElement [0, 1] fullScorers scenarioFilter 2
      scenarioWorld 2 3 sortedNthElement_contract full_wellFormed).2.2.1⟩

end CPU
end amunmt
